import Mathlib

/-!
The program cconv: a verification development.

Shallow embedding of the conversion pipeline of `cconv.c`: the chunk
streams (`argv_get`, `reducer_get`, `expander_get`), the text to binary
encoder (`inconv_get`) and the binary to text decoder (`outconv_get`)
for the integer family, strings, BCN codes and dates (`text2date`),
together with the C library routines they call (`strtol`, `strtoul`,
`sprintf`, `sscanf`, `strtok`, `mktime`), modelled after ISO C and POSIX
on an LP64 target.

Conventions.
* A byte is a natural number below 256; a chunk is a list of bytes.
* A C string is the list of its characters; the end of the list stands
  for the terminating NUL.
* Machine integers are `Int`/`Nat` with explicit wrapping.
* A producer returns a pair `(num, data)`; `num = -1` is end of stream.
* Byte order is a parameter `be` (`true` = big endian), so every result
  holds for both native byte orders.
-/

namespace Cconv

/-! ## Machine integers and the scalar union -/

/-- A chunk of bytes, as delivered by a producer. -/
abbrev Chunk := List Nat

/-- Largest value of C type long, LP64. -/
def LONG_MAX : Int := 2 ^ 63 - 1

/-- Smallest value of C type long, LP64. -/
def LONG_MIN : Int := -(2 ^ 63)

/-- Largest value of C type unsigned long, LP64. -/
def ULONG_MAX : Nat := 2 ^ 64 - 1

/-- Conversion of an integer to the unsigned type of 8*w bits (reduction mod 2^(8w)). -/
def toUnsigned (w : Nat) (x : Int) : Nat := (x % (2 : Int) ^ (8 * w)).toNat

/-- Conversion of an unsigned value to the signed type of 8*w bits (two's complement). -/
def toSigned (w : Nat) (x : Nat) : Int :=
  if x % 2 ^ (8 * w) < 2 ^ (8 * w - 1) then ((x % 2 ^ (8 * w) : Nat) : Int)
  else ((x % 2 ^ (8 * w) : Nat) : Int) - (2 : Int) ^ (8 * w)

/-- Wrap an integer into the range of long (64-bit two's complement). -/
def wrap64 (x : Int) : Int := toSigned 8 (toUnsigned 8 x)

/-- Little-endian bytes of the w-byte object holding x. -/
def leBytes : Nat → Nat → Chunk
  | 0, _ => []
  | w + 1, x => x % 256 :: leBytes w (x / 256)

/-- Value of a little-endian byte string. -/
def leVal : Chunk → Nat
  | [] => 0
  | b :: bs => b + 256 * leVal bs

/-- Object representation: the w bytes, in memory order, of the unsigned value x. -/
def toBytes (be : Bool) (w : Nat) (x : Nat) : Chunk :=
  if be then (leBytes w x).reverse else leBytes w x

/-- Value of the unsigned integer whose object representation is bs. -/
def ofBytes (be : Bool) (bs : Chunk) : Nat :=
  if be then leVal bs.reverse else leVal bs

/-- C bswap16: `in.v = x; out.b[0] = in.b[1]; out.b[1] = in.b[0]; return out.v`.
The argument is converted to uint16_t first. -/
def bswap16 (be : Bool) (x : Nat) : Nat :=
  let inb := toBytes be 2 (x % 2 ^ 16)
  ofBytes be [inb.getD 1 0, inb.getD 0 0]

/-- C bswap32: the four bytes of the union copied in opposite order. -/
def bswap32 (be : Bool) (x : Nat) : Nat :=
  let inb := toBytes be 4 (x % 2 ^ 32)
  ofBytes be [inb.getD 3 0, inb.getD 2 0, inb.getD 1 0, inb.getD 0 0]

/-- C bswap64: the eight bytes of the union copied in opposite order
(the source declares the byte member as `char b[2]` but indexes 0..7 of
the 8-byte union). -/
def bswap64 (be : Bool) (x : Nat) : Nat :=
  let inb := toBytes be 8 (x % 2 ^ 64)
  ofBytes be [inb.getD 7 0, inb.getD 6 0, inb.getD 5 0, inb.getD 4 0,
              inb.getD 3 0, inb.getD 2 0, inb.getD 1 0, inb.getD 0 0]

/-! ## C library routines (ISO C, LP64) -/

/-- C isspace in the C locale: space, and the controls HT, LF, VT, FF, CR. -/
def isspace (c : Char) : Bool := c.toNat = 32 || (9 ≤ c.toNat && c.toNat ≤ 13)

/-- C isdigit. -/
def isdigit (c : Char) : Prop := 48 ≤ c.toNat ∧ c.toNat ≤ 57

instance (c : Char) : Decidable (isdigit c) := by unfold isdigit; infer_instance

/-- Value denoted by a string of decimal digits, most significant first. -/
def decimalValue (ds : List Char) : Nat :=
  ds.foldl (fun acc c => acc * 10 + (c.toNat - 48)) 0

/-- Value of a character as a digit of strtol: 0-9, then letters of either case for 10..35. -/
def digitVal (c : Char) : Option Nat :=
  if 48 ≤ c.toNat ∧ c.toNat ≤ 57 then some (c.toNat - 48)
  else if 97 ≤ c.toNat ∧ c.toNat ≤ 122 then some (c.toNat - 87)
  else if 65 ≤ c.toNat ∧ c.toNat ≤ 90 then some (c.toNat - 55)
  else none

/-- Digit accumulation of strtol: consume digits below the base, stop at the first other
character. An empty digit sequence gives 0 (no conversion is performed). -/
def scanDigits (base : Nat) : Nat → List Char → Nat
  | acc, [] => acc
  | acc, c :: cs =>
    match digitVal c with
    | some d => if d < base then scanDigits base (acc * base + d) cs else acc
    | none => acc

/-- Optional sign of the subject sequence of strtol: (negative, rest). -/
def scanSign : List Char → Bool × List Char
  | '-' :: t => (true, t)
  | '+' :: t => (false, t)
  | s => (false, s)

/-- Base selection of strtol after the sign: base 0 detects `0x`/`0X` (hexadecimal),
a leading `0` (octal) and otherwise decimal; base 16 skips an optional `0x`/`0X`. -/
def scanBase (base : Nat) (s : List Char) : Nat × List Char :=
  if base = 0 then
    match s with
    | '0' :: 'x' :: t => (16, t)
    | '0' :: 'X' :: t => (16, t)
    | '0' :: _ => (8, s)
    | _ => (10, s)
  else if base = 16 then
    match s with
    | '0' :: 'x' :: t => (16, t)
    | '0' :: 'X' :: t => (16, t)
    | _ => (16, s)
  else (base, s)

/-- Subject sequence of strtol/strtoul: skip white space, read the sign, choose the base,
accumulate the digits. Returns (negative, magnitude), the magnitude unbounded. -/
def scanInteger (text : List Char) (base : Nat) : Bool × Nat :=
  let s := text.dropWhile isspace
  let sg := scanSign s
  let bs := scanBase base sg.2
  (sg.1, scanDigits bs.1 0 bs.2)

/-- C strtol: the value, clamped to LONG_MIN/LONG_MAX on overflow, and whether errno was
set to ERANGE. -/
def strtol (text : List Char) (base : Nat) : Int × Bool :=
  let sc := scanInteger text base
  if sc.1 then
    if (2 : Int) ^ 63 < (sc.2 : Int) then (LONG_MIN, true) else (-(sc.2 : Int), false)
  else
    if LONG_MAX < (sc.2 : Int) then (LONG_MAX, true) else ((sc.2 : Int), false)

/-- C strtoul: the value as unsigned long, ULONG_MAX with ERANGE on overflow; a minus sign
negates the converted magnitude in the unsigned type. -/
def strtoul (text : List Char) (base : Nat) : Nat × Bool :=
  let sc := scanInteger text base
  if ULONG_MAX < sc.2 then (ULONG_MAX, true)
  else if sc.1 then ((2 ^ 64 - sc.2) % 2 ^ 64, false)
  else (sc.2, false)

/-- Digits of n in the given base, most significant first, as printed by printf. -/
def digitsOf (base : Nat) (n : Nat) : List Char := Nat.toDigits base n

/-- C sprintf with format "%ld". -/
def sprintf_ld (lval : Int) : List Char :=
  if lval < 0 then '-' :: digitsOf 10 lval.natAbs else digitsOf 10 lval.toNat

/-- C sprintf with format "%lu": the argument is read as unsigned long. -/
def sprintf_lu (lval : Int) : List Char := digitsOf 10 (toUnsigned 8 lval)

/-- C sprintf with format "%lo". -/
def sprintf_lo (lval : Int) : List Char := digitsOf 8 (toUnsigned 8 lval)

/-- C sprintf with format "%lx". -/
def sprintf_lx (lval : Int) : List Char := digitsOf 16 (toUnsigned 8 lval)

/-! ## lax_strtol -/

/-- Source lax_strtol: strtol, and when that reports a range error, strtoul; when that too
reports a range error, zero. -/
def lax_strtol (text : List Char) (base : Nat) : Int :=
  let r := strtol text base
  if (r.1 = LONG_MAX ∨ r.1 = LONG_MIN) ∧ r.2 = true then
    -- Not valid signed int - try unsigned
    let u := strtoul text base
    let lval := toSigned 8 u.1
    if toUnsigned 8 lval = ULONG_MAX ∧ u.2 = true then 0 else lval
  else r.1

/-! ## Formatted input and output (ISO C) -/

/-- Wrap an integer into the range of int (32-bit two's complement). -/
def wrap32 (x : Int) : Int := toSigned 4 (toUnsigned 4 x)

/-- C sprintf with format "%d". -/
def sprintf_d (v : Int) : List Char :=
  if v < 0 then '-' :: digitsOf 10 v.natAbs else digitsOf 10 v.toNat

/-- Directives of a scanf format: `%d` with an optional maximum field width, an ordinary
character, white space, and `%c`. -/
inductive Directive where
  | int (width : Option Nat)
  | lit (c : Char)
  | ws
  | chr
  deriving DecidableEq

/-- Reading of a scanf format string, for the directives used by the program: `%d`,
`%2d`-style widths of one digit, `%c`, white space and ordinary characters. -/
def parse_format : List Char → List Directive
  | [] => []
  | '%' :: 'd' :: r => Directive.int none :: parse_format r
  | '%' :: 'c' :: r => Directive.chr :: parse_format r
  | '%' :: w :: 'd' :: r => Directive.int (some (w.toNat - 48)) :: parse_format r
  | c :: r => (if isspace c then Directive.ws else Directive.lit c) :: parse_format r

/-- Outcome of one `%d` conversion: a value and the unread input, a matching failure, or
an input failure (end of input before any character of the field). -/
inductive Converted where
  | ok (v : Int) (rest : List Char)
  | matching
  | input
  deriving DecidableEq

/-- The `%d` conversion of scanf: skip white space, then read an optionally signed run of
decimal digits of at most `width` characters, sign included. The value is stored in an
int (a value outside the range of int is undefined in ISO C; it is wrapped here). -/
def scanf_d (width : Option Nat) (s : List Char) : Converted :=
  let s1 := s.dropWhile isspace
  match s1 with
  | [] => Converted.input
  | _ :: _ =>
    let field := match width with
      | some n => s1.take n
      | none => s1
    let sg := scanSign field
    let ds := sg.2.takeWhile (fun c => decide (isdigit c))
    if ds = [] then Converted.matching
    else
      Converted.ok
        (wrap32 (if sg.1 then -(decimalValue ds : Int) else (decimalValue ds : Int)))
        (s1.drop (field.length - sg.2.length + ds.length))

/-- The value sscanf returns when it stops on an input failure: EOF (-1) if no conversion
has been completed, else the number of conversions. -/
def scanf_eof (count : Int) : Int := if count = 0 then -1 else count

/-- C sscanf, directive by directive: the number of conversions assigned so far and the
int values assigned by `%d`, in order. -/
def sscanf_from : List Directive → List Char → Int → List Int → Int × List Int
  | [], _, n, vs => (n, vs)
  | Directive.ws :: fs, s, n, vs => sscanf_from fs (s.dropWhile isspace) n vs
  | Directive.lit c :: fs, s, n, vs =>
    match s with
    | [] => (scanf_eof n, vs)
    | d :: t => if d = c then sscanf_from fs t n vs else (n, vs)
  | Directive.chr :: fs, s, n, vs =>
    match s with
    | [] => (scanf_eof n, vs)
    | _ :: t => sscanf_from fs t (n + 1) vs
  | Directive.int w :: fs, s, n, vs =>
    match scanf_d w s with
    | Converted.input => (scanf_eof n, vs)
    | Converted.matching => (n, vs)
    | Converted.ok v rest => sscanf_from fs rest (n + 1) (vs ++ [v])

/-- C sscanf(str, format, ...): the return value and the ints assigned, in order. -/
def sscanf (str : List Char) (format : String) : Int × List Int :=
  sscanf_from (parse_format format.toList) str 0 []

/-- The i-th int assigned by a sscanf call. -/
def assigned (r : Int × List Int) (i : Nat) : Int := r.2.getD i 0

/-- C strtok applied repeatedly: the maximal runs of characters that are not delimiters. -/
def strtok_from (delims : List Char) : List Char → List Char → List (List Char)
  | [], cur => if cur = [] then [] else [cur]
  | c :: cs, cur =>
    if c ∈ delims then
      if cur = [] then strtok_from delims cs [] else cur :: strtok_from delims cs []
    else strtok_from delims cs (cur ++ [c])

/-- The tokens `strtok(str, delims)`, `strtok(NULL, delims)`, ... deliver until NULL. -/
def strtok (str : List Char) (delims : String) : List (List Char) :=
  strtok_from delims.toList str []

/-! ## Conversion control -/

/-- Source enum Type. -/
inductive CType where
  | TYPE_RAW | TYPE_CHAR | TYPE_SHORT | TYPE_INT | TYPE_LONG | TYPE_FLOAT | TYPE_DOUBLE
  | TYPE_STRING | TYPE_POINT | TYPE_BCN | TYPE_NORDFLOAT | TYPE_DATE
  deriving DecidableEq

/-- Source enum Style. -/
inductive Style where
  | STYLE_DEFAULT | STYLE_BINARY | STYLE_OCTAL | STYLE_DECIMAL | STYLE_HEX
  deriving DecidableEq

/-- Source enum Quoting. -/
inductive Quoting where
  | QUOTING_NONE | QUOTING_SHELL | QUOTING_TCL
  deriving DecidableEq

/-- Source struct Conversion. -/
structure Conversion where
  type : CType
  style : Style
  quoting : Quoting
  unsignedp : Bool
  byteswap : Bool
  deriving DecidableEq

/-- Source conversion_create. -/
def conversion_create : Conversion :=
  { type := CType.TYPE_INT, style := Style.STYLE_DEFAULT, quoting := Quoting.QUOTING_NONE,
    unsignedp := false, byteswap := false }

/-- Value of sizeof(char). -/
def sizeof_char : Nat := 1

/-- Value of sizeof(short). -/
def sizeof_short : Nat := 2

/-- Value of sizeof(int). -/
def sizeof_int : Nat := 4

/-- Value of sizeof(long) on LP64. -/
def sizeof_long : Nat := 8

/-- What a call of a converter stage does: it returns `num` with `*data` designating the
bytes `data`, or it calls `fail` (message, then exit), or it runs a conversion that lies
outside this development (floating point, date, platform packers). -/
inductive Outcome (α : Type) where
  | ret (num : Int) (data : List α)
  | exit (msg : String)
  | other
  deriving DecidableEq

/-! ## Calendar time (ISO C, POSIX) -/

/-- C struct tm. -/
structure Tm where
  tm_sec : Int
  tm_min : Int
  tm_hour : Int
  tm_mday : Int
  tm_mon : Int
  tm_year : Int
  tm_wday : Int
  tm_yday : Int
  tm_isdst : Int
  deriving DecidableEq

/-- Days of a common year before the first day of month `mon` (0 = January). -/
def days_before_month (mon : Int) : Int :=
  [0, 31, 59, 90, 120, 151, 181, 212, 243, 273, 304, 334].getD mon.toNat 0

/-- Whether the year (anno Domini) is a leap year. -/
def is_leap_year (year : Int) : Bool :=
  (year % 4 = 0 && year % 100 ≠ 0) || year % 400 = 0

/-- C mktime in a time zone whose time is UTC throughout (no offset, no daylight saving),
for fields within their normal ranges: the POSIX "Seconds Since the Epoch" of the
broken-down time, the day of the year being taken from tm_mon and tm_mday. -/
def mktime_utc (tm : Tm) : Int :=
  let yday := days_before_month tm.tm_mon
    + (if is_leap_year (tm.tm_year + 1900) && decide (2 ≤ tm.tm_mon) then 1 else 0)
    + tm.tm_mday - 1
  tm.tm_sec + tm.tm_min * 60 + tm.tm_hour * 3600 + yday * 86400
    + (tm.tm_year - 70) * 31536000 + ((tm.tm_year - 69) / 4) * 86400
    - ((tm.tm_year - 1) / 100) * 86400 + ((tm.tm_year + 299) / 400) * 86400

/-! ## text2date -/

/-- Source table wday of text2date. -/
def wday : List (List Char) :=
  ["Sun".toList, "Mon".toList, "Tue".toList, "Wed".toList, "Thu".toList, "Fri".toList,
   "Sat".toList]

/-- Source table mon of text2date. -/
def mon : List (List Char) :=
  ["Jan".toList, "Feb".toList, "Mar".toList, "Apr".toList, "May".toList, "Jun".toList,
   "Jul".toList, "Aug".toList, "Sep".toList, "Oct".toList, "Nov".toList, "Dec".toList]

/-- Source table month of text2date (the ninth entry is spelt as in the source). -/
def month : List (List Char) :=
  ["January".toList, "February".toList, "March".toList, "April".toList, "May".toList,
   "June".toList, "July".toList, "August".toList, "Sepember".toList, "October".toList,
   "November".toList, "December".toList]

/-- The loop of amatch from index i on: the index of the first entry equal to str, or -1. -/
def amatch_from (str : List Char) : List (List Char) → Int → Int
  | [], _ => -1
  | v :: vs, i => if str = v then i else amatch_from str vs (i + 1)

/-- Source amatch: index of str among the first nval entries of vals, or -1. -/
def amatch (str : List Char) (vals : List (List Char)) (nval : Nat) : Int :=
  amatch_from str (vals.take nval) 0

/-- The branch of the token cascade of text2date that a token takes, with the integers
the branch uses. The two month-name branches have the same body, and so have the
YYYY-MM-DD and the YYYY/MM/DD branches (the year after windowing). -/
inductive DateToken where
  | weekday
  | monthname (i1 : Int)
  | combined (i1 i2 i3 i4 i5 i6 : Int)
  | hms (i1 i2 i3 : Int)
  | hm (i1 i2 : Int)
  | mday (i1 : Int)
  | year (i1 : Int)
  | ymd (i1 i2 i3 : Int)
  | md (i1 i2 : Int)
  | gmt
  | bst
  deriving DecidableEq

/-- The year test of the YYYY/MM/DD branch:
`(i1 >= 1970 && i1 < 2038) || (i1 >= 70 && i1 <= 99 && (i1 += 1900)) ||
(i1 >= 0 && i1 < 38 && (i1 += 2000))`, giving the value of i1 afterwards when it holds. -/
def year_window (i1 : Int) : Option Int :=
  if 1970 ≤ i1 ∧ i1 < 2038 then some i1
  else if 70 ≤ i1 ∧ i1 ≤ 99 then some (i1 + 1900)
  else if 0 ≤ i1 ∧ i1 < 38 then some (i1 + 2000)
  else none

/-- The conditions of the if / else-if cascade of text2date, in source order: the first
branch whose condition the token satisfies, or none when the final else is reached. -/
def text2date_match (tok : List Char) : Option DateToken :=
  let len : Int := tok.length
  let c20 := sscanf tok "%4d-%2d-%2dT%2d:%2d:%2dZ%c"
  let c16 := sscanf tok "%4d%2d%2dT%2d%2d%2dZ%c"
  let cmb := if len = 20 then c20 else c16
  let t3 := sscanf tok "%2d:%2d:%2d%c"
  let t2 := sscanf tok "%2d:%2d%c"
  let n1 := sscanf tok "%d%c"
  let d3 := sscanf tok "%d-%d-%d%c"
  let s3 := sscanf tok "%d/%d/%d%c"
  let s2 := sscanf tok "%d/%d%c"
  if amatch tok wday 7 ≥ 0 then some DateToken.weekday
  else if amatch tok mon 12 ≥ 0 then some (DateToken.monthname (amatch tok mon 12))
  else if amatch tok month 12 ≥ 0 then some (DateToken.monthname (amatch tok month 12))
  else if ((len = 20 ∧ c20.1 = 6) ∨ (len = 16 ∧ c16.1 = 6)) ∧
      assigned cmb 0 ≥ 1970 ∧ assigned cmb 0 < 2038 ∧
      assigned cmb 1 ≥ 1 ∧ assigned cmb 1 < 12 ∧
      assigned cmb 2 ≥ 1 ∧ assigned cmb 2 < 31 ∧
      assigned cmb 3 ≥ 0 ∧ assigned cmb 3 < 24 ∧
      assigned cmb 4 ≥ 0 ∧ assigned cmb 4 < 60 ∧
      assigned cmb 5 ≥ 0 ∧ assigned cmb 5 < 60 then
    some (DateToken.combined (assigned cmb 0) (assigned cmb 1) (assigned cmb 2)
      (assigned cmb 3) (assigned cmb 4) (assigned cmb 5))
  else if len = 8 ∧ t3.1 = 3 ∧
      assigned t3 0 ≥ 0 ∧ assigned t3 0 < 24 ∧
      assigned t3 1 ≥ 0 ∧ assigned t3 1 < 60 ∧
      assigned t3 2 ≥ 0 ∧ assigned t3 2 < 60 then
    some (DateToken.hms (assigned t3 0) (assigned t3 1) (assigned t3 2))
  else if len = 5 ∧ t2.1 = 2 ∧
      assigned t2 0 ≥ 0 ∧ assigned t2 0 < 24 ∧
      assigned t2 1 ≥ 0 ∧ assigned t2 1 < 60 then
    some (DateToken.hm (assigned t2 0) (assigned t2 1))
  else if n1.1 = 1 ∧ assigned n1 0 ≥ 1 ∧ assigned n1 0 ≤ 31 then
    some (DateToken.mday (assigned n1 0))
  else if n1.1 = 1 ∧ assigned n1 0 ≥ 1970 ∧ assigned n1 0 < 2038 then
    some (DateToken.year (assigned n1 0))
  else if d3.1 = 3 ∧ assigned d3 0 ≥ 1970 ∧ assigned d3 0 < 2038 ∧
      assigned d3 1 ≥ 1 ∧ assigned d3 1 < 12 ∧
      assigned d3 2 ≥ 1 ∧ assigned d3 2 < 31 then
    some (DateToken.ymd (assigned d3 0) (assigned d3 1) (assigned d3 2))
  else if s3.1 = 3 ∧ (year_window (assigned s3 0)).isSome ∧
      assigned s3 1 ≥ 1 ∧ assigned s3 1 < 12 ∧
      assigned s3 2 ≥ 1 ∧ assigned s3 2 < 31 then
    some (DateToken.ymd ((year_window (assigned s3 0)).getD 0) (assigned s3 1)
      (assigned s3 2))
  else if s2.1 = 3 ∧ assigned s2 0 ≥ 1 ∧ assigned s2 0 < 12 ∧
      assigned s2 1 ≥ 1 ∧ assigned s2 1 < 31 then
    some (DateToken.md (assigned s2 0) (assigned s2 1))
  else if tok = "GMT".toList then some DateToken.gmt
  else if tok = "BST".toList then some DateToken.bst
  else none

/-- The variables of text2date that the token loop updates: the struct tm `date` and the
`have_` flags. -/
structure DateScan where
  date : Tm
  have_year : Bool
  have_month : Bool
  have_day : Bool
  have_hour : Bool
  have_min : Bool
  have_sec : Bool
  have_dst : Bool
  deriving DecidableEq

/-- The variables of text2date before the loop: `date = *localtime(&now)` and no flag set;
`now` is the current local broken-down time. -/
def text2date_init (now : Tm) : DateScan :=
  { date := now, have_year := false, have_month := false, have_day := false,
    have_hour := false, have_min := false, have_sec := false, have_dst := false }

/-- The bodies of the branches of the token cascade of text2date. -/
def text2date_set (s : DateScan) : DateToken → DateScan
  | DateToken.weekday => s
  | DateToken.monthname i1 =>
    { s with date := { s.date with tm_mon := i1 }, have_month := true }
  | DateToken.combined i1 i2 i3 i4 i5 i6 =>
    { date := { s.date with tm_year := i1 - 1900, tm_mon := i2 - 1, tm_mday := i3,
                            tm_hour := i4, tm_min := i5, tm_sec := i6, tm_isdst := 0 },
      have_year := true, have_month := true, have_day := true, have_hour := true,
      have_min := true, have_sec := true, have_dst := true }
  | DateToken.hms i1 i2 i3 =>
    { s with date := { s.date with tm_hour := i1, tm_min := i2, tm_sec := i3 },
             have_hour := true, have_min := true, have_sec := true }
  | DateToken.hm i1 i2 =>
    { s with date := { s.date with tm_hour := i1, tm_min := i2 },
             have_hour := true, have_min := true }
  | DateToken.mday i1 =>
    { s with date := { s.date with tm_mday := i1 }, have_day := true }
  | DateToken.year i1 =>
    { s with date := { s.date with tm_year := i1 - 1900 }, have_year := true }
  | DateToken.ymd i1 i2 i3 =>
    { s with date := { s.date with tm_year := i1 - 1900, tm_mon := i2 - 1, tm_mday := i3 },
             have_year := true, have_month := true, have_day := true }
  | DateToken.md i1 i2 =>
    { s with date := { s.date with tm_mon := i1 - 1, tm_mday := i2 },
             have_month := true, have_day := true }
  | DateToken.gmt => { s with date := { s.date with tm_isdst := 0 }, have_dst := true }
  | DateToken.bst => { s with date := { s.date with tm_isdst := 1 }, have_dst := true }

/-- The token loop of text2date over the tokens strtok delivers: the variables after the
last token, or none when a token reaches the final else (`return FALSE`). -/
def text2date_loop : List (List Char) → DateScan → Option DateScan
  | [], s => some s
  | tok :: rest, s =>
    match text2date_match tok with
    | none => none
    | some k => text2date_loop rest (text2date_set s k)

/-- The statements of text2date between the loop and the call of mktime: the defaults for
the time of day and for tm_isdst. The result is the struct tm handed to mktime. -/
def text2date_final (s : DateScan) (utc : Bool) : Tm :=
  let d1 : Tm :=
    if s.have_year || s.have_month || s.have_day then
      { s.date with tm_hour := if !s.have_hour then 0 else s.date.tm_hour,
                    tm_min := if !s.have_min then 0 else s.date.tm_min,
                    tm_sec := if !s.have_sec then 0 else s.date.tm_sec }
    else
      { s.date with tm_sec := if s.have_min && !s.have_sec then 0 else s.date.tm_sec }
  if !s.have_dst then
    if utc then { d1 with tm_isdst := 0 } else { d1 with tm_isdst := -1 }
  else d1

/-- Source text2date: (return value, `*p_time` afterwards). `now` is the current local
broken-down time (`*localtime(&now)` with `now = time(NULL)`) and `mktime` the C library
function of that name. -/
def text2date (now : Tm) (mktime : Tm → Int) (str : List Char) (p_time : Int) (utc : Bool) :
    Bool × Int :=
  match text2date_loop (strtok str " ,") (text2date_init now) with
  | none => (false, p_time)
  | some s => (true, mktime (text2date_final s utc))

/-! ## BCN codes -/

/-- C `x & y` on int operands. -/
def int_and (x y : Int) : Int := toSigned 4 (Nat.land (toUnsigned 4 x) (toUnsigned 4 y))

/-- C `x | y` on int operands. -/
def int_or (x y : Int) : Int := toSigned 4 (Nat.lor (toUnsigned 4 x) (toUnsigned 4 y))

/-- C `x << k` on an int operand (the result wrapped to int). -/
def int_shl (x : Int) (k : Nat) : Int := toSigned 4 (toUnsigned 4 x * 2 ^ k)

/-- C `x >> k` on an int operand: the arithmetic shift, which rounds down. -/
def int_shr (x : Int) (k : Nat) : Int := x / 2 ^ k

/-- Source macro cmgbcn(bcn, b, c, n): the values assigned to `*b`, `*c`, `*n`. -/
def cmgbcn (bcn : Int) : Int × Int × Int :=
  (int_shr bcn 11, int_and (int_shr bcn 5) 63, int_and bcn 31)

/-- Source macro cmdbcn(bcn, b, c, n): the int value assigned to `*bcn`. -/
def cmdbcn (b c n : Int) : Int :=
  int_or (int_or (int_shl (int_and b 15) 11) (int_shl (int_and c 63) 5)) (int_and n 31)

/-- Broken-down time used in examples: Wednesday 2026-03-04 12:34:56, standard time. -/
def tm_example : Tm :=
  { tm_sec := 56, tm_min := 34, tm_hour := 12, tm_mday := 4, tm_mon := 2, tm_year := 126,
    tm_wday := 3, tm_yday := 62, tm_isdst := 0 }

/-- Value of sizeof(time_t) on LP64. -/
def sizeof_time_t : Nat := 8

/-! ## Input converter -/

/-- The STYLE_BINARY loop of inconv_get: `while (*str == '0' || *str == '1')` with
`lval *= 2; if (*str == '1') lval += 1; str++`, in long arithmetic. -/
def binary_scan : Int → List Char → Int
  | lval, [] => lval
  | lval, c :: cs =>
    if c = '0' ∨ c = '1' then
      let lval2 := wrap64 (lval * 2)
      binary_scan (if c = '1' then wrap64 (lval2 + 1) else lval2) cs
    else lval

/-- The style switch of inconv_get: the long value parsed from the token. -/
def inconv_lval (style : Style) (str : List Char) : Int :=
  match style with
  | Style.STYLE_DEFAULT => lax_strtol str 0
  | Style.STYLE_BINARY => binary_scan 0 str
  | Style.STYLE_OCTAL => lax_strtol str 8
  | Style.STYLE_DECIMAL => lax_strtol str 10
  | Style.STYLE_HEX => lax_strtol str 16

/-- Source inconv_get. The child call is given by its response to the requested size;
the returned chunk is the first `num` bytes of the scalar union, which are exactly the
bytes of the member just stored. `now` and `mktime` are the clock and the C library
function that text2date uses (type Date only). -/
def inconv_get (now : Tm) (mktime : Tm → Int) (be : Bool) (conv : Conversion)
    (child : Int → Int × List Char) : Outcome Nat :=
  let got := child 1024
  let str := got.2
  if got.1 < 0 then Outcome.ret (-1) []
  else
    match conv.type with
    | CType.TYPE_CHAR =>
      let lval := inconv_lval conv.style str
      Outcome.ret sizeof_char (toBytes be sizeof_char (toUnsigned sizeof_char lval))
    | CType.TYPE_SHORT =>
      let lval := inconv_lval conv.style str
      let sval := if conv.byteswap then bswap16 be (toUnsigned 2 lval) else toUnsigned 2 lval
      Outcome.ret sizeof_short (toBytes be sizeof_short sval)
    | CType.TYPE_INT =>
      let lval := inconv_lval conv.style str
      let ival := if conv.byteswap then bswap32 be (toUnsigned 4 lval) else toUnsigned 4 lval
      Outcome.ret sizeof_int (toBytes be sizeof_int ival)
    | CType.TYPE_LONG =>
      let lval := inconv_lval conv.style str
      let v :=
        if conv.byteswap then
          if sizeof_long = 8 then bswap64 be (toUnsigned 8 lval)
          else bswap32 be (toUnsigned 4 lval)
        else toUnsigned sizeof_long lval
      Outcome.ret sizeof_long (toBytes be sizeof_long v)
    | CType.TYPE_STRING =>
      match conv.quoting with
      | Quoting.QUOTING_NONE => Outcome.ret str.length (str.map Char.toNat)
      | Quoting.QUOTING_SHELL => Outcome.exit "Shell quoting not implemented yet"
      | Quoting.QUOTING_TCL => Outcome.exit "Tcl quoting not implemented yet"
    | CType.TYPE_BCN =>
      let r1 := sscanf str "%d %d %d"
      let r2 := sscanf str "%d,%d,%d"
      if r1.1 = 3 ∨ r2.1 = 3 then
        let r := if r1.1 = 3 then r1 else r2
        let packed := toUnsigned 2 (cmdbcn (assigned r 0) (assigned r 1) (assigned r 2))
        let sval := if conv.byteswap then bswap16 be packed else packed
        Outcome.ret sizeof_short (toBytes be sizeof_short sval)
      else Outcome.exit "Unrecognised BCN"
    | CType.TYPE_DATE =>
      -- the previous content of u.time is taken to be 0: it is overwritten on success and
      -- not read on failure
      let r := text2date now mktime str 0 conv.unsignedp
      if r.1 then
        let t := toUnsigned 8 r.2
        let time :=
          if conv.byteswap then
            if sizeof_time_t = 8 then bswap64 be t else bswap32 be t
          else t
        Outcome.ret sizeof_time_t (toBytes be sizeof_time_t time)
      else Outcome.exit "Unrecognised date"
    | CType.TYPE_RAW => Outcome.exit "BUG: raw type in input converter"
    | _ => Outcome.other

/-! ## Output conversion -/

/-- Value of the C expression `1 << k` of type int. Counts below the width give 2^k
wrapped to int (so `1 << 31` is INT_MIN); a count of 32 or more is undefined in C and
its result is whatever `wide k` is, wrapped to int. -/
def int_shl_one (wide : Nat → Int) (k : Nat) : Int :=
  if k < 32 then toSigned 4 (2 ^ k) else toSigned 4 (toUnsigned 4 (wide k))

/-- The STYLE_BINARY loop of outconv_get: for i below `size` (already multiplied by 8),
`buffer[i] = (lval & (1 << (size-1 - i))) ? '1' : '0'`; the int mask is converted to
long for the bitwise and. -/
def binary_text (wide : Nat → Int) (size : Nat) (lval : Int) : List Char :=
  (List.range size).map fun i =>
    if Nat.land (toUnsigned 8 lval) (toUnsigned 8 (int_shl_one wide (size - 1 - i))) ≠ 0
    then '1' else '0'

/-- The style switch of outconv_get: the text written into the buffer. -/
def outconv_text (wide : Nat → Int) (conv : Conversion) (size : Nat) (lval : Int) :
    List Char :=
  match conv.style with
  | Style.STYLE_BINARY => binary_text wide (size * 8) lval
  | Style.STYLE_OCTAL => sprintf_lo lval
  | Style.STYLE_DEFAULT => if !conv.unsignedp then sprintf_ld lval else sprintf_lu lval
  | Style.STYLE_DECIMAL => if !conv.unsignedp then sprintf_ld lval else sprintf_lu lval
  | Style.STYLE_HEX => sprintf_lx lval

/-- The test `! conv->unsignedp && (style == STYLE_DECIMAL || style == STYLE_DEFAULT)`. -/
def signedRead (conv : Conversion) : Bool :=
  !conv.unsignedp && (conv.style == Style.STYLE_DECIMAL || conv.style == Style.STYLE_DEFAULT)

/-- Size of the member `char buffer[40]` of struct Outconv. -/
def sizeof_buffer : Nat := 40

/-- Source outconv_get. The child call is given by its response to the requested size;
`GETD(u.bytes, n)` copies the first n bytes delivered into the scalar union. The result
is the text in the buffer with its strlen. -/
def outconv_get (be : Bool) (wide : Nat → Int) (conv : Conversion)
    (child : Int → Int × Chunk) : Outcome Char :=
  match conv.type with
  | CType.TYPE_CHAR =>
    let got := child sizeof_char
    if got.1 < 0 then Outcome.ret (-1) []
    else
      let cval := ofBytes be (got.2.take sizeof_char)
      let lval : Int := if signedRead conv then toSigned 1 cval else ((cval % 2 ^ 8 : Nat) : Int)
      let text := outconv_text wide conv sizeof_char lval
      Outcome.ret text.length text
  | CType.TYPE_SHORT =>
    let got := child sizeof_short
    if got.1 < 0 then Outcome.ret (-1) []
    else
      let sval0 := ofBytes be (got.2.take sizeof_short)
      let sval := if conv.byteswap then bswap16 be sval0 else sval0
      let lval : Int := if signedRead conv then toSigned 2 sval else ((sval % 2 ^ 16 : Nat) : Int)
      let text := outconv_text wide conv sizeof_short lval
      Outcome.ret text.length text
  | CType.TYPE_INT =>
    let got := child sizeof_int
    if got.1 < 0 then Outcome.ret (-1) []
    else
      let ival0 := ofBytes be (got.2.take sizeof_int)
      let ival := if conv.byteswap then bswap32 be ival0 else ival0
      let lval : Int := if signedRead conv then toSigned 4 ival else ((ival % 2 ^ 32 : Nat) : Int)
      let text := outconv_text wide conv sizeof_int lval
      Outcome.ret text.length text
  | CType.TYPE_LONG =>
    let got := child sizeof_long
    if got.1 < 0 then Outcome.ret (-1) []
    else
      let lval0 := ofBytes be (got.2.take sizeof_long)
      let lval1 :=
        if conv.byteswap then
          if sizeof_long = 8 then bswap64 be lval0 else bswap32 be lval0
        else lval0
      let lval : Int := toSigned 8 lval1
      let text := outconv_text wide conv sizeof_long lval
      Outcome.ret text.length text
  | CType.TYPE_STRING =>
    let got := child 1024
    if got.1 < 0 then Outcome.ret (-1) []
    else Outcome.ret got.1 (got.2.map Char.ofNat)
  | CType.TYPE_BCN =>
    let got := child sizeof_short
    if got.1 < 0 then Outcome.ret (-1) []
    else
      let sval0 := ofBytes be (got.2.take sizeof_short)
      let sval := if conv.byteswap then bswap16 be sval0 else sval0
      let bcn := cmgbcn (toSigned 2 sval)
      let text := sprintf_d bcn.1 ++ [','] ++ sprintf_d bcn.2.1 ++ [','] ++ sprintf_d bcn.2.2
      Outcome.ret text.length text
  | CType.TYPE_RAW => Outcome.exit "BUG: raw type in output converter"
  | _ => Outcome.other

/-! ## String producer from argv -/

/-- Source struct ArgvStream: the number of arguments left and the arguments that `argv`
points at. An argument is a C string, held without its terminating NUL. -/
structure ArgvStream where
  argc : Int
  argv : List (List Char)
  deriving DecidableEq

/-- Source argv_create. -/
def argv_create (argc : Int) (argv : List (List Char)) : ArgvStream :=
  { argc := argc, argv := argv }

/-- Source argv_get: (num, the string designated by `*data`, new state). The requested
size is not read. -/
def argv_get (a : ArgvStream) (_size : Int) : (Int × List Char) × ArgvStream :=
  if a.argc ≤ 0 then ((-1, []), a)
  else
    let data := a.argv.headD []
    (((data.length : Int), data), { argc := a.argc - 1, argv := a.argv.tail })

/-- State of the ArgvStream after the first i calls of argv_get, the j-th call requesting
`req j` bytes. -/
def argv_after (req : Nat → Int) : Nat → ArgvStream → ArgvStream
  | 0, a => a
  | i + 1, a => (argv_get (argv_after req i a) (req i)).2

/-! ## Size reducer stream -/

/-- An upstream producer that delivers the chunks of a given finite sequence one per call,
whatever size is requested (a chunk may be longer than requested, or empty), and then
signals end of stream. Its closure is the list of chunks still to come. -/
def chunks_get (closure : List Chunk) (_size : Int) : (Int × Chunk) × List Chunk :=
  match closure with
  | [] => ((-1, []), [])
  | c :: rest => (((c.length : Int), c), rest)

/-- Source struct Reducer, over the upstream `chunks_get`. The field `pulls` is a ghost
counter of the calls made to the child. -/
structure Reducer where
  closure : List Chunk
  last : Chunk
  size : Int
  offset : Int
  pulls : Nat
  deriving DecidableEq

/-- Source reducer_create. -/
def reducer_create (closure : List Chunk) : Reducer :=
  { closure := closure, last := [], size := 0, offset := 0, pulls := 0 }

/-- The loop `while (this->offset >= this->size)` of reducer_get, by recursion on the
chunks still to come. Returns whether the loop left through `return -1`, and the state.
When the upstream is exhausted the child answers -1, which is stored in `size` with
offset 0; the next test of the loop then returns -1 (that iteration is written out). -/
def reducer_while (last : Chunk) (size offset : Int) (pulls : Nat) :
    List Chunk → Bool × Reducer
  | [] =>
    if offset ≥ size then
      if size = -1 then (true, ⟨[], last, size, offset, pulls⟩)
      else (true, ⟨[], last, -1, 0, pulls + 1⟩)
    else (false, ⟨[], last, size, offset, pulls⟩)
  | c :: rest =>
    if offset ≥ size then
      if size = -1 then (true, ⟨c :: rest, last, size, offset, pulls⟩)
      else reducer_while c (c.length : Int) 0 (pulls + 1) rest
    else (false, ⟨c :: rest, last, size, offset, pulls⟩)

/-- State of the Reducer when the refill loop of a call is left. -/
def reducer_fill (r : Reducer) : Bool × Reducer :=
  reducer_while r.last r.size r.offset r.pulls r.closure

/-- Source reducer_get: (num, bytes designated by `*data`, new state). -/
def reducer_get (r : Reducer) (size : Int) : (Int × Chunk) × Reducer :=
  let f := reducer_fill r
  if f.1 then ((-1, []), f.2)
  else
    let r1 := f.2
    let data := r1.last.drop r1.offset.toNat
    let num0 := r1.size - r1.offset
    let num := if num0 > size then size else num0
    ((num, data.take num.toNat), { r1 with offset := r1.offset + num })

/-- States of a Reducer reached from reducer_create by calls of reducer_get with
non-negative requested sizes. -/
inductive Reducer.Reached : Reducer → Prop where
  | create (closure : List Chunk) : Reducer.Reached (reducer_create closure)
  | get (r : Reducer) (size : Int) (h : Reducer.Reached r) (hs : 0 ≤ size) :
      Reducer.Reached (reducer_get r size).2

/-- The sink loop `while ((num = prod(stream, &str, size)) >= 0)` over reducer_get, the
i-th call requesting `req i` bytes: the chunks returned before end of stream, or `none`
when the fuel runs out first. -/
def reducer_drive (req : Nat → Int) : Nat → Nat → Reducer → Option (List Chunk)
  | 0, _, _ => none
  | fuel + 1, i, r =>
    let g := reducer_get r (req i)
    if g.1.1 < 0 then some []
    else (reducer_drive req fuel (i + 1) g.2).map (g.1.2 :: ·)

/-! ## Data expander -/

/-- A producer over a closure of type σ: the response (num, data) to a requested size, and
the new closure. -/
abbrev Producer (σ : Type) := σ → Int → (Int × Chunk) × σ

/-- The at-most discipline: a pull of k ≥ 1 bytes answers end of stream (-1) or between 1
and k bytes. -/
def AtMost {σ : Type} (child : Producer σ) : Prop :=
  ∀ (cl : σ) (k : Int), 1 ≤ k →
    (child cl k).1.1 = -1 ∨
      (1 ≤ (child cl k).1.1 ∧ (child cl k).1.1 ≤ k ∧
        ((child cl k).1.2.length : Int) = (child cl k).1.1)

/-- Source struct Expander (the child and its closure are passed alongside). -/
structure Expander where
  buffer : Chunk
  size : Int
  deriving DecidableEq

/-- Memory returned by `new(n)`: n bytes of unspecified content `junk`. -/
def new_buffer (junk : Nat) (n : Int) : Chunk := List.replicate n.toNat junk

/-- Source expander_create. -/
def expander_create (junk : Nat) : Expander := { buffer := new_buffer junk 40, size := 40 }

/-- C memcpy(dst + off, src, n) on the byte list dst. -/
def memcpy (dst : Chunk) (off : Nat) (src : Chunk) (n : Nat) : Chunk :=
  dst.take off ++ src.take n ++ dst.drop (off + n)

/-- C memset(dst + off, v, n) on the byte list dst. -/
def memset (dst : Chunk) (off : Nat) (v : Nat) (n : Nat) : Chunk :=
  dst.take off ++ List.replicate n v ++ dst.drop (off + n)

/-- State of the fill loop of expander_get. Two ghost fields record the calls made to the
child during the call of expander_get: `pulled`, the chunks it delivered, in order, and
`ended`, whether it signalled end of stream. -/
structure ExpanderLoop (σ : Type) where
  buffer : Chunk
  done : Int
  closure : σ
  pulled : List Chunk
  ended : Bool

/-- The loop `while (done < size)` of expander_get; `none` when the fuel runs out. -/
def expander_while {σ : Type} (child : Producer σ) (size : Int) :
    Nat → ExpanderLoop σ → Option (ExpanderLoop σ)
  | 0, st => if st.done < size then none else some st
  | fuel + 1, st =>
    if st.done < size then
      let got := child st.closure (size - st.done)
      if got.1.1 < 0 then
        expander_while child size fuel
          { buffer := memset st.buffer st.done.toNat 0 (size - st.done).toNat,
            done := size, closure := got.2, pulled := st.pulled, ended := true }
      else
        expander_while child size fuel
          { buffer := memcpy st.buffer st.done.toNat got.1.2 got.1.1.toNat,
            done := st.done + got.1.1, closure := got.2,
            pulled := st.pulled ++ [got.1.2], ended := st.ended }
    else some st

/-- Result of a call of expander_get: the returned length, the bytes designated by
`*data`, the new Expander, the new closure of the child, and the ghost record of the
calls made to the child (chunks delivered, end of stream signalled). -/
structure ExpanderResult (σ : Type) where
  num : Int
  data : Chunk
  self : Expander
  closure : σ
  pulled : List Chunk
  ended : Bool

/-- Source expander_get; `none` when the fuel given to the fill loop runs out. -/
def expander_get {σ : Type} (child : Producer σ) (junk : Nat) (fuel : Nat)
    (e : Expander) (cl : σ) (size : Int) : Option (ExpanderResult σ) :=
  let got := child cl size
  if got.1.1 < 0 then
    some { num := -1, data := [], self := e, closure := got.2, pulled := [], ended := true }
  else if got.1.1 < size then
    let e1 : Expander :=
      if size > e.size then { buffer := new_buffer junk size, size := size } else e
    let start : ExpanderLoop σ :=
      { buffer := memcpy e1.buffer 0 got.1.2 got.1.1.toNat, done := got.1.1,
        closure := got.2, pulled := [got.1.2], ended := false }
    match expander_while child size fuel start with
    | none => none
    | some fin =>
      some { num := fin.done, data := fin.buffer.take fin.done.toNat,
             self := { e1 with buffer := fin.buffer }, closure := fin.closure,
             pulled := fin.pulled, ended := fin.ended }
  else
    some { num := got.1.1, data := got.1.2, self := e, closure := got.2,
           pulled := [got.1.2], ended := false }

/-- The sink loop of main over expander_get (reached through outconv_get, which requests
the width `s` of its type at each call): the frames returned before end of stream, or
`none` when the fuel runs out first. `inner` is the fuel given to each call. -/
def expander_drive {σ : Type} (child : Producer σ) (junk inner : Nat) (s : Int) :
    Nat → Expander → σ → Option (List Chunk)
  | 0, _, _ => none
  | fuel + 1, e, cl =>
    match expander_get child junk inner e cl s with
    | none => none
    | some res =>
      if res.num < 0 then some []
      else (expander_drive child junk inner s fuel res.self res.closure).map (res.data :: ·)

/-! ## Specification vocabulary and invariants -/

/-- Byte width of an integer-family type on LP64 (0 for the other types). -/
def intWidth : CType → Nat
  | CType.TYPE_CHAR => 1
  | CType.TYPE_SHORT => 2
  | CType.TYPE_INT => 4
  | CType.TYPE_LONG => 8
  | _ => 0

/-- The integer-family types. -/
def IntFamily (t : CType) : Prop :=
  t = CType.TYPE_CHAR ∨ t = CType.TYPE_SHORT ∨ t = CType.TYPE_INT ∨ t = CType.TYPE_LONG

instance (t : CType) : Decidable (IntFamily t) := by unfold IntFamily; infer_instance

/-- A decimal numeral: an optional minus sign followed by decimal digits. -/
def numeral (neg : Bool) (ds : List Char) : List Char := if neg then '-' :: ds else ds

/-- The integer a decimal numeral denotes. -/
def numeralValue (neg : Bool) (ds : List Char) : Int :=
  if neg then -(decimalValue ds : Int) else (decimalValue ds : Int)

/-- The result of lax_strtol as a function of the scanned sign and magnitude. -/
def laxOf (neg : Bool) (mag : Nat) : Int :=
  if neg then
    if 2 ^ 63 < mag then (if ULONG_MAX < mag then 0 else (2 : Int) ^ 64 - mag) else -(mag : Int)
  else
    if 2 ^ 63 - 1 < mag then (if ULONG_MAX < mag then 0 else (mag : Int) - 2 ^ 64)
    else (mag : Int)

/-- The characters the STYLE_BINARY scan accepts. -/
def isBinDigit (c : Char) : Bool := c = '0' || c = '1'

/-- The base-2 number spelled by a string of binary digits, most significant first. -/
def binaryValue (bits : List Char) : Nat :=
  bits.foldl (fun acc c => 2 * acc + (if c = '1' then 1 else 0)) 0

/-- The canonical decimal numeral of an integer: a minus sign for a negative number, then
the decimal digits of the magnitude without leading zeros. -/
def canonicalDecimal (v : Int) : List Char :=
  if v < 0 then '-' :: Nat.toDigits 10 v.natAbs else Nat.toDigits 10 v.natAbs

/-- Conversion to Long in style Binary. -/
def binaryLong : Conversion :=
  { type := CType.TYPE_LONG, style := Style.STYLE_BINARY, quoting := Quoting.QUOTING_NONE,
    unsignedp := false, byteswap := false }

/-- Bytes a Reducer has still to deliver: the unread part of the buffered chunk followed
by the chunks the upstream has not delivered yet. -/
def Reducer.rest (r : Reducer) : Chunk :=
  if r.size = -1 then [] else r.last.drop r.offset.toNat ++ r.closure.flatten

/-- Invariant of the Reducer states: either end of stream has been stored, or the offset
lies within the buffered chunk, whose length is `size`. -/
def Reducer.Inv (r : Reducer) : Prop :=
  (r.size = -1 ∧ r.offset = 0 ∧ r.closure = []) ∨
    (0 ≤ r.offset ∧ r.offset ≤ r.size ∧ r.size = (r.last.length : Int))

/-- What the refill loop guarantees about its result `res` when started in state `r`. -/
def Reducer.Filled (r : Reducer) (res : Bool × Reducer) : Prop :=
  (res.1 = true → res.2.size = -1 ∧ res.2.offset = 0 ∧ res.2.closure = []) ∧
  (res.1 = false →
    0 ≤ res.2.offset ∧ res.2.offset < res.2.size ∧ res.2.size = (res.2.last.length : Int)) ∧
  res.2.rest = r.rest ∧
  (r.offset < r.size → res = (false, r))

/-- The at-most discipline on the closures satisfying an invariant that the child keeps. -/
def AtMostOn {σ : Type} (I : σ → Prop) (child : Producer σ) : Prop :=
  ∀ (cl : σ) (k : Int), I cl → 1 ≤ k →
    I (child cl k).2 ∧
    ((child cl k).1.1 = -1 ∨
      (1 ≤ (child cl k).1.1 ∧ (child cl k).1.1 ≤ k ∧
        ((child cl k).1.2.length : Int) = (child cl k).1.1))

/-- Invariant of the fill loop of expander_get for the requested size. -/
def ExpanderLoop.Inv {σ : Type} (size : Int) (st : ExpanderLoop σ) : Prop :=
  0 ≤ st.done ∧ st.done ≤ size ∧ size ≤ (st.buffer.length : Int) ∧
  (st.ended = false →
    st.buffer.take st.done.toNat = st.pulled.flatten ∧
      (st.pulled.flatten.length : Int) = st.done) ∧
  (st.ended = true →
    st.done = size ∧
      st.buffer.take size.toNat
        = st.pulled.flatten ++ List.replicate (size.toNat - st.pulled.flatten.length) 0 ∧
      st.pulled.flatten.length ≤ size.toNat)

/-- An upstream that delivers the bytes of a list one per pull and then signals end of
stream; it obeys the at-most discipline. -/
def bytes_get : Producer (List Nat)
  | [], _ => ((-1, []), [])
  | b :: rest, _ => ((1, [b]), rest)

/-- What a call of expander_get guarantees about its result, for the requested size s and
the first response `first` of the child. -/
def ExpanderResult.Good {σ : Type} (s : Int) (first : Int × Chunk) (res : ExpanderResult σ) :
    Prop :=
  (res.num = -1 ↔ first.1 = -1) ∧
  (res.num ≠ -1 →
    res.num = s ∧ (res.data.length : Int) = s ∧
    res.pulled.head? = some first.2 ∧
    res.data = res.pulled.flatten ++ List.replicate (s.toNat - res.pulled.flatten.length) 0 ∧
    (res.ended = false → res.pulled.flatten.length = s.toNat) ∧
    (first.1 = s → res.data = first.2)) ∧
  (res.self.buffer.length : Int) = res.self.size

/-- The text the Decoder prints for a BCN code x with bit 15 clear: the fields in bits
14..11, 10..5 and 4..0, in decimal, separated by commas. -/
def bcn_text (x : Nat) : List Char :=
  Nat.toDigits 10 (x / 2 ^ 11) ++ [','] ++ Nat.toDigits 10 (x / 2 ^ 5 % 64) ++ [','] ++
    Nat.toDigits 10 (x % 32)

/-- The text `b,c,n` of a triplet of natural numbers. -/
def triplet_text (b c n : Nat) : List Char :=
  Nat.toDigits 10 b ++ [','] ++ Nat.toDigits 10 c ++ [','] ++ Nat.toDigits 10 n

/-- Number of zero-length chunks at the head of a chunk sequence. -/
def leading_empty : List Chunk → Nat
  | [] => 0
  | c :: rest => if c.length = 0 then leading_empty rest + 1 else 0

/-- Whether a call of reducer_get in state r enters the body of its refill loop. -/
def Reducer.refills (r : Reducer) : Bool := decide (r.offset ≥ r.size) && !decide (r.size = -1)

/-- The pulls that fill a frame, as the specification words them: while bytes are missing,
request the shortfall from upstream; stop when nothing is missing or when upstream
signals end of stream. Returns the chunks delivered, in order, whether upstream signalled
end of stream, and the closure of the upstream afterwards. The first argument bounds the
number of pulls. -/
def gather {σ : Type} (child : Producer σ) : Nat → Int → σ → List Chunk × Bool × σ
  | 0, _, cl => ([], false, cl)
  | n + 1, need, cl =>
    if need ≤ 0 then ([], false, cl)
    else
      let got := child cl need
      if got.1.1 < 0 then ([], true, got.2)
      else
        let more := gather child n (need - got.1.1) got.2
        (got.1.2 :: more.1, more.2.1, more.2.2)

/-- The token of the combined branch spelt by six strings of digits:
`YYYY-MM-DDThh:mm:ssZ`. -/
def combined_token (yr mo dy hr mi sc : List Char) : List Char :=
  yr ++ ('-' :: (mo ++ ('-' :: (dy ++ ('T' :: (hr ++ (':' :: (mi ++ (':' :: (sc ++ ['Z']))))))))))

/-- Number of days of a year of the Gregorian calendar. -/
def year_days (y : Nat) : Nat := if is_leap_year (y : Int) then 366 else 365

/-- Number of days of month m (0 = January) of year y. -/
def month_days (y : Nat) (m : Nat) : Nat :=
  [31, if is_leap_year (y : Int) then 29 else 28, 31, 30, 31, 30, 31, 31, 30, 31, 30, 31].getD m 0

/-- Days from 1970-01-01 to the first day of month mo (1 = January) of year y, counted
year by year and month by month. -/
def epoch_days (y mo : Nat) : Nat :=
  ((List.range (y - 1970)).map (fun k => year_days (1970 + k))).sum
    + ((List.range (mo - 1)).map (month_days y)).sum

/-- Seconds from 1970-01-01 00:00:00 UTC to the given UTC date and time of day. -/
def epoch_seconds (y mo : Nat) (d h mi s : Int) : Int :=
  ((epoch_days y mo : Int) + (d - 1)) * 86400 + h * 3600 + mi * 60 + s

/-! ## Theorems -/

theorem leBytes_length (w x : Nat) : (leBytes w x).length = w := by
  induction w generalizing x with
  | zero => rfl
  | succ w ih => simp [leBytes, ih]

theorem leBytes_lt (w x : Nat) : ∀ b ∈ leBytes w x, b < 256 := by
  induction w generalizing x with
  | zero => simp [leBytes]
  | succ w ih =>
    intro b hb
    simp only [leBytes, List.mem_cons] at hb
    rcases hb with rfl | hb
    · exact Nat.mod_lt _ (by norm_num)
    · exact ih _ b hb

theorem leVal_leBytes (w x : Nat) : leVal (leBytes w x) = x % 256 ^ w := by
  induction w generalizing x with
  | zero => simp [leBytes, leVal, Nat.mod_one]
  | succ w ih =>
    simp only [leBytes, leVal, ih]
    rw [pow_succ, mul_comm (256 ^ w) 256, Nat.mod_mul]

theorem leBytes_leVal (bs : Chunk) (h : ∀ b ∈ bs, b < 256) :
    leBytes bs.length (leVal bs) = bs := by
  induction bs with
  | nil => rfl
  | cons b bs ih =>
    have hb : b < 256 := h b (List.mem_cons_self _ _)
    have hbs : ∀ c ∈ bs, c < 256 := fun c hc => h c (List.mem_cons_of_mem _ hc)
    simp only [List.length_cons, leBytes, leVal]
    have h1 : (b + 256 * leVal bs) % 256 = b := by omega
    have h2 : (b + 256 * leVal bs) / 256 = leVal bs := by omega
    rw [h1, h2, ih hbs]

theorem toBytes_length (be : Bool) (w x : Nat) : (toBytes be w x).length = w := by
  cases be <;> simp [toBytes, leBytes_length]

theorem toBytes_lt (be : Bool) (w x : Nat) : ∀ b ∈ toBytes be w x, b < 256 := by
  intro b hb
  cases be
  · exact leBytes_lt w x b (by simpa [toBytes] using hb)
  · exact leBytes_lt w x b (by simpa [toBytes] using hb)

theorem ofBytes_toBytes (be : Bool) (w x : Nat) :
    ofBytes be (toBytes be w x) = x % 256 ^ w := by
  cases be <;> simp [toBytes, ofBytes, leVal_leBytes]

theorem toBytes_ofBytes (be : Bool) (bs : Chunk) (h : ∀ b ∈ bs, b < 256) :
    toBytes be bs.length (ofBytes be bs) = bs := by
  cases be
  · simpa [toBytes, ofBytes] using leBytes_leVal bs h
  · have h2 : ∀ b ∈ bs.reverse, b < 256 := fun b hb => h b (List.mem_reverse.mp hb)
    have := leBytes_leVal bs.reverse h2
    simp only [List.length_reverse] at this
    simp [toBytes, ofBytes, this]

theorem ofBytes_reverse_toBytes (be : Bool) (w x : Nat) :
    toBytes be w (ofBytes be (toBytes be w x).reverse) = (toBytes be w x).reverse := by
  have h := toBytes_ofBytes be (toBytes be w x).reverse
    (fun b hb => toBytes_lt be w x b (List.mem_reverse.mp hb))
  simpa [toBytes_length] using h

theorem bswap16_eq (be : Bool) (x : Nat) :
    bswap16 be x = ofBytes be (toBytes be 2 (x % 2 ^ 16)).reverse := by
  cases be <;> simp [bswap16, toBytes, leBytes]

theorem bswap32_eq (be : Bool) (x : Nat) :
    bswap32 be x = ofBytes be (toBytes be 4 (x % 2 ^ 32)).reverse := by
  cases be <;> simp [bswap32, toBytes, leBytes]

theorem bswap64_eq (be : Bool) (x : Nat) :
    bswap64 be x = ofBytes be (toBytes be 8 (x % 2 ^ 64)).reverse := by
  cases be <;> simp [bswap64, toBytes, leBytes]

theorem ofBytes_lt (be : Bool) (bs : Chunk) (h : ∀ b ∈ bs, b < 256) :
    ofBytes be bs < 256 ^ bs.length := by
  have := toBytes_ofBytes be bs h
  have h2 := ofBytes_toBytes be bs.length (ofBytes be bs)
  rw [this] at h2
  rw [h2]
  exact Nat.mod_lt _ (by positivity)

theorem toBytes_bswap16 (be : Bool) (x : Nat) :
    toBytes be 2 (bswap16 be x) = (toBytes be 2 (x % 2 ^ 16)).reverse := by
  rw [bswap16_eq, ofBytes_reverse_toBytes]

theorem toBytes_bswap32 (be : Bool) (x : Nat) :
    toBytes be 4 (bswap32 be x) = (toBytes be 4 (x % 2 ^ 32)).reverse := by
  rw [bswap32_eq, ofBytes_reverse_toBytes]

theorem toBytes_bswap64 (be : Bool) (x : Nat) :
    toBytes be 8 (bswap64 be x) = (toBytes be 8 (x % 2 ^ 64)).reverse := by
  rw [bswap64_eq, ofBytes_reverse_toBytes]

theorem bswap16_lt (be : Bool) (x : Nat) : bswap16 be x < 2 ^ 16 := by
  rw [bswap16_eq]
  have := ofBytes_lt be (toBytes be 2 (x % 2 ^ 16)).reverse
    (fun b hb => toBytes_lt be 2 _ b (List.mem_reverse.mp hb))
  simpa [toBytes_length] using this

theorem bswap32_lt (be : Bool) (x : Nat) : bswap32 be x < 2 ^ 32 := by
  rw [bswap32_eq]
  have := ofBytes_lt be (toBytes be 4 (x % 2 ^ 32)).reverse
    (fun b hb => toBytes_lt be 4 _ b (List.mem_reverse.mp hb))
  simpa [toBytes_length] using this

theorem bswap64_lt (be : Bool) (x : Nat) : bswap64 be x < 2 ^ 64 := by
  rw [bswap64_eq]
  have := ofBytes_lt be (toBytes be 8 (x % 2 ^ 64)).reverse
    (fun b hb => toBytes_lt be 8 _ b (List.mem_reverse.mp hb))
  simpa [toBytes_length] using this

theorem bswap16_bswap16 (be : Bool) (x : Nat) : bswap16 be (bswap16 be x) = x % 2 ^ 16 := by
  have h1 : bswap16 be x % 2 ^ 16 = bswap16 be x := Nat.mod_eq_of_lt (bswap16_lt be x)
  rw [bswap16_eq be (bswap16 be x), h1, toBytes_bswap16, List.reverse_reverse, ofBytes_toBytes]
  norm_num

theorem bswap32_bswap32 (be : Bool) (x : Nat) : bswap32 be (bswap32 be x) = x % 2 ^ 32 := by
  have h1 : bswap32 be x % 2 ^ 32 = bswap32 be x := Nat.mod_eq_of_lt (bswap32_lt be x)
  rw [bswap32_eq be (bswap32 be x), h1, toBytes_bswap32, List.reverse_reverse, ofBytes_toBytes]
  norm_num

theorem bswap64_bswap64 (be : Bool) (x : Nat) : bswap64 be (bswap64 be x) = x % 2 ^ 64 := by
  have h1 : bswap64 be x % 2 ^ 64 = bswap64 be x := Nat.mod_eq_of_lt (bswap64_lt be x)
  rw [bswap64_eq be (bswap64 be x), h1, toBytes_bswap64, List.reverse_reverse, ofBytes_toBytes]
  norm_num

/-- C7: byte swap is an involution on 16-, 32- and 64-bit values, and each bswapN
reverses the order of the bytes of its argument, for either native byte order. -/
theorem bswap_involution (be : Bool) :
    (∀ x : Nat, x < 2 ^ 16 →
      bswap16 be (bswap16 be x) = x ∧
        toBytes be 2 (bswap16 be x) = (toBytes be 2 x).reverse) ∧
    (∀ x : Nat, x < 2 ^ 32 →
      bswap32 be (bswap32 be x) = x ∧
        toBytes be 4 (bswap32 be x) = (toBytes be 4 x).reverse) ∧
    (∀ x : Nat, x < 2 ^ 64 →
      bswap64 be (bswap64 be x) = x ∧
        toBytes be 8 (bswap64 be x) = (toBytes be 8 x).reverse) := by
  refine ⟨fun x hx => ?_, fun x hx => ?_, fun x hx => ?_⟩
  · have h := Nat.mod_eq_of_lt hx
    exact ⟨by rw [bswap16_bswap16, h], by rw [toBytes_bswap16, h]⟩
  · have h := Nat.mod_eq_of_lt hx
    exact ⟨by rw [bswap32_bswap32, h], by rw [toBytes_bswap32, h]⟩
  · have h := Nat.mod_eq_of_lt hx
    exact ⟨by rw [bswap64_bswap64, h], by rw [toBytes_bswap64, h]⟩

/-- Witness of C7: the swaps of 0x1234, 0x12345678 and 0x0123456789abcdef on a
little-endian target. -/
theorem bswap_involution_witness :
    (bswap16 false (bswap16 false 0x1234) = 0x1234 ∧
      toBytes false 2 (bswap16 false 0x1234) = (toBytes false 2 0x1234).reverse) ∧
    (bswap32 false (bswap32 false 0x12345678) = 0x12345678 ∧
      toBytes false 4 (bswap32 false 0x12345678) = (toBytes false 4 0x12345678).reverse) ∧
    (bswap64 false (bswap64 false 0x0123456789abcdef) = 0x0123456789abcdef ∧
      toBytes false 8 (bswap64 false 0x0123456789abcdef)
        = (toBytes false 8 0x0123456789abcdef).reverse) :=
  ⟨(bswap_involution false).1 0x1234 (by norm_num),
   (bswap_involution false).2.1 0x12345678 (by norm_num),
   (bswap_involution false).2.2 0x0123456789abcdef (by norm_num)⟩

theorem toUnsigned_lt (w : Nat) (x : Int) : toUnsigned w x < 2 ^ (8 * w) := by
  unfold toUnsigned
  have hp : (0 : Int) < (2 : Int) ^ (8 * w) := by positivity
  have h1 := Int.emod_nonneg x (ne_of_gt hp)
  have h2 := Int.emod_lt_of_pos x hp
  zify
  rw [Int.toNat_of_nonneg h1]
  exact_mod_cast h2

theorem toUnsigned_cast (w : Nat) (x : Int) :
    ((toUnsigned w x : Nat) : Int) = x % (2 : Int) ^ (8 * w) := by
  unfold toUnsigned
  exact Int.toNat_of_nonneg (Int.emod_nonneg x (by positivity))

/-- The result of inconv_get for the integer family: the width of the type and the native
representation of the parsed value reduced modulo 2^(8w), reversed iff byteswap is set. -/
theorem inconv_get_int_eq (now : Tm) (mktime : Tm → Int) (be : Bool)
    (conv : Conversion) (child : Int → Int × List Char)
    (hnum : 0 ≤ (child 1024).1) (ht : IntFamily conv.type) :
    inconv_get now mktime be conv child =
      Outcome.ret (intWidth conv.type)
        (if conv.byteswap then
          (toBytes be (intWidth conv.type)
            (toUnsigned (intWidth conv.type) (inconv_lval conv.style (child 1024).2))).reverse
         else
          toBytes be (intWidth conv.type)
            (toUnsigned (intWidth conv.type) (inconv_lval conv.style (child 1024).2))) := by
  have hn : ¬ (child 1024).1 < 0 := not_lt.mpr hnum
  rcases ht with h | h | h | h
  · have hrev : ∀ x, (toBytes be 1 x).reverse = toBytes be 1 x := by
      intro x; cases be <;> simp [toBytes, leBytes]
    simp [inconv_get, hn, h, intWidth, sizeof_char, hrev]
  · have hlt := toUnsigned_lt 2 (inconv_lval conv.style (child 1024).2)
    have hm := Nat.mod_eq_of_lt hlt
    cases hb : conv.byteswap
    · simp [inconv_get, hn, h, intWidth, sizeof_short, hb]
    · simp only [inconv_get, hn, h, intWidth, sizeof_short, hb, if_true, if_false,
        toBytes_bswap16]
      rw [hm]
  · have hlt := toUnsigned_lt 4 (inconv_lval conv.style (child 1024).2)
    have hm := Nat.mod_eq_of_lt hlt
    cases hb : conv.byteswap
    · simp [inconv_get, hn, h, intWidth, sizeof_int, hb]
    · simp only [inconv_get, hn, h, intWidth, sizeof_int, hb, if_true, if_false,
        toBytes_bswap32]
      rw [hm]
  · have hlt := toUnsigned_lt 8 (inconv_lval conv.style (child 1024).2)
    have hm := Nat.mod_eq_of_lt hlt
    cases hb : conv.byteswap
    · simp [inconv_get, hn, h, intWidth, sizeof_long, hb]
    · simp only [inconv_get, hn, h, intWidth, sizeof_long, hb, if_true, if_false,
        toBytes_bswap64]
      rw [hm]

theorem digitVal_of_isdigit (c : Char) (h : isdigit c) : digitVal c = some (c.toNat - 48) := by
  unfold isdigit at h
  simp [digitVal, h.1, h.2]

theorem scanDigits_eq_foldl (ds : List Char) (h : ∀ c ∈ ds, isdigit c) (acc : Nat) :
    scanDigits 10 acc ds = ds.foldl (fun acc c => acc * 10 + (c.toNat - 48)) acc := by
  induction ds generalizing acc with
  | nil => rfl
  | cons c cs ih =>
    have hc : isdigit c := h c (List.mem_cons_self _ _)
    have hlt : c.toNat - 48 < 10 := by unfold isdigit at hc; omega
    simp only [scanDigits, digitVal_of_isdigit c hc, hlt, if_true, List.foldl_cons]
    exact ih (fun d hd => h d (List.mem_cons_of_mem _ hd)) _

theorem digitChar_toNat (d : Nat) (h : d < 10) : (Nat.digitChar d).toNat = 48 + d := by
  interval_cases d <;> rfl

theorem toDigitsCore_eq (fuel : Nat) : ∀ (n : Nat) (ds : List Char), n < fuel →
    Nat.toDigitsCore 10 fuel n ds = Nat.toDigits 10 n ++ ds := by
  induction fuel using Nat.strong_induction_on with
  | _ fuel ih =>
    intro n ds hn
    cases fuel with
    | zero => omega
    | succ fuel =>
      by_cases h0 : n / 10 = 0
      · simp [Nat.toDigits, Nat.toDigitsCore, h0]
      · have hlt : n / 10 < n := by omega
        have h1 := ih fuel (Nat.lt_succ_self _) (n / 10) (Nat.digitChar (n % 10) :: ds) (by omega)
        have h2 := ih n hn (n / 10) [Nat.digitChar (n % 10)] hlt
        simp only [Nat.toDigits, Nat.toDigitsCore, h0, if_false] at h1 h2 ⊢
        rw [h1, h2]
        simp

theorem toDigits_small (n : Nat) (h : n < 10) : Nat.toDigits 10 n = [Nat.digitChar n] := by
  have h0 : n / 10 = 0 := by omega
  have h1 : n % 10 = n := by omega
  simp [Nat.toDigits, Nat.toDigitsCore, h0, h1]

theorem toDigits_step (n : Nat) (h : 10 ≤ n) :
    Nat.toDigits 10 n = Nat.toDigits 10 (n / 10) ++ [Nat.digitChar (n % 10)] := by
  have h0 : ¬ n / 10 = 0 := by omega
  have h2 := toDigitsCore_eq n (n / 10) [Nat.digitChar (n % 10)] (by omega)
  conv_lhs => simp only [Nat.toDigits, Nat.toDigitsCore, h0, if_false]
  exact h2

theorem toDigits_isdigit (n : Nat) : ∀ c ∈ Nat.toDigits 10 n, isdigit c := by
  induction n using Nat.strong_induction_on with
  | _ n ih =>
    intro c hc
    by_cases h : n < 10
    · rw [toDigits_small n h] at hc
      simp only [List.mem_singleton] at hc
      subst hc
      unfold isdigit
      rw [digitChar_toNat n h]; omega
    · rw [toDigits_step n (by omega)] at hc
      rcases List.mem_append.mp hc with hc | hc
      · exact ih (n / 10) (by omega) c hc
      · simp only [List.mem_singleton] at hc
        subst hc
        unfold isdigit
        rw [digitChar_toNat _ (Nat.mod_lt _ (by norm_num))]; omega

theorem decimalValue_toDigits (n : Nat) : decimalValue (Nat.toDigits 10 n) = n := by
  induction n using Nat.strong_induction_on with
  | _ n ih =>
    by_cases h : n < 10
    · rw [toDigits_small n h]
      simp [decimalValue, digitChar_toNat n h]
    · rw [toDigits_step n (by omega)]
      have := ih (n / 10) (by omega)
      unfold decimalValue at this ⊢
      rw [List.foldl_append, this]
      simp only [List.foldl_cons, List.foldl_nil]
      rw [digitChar_toNat _ (Nat.mod_lt _ (by norm_num))]
      omega

theorem toDigits_ne_nil (n : Nat) : Nat.toDigits 10 n ≠ [] := by
  by_cases h : n < 10
  · rw [toDigits_small n h]; simp
  · rw [toDigits_step n (by omega)]; simp

/-- The leading digit of a positive number is not zero. -/
theorem toDigits_head (n : Nat) (hn : 0 < n) :
    ∃ c cs, Nat.toDigits 10 n = c :: cs ∧ 49 ≤ c.toNat ∧ c.toNat ≤ 57 := by
  induction n using Nat.strong_induction_on with
  | _ n ih =>
    by_cases h : n < 10
    · refine ⟨Nat.digitChar n, [], toDigits_small n h, ?_, ?_⟩ <;>
        rw [digitChar_toNat n h] <;> omega
    · obtain ⟨c, cs, hcs, h1, h2⟩ := ih (n / 10) (by omega) (by omega)
      refine ⟨c, cs ++ [Nat.digitChar (n % 10)], ?_, h1, h2⟩
      rw [toDigits_step n (by omega), hcs]; rfl

theorem toSigned8_eq (x : Nat) (h : x < 2 ^ 64) :
    toSigned 8 x = if x < 2 ^ 63 then (x : Int) else (x : Int) - 2 ^ 64 := by
  unfold toSigned
  have : x % 2 ^ (8 * 8) = x := Nat.mod_eq_of_lt (by simpa using h)
  rw [this]

theorem toUnsigned8_eq (x : Int) : ((toUnsigned 8 x : Nat) : Int) = x % 2 ^ 64 := by
  unfold toUnsigned
  rw [Int.toNat_of_nonneg (Int.emod_nonneg x (by positivity))]

theorem toUnsigned8_toSigned8 (x : Nat) (h : x < 2 ^ 64) : toUnsigned 8 (toSigned 8 x) = x := by
  have h1 := toUnsigned8_eq (toSigned 8 x)
  rw [toSigned8_eq x h] at h1 ⊢
  split_ifs at h1 ⊢ <;> omega

/-- The unsigned retry of lax_strtol, after strtoul returned (u, erange). -/
theorem lax_retry (u : Nat) (e : Bool) (h : u < 2 ^ 64) :
    (if toUnsigned 8 (toSigned 8 u) = ULONG_MAX ∧ e = true then (0 : Int) else toSigned 8 u) =
      if u = 2 ^ 64 - 1 ∧ e = true then 0
      else if u < 2 ^ 63 then (u : Int) else (u : Int) - 2 ^ 64 := by
  rw [toUnsigned8_toSigned8 u h, toSigned8_eq u h]
  rfl

theorem lax_strtol_eq_laxOf (text : List Char) (base : Nat) :
    lax_strtol text base = laxOf (scanInteger text base).1 (scanInteger text base).2 := by
  generalize hsc : scanInteger text base = sc
  obtain ⟨neg, mag⟩ := sc
  have hu : (strtoul text base).1 < 2 ^ 64 := by
    unfold strtoul ULONG_MAX
    simp only [hsc]
    split_ifs
    · norm_num
    · exact Nat.mod_lt _ (by norm_num)
    · simp only; omega
  unfold lax_strtol
  simp only [lax_retry _ _ hu]
  unfold strtol strtoul laxOf LONG_MAX LONG_MIN ULONG_MAX
  simp only [hsc]
  cases neg
  · simp only [Bool.false_eq_true, if_false]
    split_ifs <;> simp_all <;> omega
  · simp only [if_true]
    split_ifs <;> simp_all <;> omega

theorem isspace_of_isdigit (c : Char) (h : isdigit c) : isspace c = false := by
  unfold isdigit at h
  unfold isspace
  simp only [Bool.or_eq_false_iff, Bool.and_eq_false_iff, decide_eq_false_iff_not]
  omega

theorem scanSign_of_isdigit (c : Char) (cs : List Char) (h : isdigit c) :
    scanSign (c :: cs) = (false, c :: cs) := by
  unfold scanSign
  split
  · rename_i t heq
    simp only [List.cons.injEq] at heq
    rw [heq.1] at h
    exact absurd h (by decide)
  · rename_i t heq
    simp only [List.cons.injEq] at heq
    rw [heq.1] at h
    exact absurd h (by decide)
  · rfl

theorem dropWhile_isspace_of_isdigit (c : Char) (cs : List Char) (h : isdigit c) :
    (c :: cs).dropWhile isspace = c :: cs := by
  simp [List.dropWhile, isspace_of_isdigit c h]

theorem scanInteger_digits (ds : List Char) (hd : ∀ c ∈ ds, isdigit c) :
    scanInteger ds 10 = (false, decimalValue ds) := by
  cases ds with
  | nil => rfl
  | cons c cs =>
    have hc : isdigit c := hd c (List.mem_cons_self _ _)
    simp only [scanInteger, dropWhile_isspace_of_isdigit c cs hc,
      scanSign_of_isdigit c cs hc, scanBase]
    simp [scanDigits_eq_foldl (c :: cs) hd 0, decimalValue]

theorem scanInteger_minus (ds : List Char) (hd : ∀ c ∈ ds, isdigit c) :
    scanInteger ('-' :: ds) 10 = (true, decimalValue ds) := by
  have hdw : ('-' :: ds).dropWhile isspace = '-' :: ds := by
    have hsp : isspace '-' = false := by decide
    simp [List.dropWhile, hsp]
  simp only [scanInteger, hdw, scanSign, scanBase]
  simp [scanDigits_eq_foldl ds hd 0, decimalValue]

/-- C8 (amended): lax_strtol on a decimal numeral. -/
theorem lax_strtol_decimal (neg : Bool) (ds : List Char) (hd : ∀ c ∈ ds, isdigit c) :
    lax_strtol (numeral neg ds) 10 =
      if LONG_MIN ≤ numeralValue neg ds ∧ numeralValue neg ds ≤ LONG_MAX then
        numeralValue neg ds
      else if LONG_MAX < numeralValue neg ds ∧ numeralValue neg ds ≤ (ULONG_MAX : Int) then
        numeralValue neg ds - 2 ^ 64
      else if -(ULONG_MAX : Int) ≤ numeralValue neg ds ∧ numeralValue neg ds < LONG_MIN then
        numeralValue neg ds + 2 ^ 64
      else 0 := by
  rw [lax_strtol_eq_laxOf]
  cases neg
  · simp only [numeral, numeralValue, Bool.false_eq_true, if_false, scanInteger_digits ds hd]
    unfold laxOf LONG_MIN LONG_MAX ULONG_MAX
    simp only [Bool.false_eq_true, if_false]
    generalize decimalValue ds = m
    split_ifs <;> omega
  · simp only [numeral, numeralValue, if_true, scanInteger_minus ds hd]
    unfold laxOf LONG_MIN LONG_MAX ULONG_MAX
    simp only [if_true]
    generalize decimalValue ds = m
    split_ifs <;> omega

theorem lax_strtol_below_long_min :
    numeralValue true "9223372036854775809".toList < LONG_MIN ∧
      lax_strtol (numeral true "9223372036854775809".toList) 10 = 9223372036854775807 := by
  decide

theorem wrap64_emod (x : Int) : wrap64 x % 2 ^ 64 = x % 2 ^ 64 := by
  have h1 := toUnsigned8_eq x
  have h2 := toUnsigned_lt 8 x
  unfold wrap64
  rw [toSigned8_eq _ (by simpa using h2)]
  split_ifs <;> omega

theorem wrap64_congr (x y : Int) (h : x % 2 ^ 64 = y % 2 ^ 64) : wrap64 x = wrap64 y := by
  unfold wrap64 toUnsigned
  have e : (2 : Int) ^ (8 * 8) = 2 ^ 64 := by norm_num
  rw [e, h]

theorem binary_scan_eq (tok : List Char) : ∀ (lval : Int) (a : Nat), lval = wrap64 a →
    binary_scan lval tok =
      wrap64 ((tok.takeWhile isBinDigit).foldl
        (fun acc c => 2 * acc + (if c = '1' then 1 else 0)) a : Nat) := by
  induction tok with
  | nil => intro lval a h; simpa [binary_scan] using h
  | cons c cs ih =>
    intro lval a h
    by_cases hc : c = '0' ∨ c = '1'
    · have hb : isBinDigit c = true := by
        rcases hc with rfl | rfl <;> decide
      simp only [binary_scan, hc, if_true, List.takeWhile_cons, hb, List.foldl_cons]
      apply ih
      have e := wrap64_emod (a : Int)
      have e2 := wrap64_emod (wrap64 (a : Int) * 2)
      by_cases h1 : c = '1'
      · simp only [h1, if_true]
        apply wrap64_congr
        rw [h]; push_cast; omega
      · simp only [h1, if_false]
        apply wrap64_congr
        rw [h]; push_cast; omega
    · have hb : isBinDigit c = false := by
        simp only [isBinDigit, Bool.or_eq_false_iff, decide_eq_false_iff_not]
        exact ⟨fun h0 => hc (Or.inl h0), fun h1 => hc (Or.inr h1)⟩
      simpa [binary_scan, hc, List.takeWhile_cons, hb] using h

theorem inconv_lval_binary (tok : List Char) :
    inconv_lval Style.STYLE_BINARY tok = wrap64 (binaryValue (tok.takeWhile isBinDigit)) := by
  have h0 : (0 : Int) = wrap64 ((0 : Nat) : Int) := by decide
  exact binary_scan_eq tok 0 0 h0

theorem toUnsigned_wrap64 (w : Nat) (hw : w = 1 ∨ w = 2 ∨ w = 4 ∨ w = 8) (x : Nat) :
    toUnsigned w (wrap64 x) = x % 2 ^ (8 * w) := by
  have h1 := toUnsigned_cast w (wrap64 x)
  have h2 := wrap64_emod x
  zify
  rw [h1]
  rcases hw with rfl | rfl | rfl | rfl <;> norm_num <;> omega

theorem intWidth_cases (t : CType) (ht : IntFamily t) :
    intWidth t = 1 ∨ intWidth t = 2 ∨ intWidth t = 4 ∨ intWidth t = 8 := by
  rcases ht with h | h | h | h <;> simp [h, intWidth]

/-- C10: with style Binary the parsed value is the base-2 number spelled by the longest
prefix of 0s and 1s (modulo 2^64), and the bytes returned encode that number. -/
theorem inconv_get_binary (now : Tm) (mktime : Tm → Int) (be : Bool)
    (conv : Conversion) (child : Int → Int × List Char)
    (hnum : 0 ≤ (child 1024).1) (ht : IntFamily conv.type)
    (hs : conv.style = Style.STYLE_BINARY) :
    inconv_lval conv.style (child 1024).2
        = wrap64 (binaryValue ((child 1024).2.takeWhile isBinDigit)) ∧
      inconv_get now mktime be conv child =
        Outcome.ret (intWidth conv.type)
          (if conv.byteswap then
            (toBytes be (intWidth conv.type)
              (binaryValue ((child 1024).2.takeWhile isBinDigit)
                % 2 ^ (8 * intWidth conv.type))).reverse
           else
            toBytes be (intWidth conv.type)
              (binaryValue ((child 1024).2.takeWhile isBinDigit)
                % 2 ^ (8 * intWidth conv.type))) := by
  have h1 : inconv_lval conv.style (child 1024).2
      = wrap64 (binaryValue ((child 1024).2.takeWhile isBinDigit)) := by
    rw [hs]; exact inconv_lval_binary _
  refine ⟨h1, ?_⟩
  rw [inconv_get_int_eq now mktime be conv child hnum ht, h1,
    toUnsigned_wrap64 _ (intWidth_cases _ ht)]

/-- Witness of C10: the token 101x1 as an Int is five. -/
theorem inconv_get_binary_witness :
    inconv_lval Style.STYLE_BINARY "101x1".toList = wrap64 (binaryValue "101".toList) ∧
      inconv_get tm_example mktime_utc false { conversion_create with style := Style.STYLE_BINARY }
        (fun _ => (5, "101x1".toList)) = Outcome.ret 4 [5, 0, 0, 0] :=
  inconv_get_binary tm_example mktime_utc false { conversion_create with style := Style.STYLE_BINARY }
    (fun _ => (5, "101x1".toList)) (by decide) (by decide) rfl

theorem scanBase_zero_eq (s : List Char) (h : s.head? ≠ some '0') :
    scanBase 0 s = scanBase 10 s := by
  unfold scanBase
  simp only [if_true]
  split
  · simp at h
  · simp at h
  · simp at h
  · simp

theorem scanInteger_zero_eq (text : List Char)
    (h : (scanSign (text.dropWhile isspace)).2.head? ≠ some '0') :
    scanInteger text 0 = scanInteger text 10 := by
  unfold scanInteger
  simp only [scanBase_zero_eq _ h]

theorem lax_strtol_zero_eq (text : List Char)
    (h : (scanSign (text.dropWhile isspace)).2.head? ≠ some '0') :
    lax_strtol text 0 = lax_strtol text 10 := by
  rw [lax_strtol_eq_laxOf, lax_strtol_eq_laxOf, scanInteger_zero_eq text h]

/-- C9 (amended): style Default parses with automatic base detection; it agrees with
style Decimal on every token whose numeral, after white space and sign, does not begin
with the digit 0, while 010 is eight and 0x10 sixteen under Default. -/
theorem inconv_get_default (now : Tm) (mktime : Tm → Int) (be : Bool)
    (conv : Conversion) (child : Int → Int × List Char)
    (ht : IntFamily conv.type)
    (h0 : (scanSign ((child 1024).2.dropWhile isspace)).2.head? ≠ some '0') :
    inconv_lval Style.STYLE_DEFAULT (child 1024).2 = lax_strtol (child 1024).2 0 ∧
    inconv_get now mktime be { conv with style := Style.STYLE_DEFAULT } child
      = inconv_get now mktime be { conv with style := Style.STYLE_DECIMAL } child ∧
    inconv_lval Style.STYLE_DEFAULT "010".toList = 8 ∧
    inconv_lval Style.STYLE_DEFAULT "0x10".toList = 16 := by
  refine ⟨rfl, ?_, by decide, by decide⟩
  by_cases hnum : (child 1024).1 < 0
  · simp [inconv_get, hnum]
  · have hn : 0 ≤ (child 1024).1 := not_lt.mp hnum
    rw [inconv_get_int_eq now mktime be { conv with style := Style.STYLE_DEFAULT } child hn ht,
      inconv_get_int_eq now mktime be { conv with style := Style.STYLE_DECIMAL } child hn ht]
    simp only [inconv_lval, lax_strtol_zero_eq _ h0]

/-- Witness of C9 (amended): the token -42 as a Short. -/
theorem inconv_get_default_witness :
    inconv_lval Style.STYLE_DEFAULT "-42".toList = lax_strtol "-42".toList 0 ∧
    inconv_get tm_example mktime_utc false
        { { conversion_create with type := CType.TYPE_SHORT } with
          style := Style.STYLE_DEFAULT }
        (fun _ => (3, "-42".toList))
      = inconv_get tm_example mktime_utc false
        { { conversion_create with type := CType.TYPE_SHORT } with
          style := Style.STYLE_DECIMAL }
        (fun _ => (3, "-42".toList)) ∧
    inconv_lval Style.STYLE_DEFAULT "010".toList = 8 ∧
    inconv_lval Style.STYLE_DEFAULT "0x10".toList = 16 :=
  inconv_get_default tm_example mktime_utc false { conversion_create with type := CType.TYPE_SHORT }
    (fun _ => (3, "-42".toList)) (by decide) (by decide)

/-- Counterexample to C9: the token 010 under Default is not what it is under Decimal. -/
theorem inconv_get_default_not_decimal :
    inconv_get tm_example mktime_utc false { conversion_create with style := Style.STYLE_DEFAULT }
        (fun _ => (3, "010".toList)) = Outcome.ret 4 [8, 0, 0, 0] ∧
    inconv_get tm_example mktime_utc false { conversion_create with style := Style.STYLE_DECIMAL }
        (fun _ => (3, "010".toList)) = Outcome.ret 4 [10, 0, 0, 0] ∧
    inconv_get tm_example mktime_utc false { conversion_create with style := Style.STYLE_DEFAULT }
        (fun _ => (4, "0x10".toList)) = Outcome.ret 4 [16, 0, 0, 0] ∧
    inconv_get tm_example mktime_utc false { conversion_create with style := Style.STYLE_DECIMAL }
        (fun _ => (4, "0x10".toList)) = Outcome.ret 4 [0, 0, 0, 0] := by
  decide

theorem scanInteger_canonical10 (v : Int) :
    scanInteger (canonicalDecimal v) 10 = (decide (v < 0), v.natAbs) := by
  unfold canonicalDecimal
  by_cases hv : v < 0
  · simp only [hv, if_true, decide_True]
    rw [scanInteger_minus _ (toDigits_isdigit _), decimalValue_toDigits]
  · simp only [hv, if_false, decide_False]
    rw [scanInteger_digits _ (toDigits_isdigit _), decimalValue_toDigits]

theorem scanInteger_canonical0 (v : Int) :
    scanInteger (canonicalDecimal v) 0 = (decide (v < 0), v.natAbs) := by
  by_cases h0 : v = 0
  · subst h0; decide
  · rw [← scanInteger_canonical10 v]
    apply scanInteger_zero_eq
    have hpos : 0 < v.natAbs := Int.natAbs_pos.mpr h0
    obtain ⟨c, cs, hcs, h1, h2⟩ := toDigits_head v.natAbs hpos
    have hc : isdigit c := ⟨by omega, h2⟩
    have hne : c ≠ '0' := by
      intro h; rw [h] at h1; revert h1; decide
    unfold canonicalDecimal
    by_cases hv : v < 0
    · have hsp : isspace '-' = false := by decide
      simp only [hv, if_true, hcs, List.dropWhile, hsp, scanSign, List.head?_cons]
      simpa using hne
    · simp only [hv, if_false, hcs, dropWhile_isspace_of_isdigit c cs hc,
        scanSign_of_isdigit c cs hc, List.head?_cons]
      simpa using hne

theorem inconv_lval_canonical (st : Style)
    (hs : st = Style.STYLE_DEFAULT ∨ st = Style.STYLE_DECIMAL) (v : Int) :
    inconv_lval st (canonicalDecimal v) = laxOf (decide (v < 0)) v.natAbs := by
  rcases hs with h | h
  · rw [h]; simp only [inconv_lval]
    rw [lax_strtol_eq_laxOf, scanInteger_canonical0]
  · rw [h]; simp only [inconv_lval]
    rw [lax_strtol_eq_laxOf, scanInteger_canonical10]

/-- For a value between LONG_MIN and ULONG_MAX the lax parse is congruent to it mod 2^64. -/
theorem laxOf_emod (v : Int) (h1 : -(2 : Int) ^ 63 ≤ v) (h2 : v < 2 ^ 64) :
    laxOf (decide (v < 0)) v.natAbs % 2 ^ 64 = v % 2 ^ 64 := by
  unfold laxOf ULONG_MAX
  by_cases hv : v < 0
  · simp only [hv, decide_True, if_true]
    split_ifs <;> omega
  · simp only [hv, decide_False, Bool.false_eq_true, if_false]
    split_ifs <;> omega

theorem toUnsigned_congr (w : Nat) (hw : w = 1 ∨ w = 2 ∨ w = 4 ∨ w = 8) (x y : Int)
    (h : x % 2 ^ 64 = y % 2 ^ 64) : toUnsigned w x = toUnsigned w y := by
  have h1 := toUnsigned_cast w x
  have h2 := toUnsigned_cast w y
  zify
  rw [h1, h2]
  rcases hw with rfl | rfl | rfl | rfl <;> norm_num <;> omega

theorem toSigned_toUnsigned (w : Nat) (hw : w = 1 ∨ w = 2 ∨ w = 4 ∨ w = 8) (v : Int)
    (h1 : -(2 : Int) ^ (8 * w - 1) ≤ v) (h2 : v < 2 ^ (8 * w - 1)) :
    toSigned w (toUnsigned w v) = v := by
  have hc := toUnsigned_cast w v
  have hlt := toUnsigned_lt w v
  unfold toSigned
  rw [Nat.mod_eq_of_lt hlt]
  rcases hw with rfl | rfl | rfl | rfl <;> norm_num at * <;> split_ifs <;> omega

theorem toUnsigned_of_range (w : Nat) (v : Int)
    (h1 : 0 ≤ v) (h2 : v < 2 ^ (8 * w)) : ((toUnsigned w v : Nat) : Int) = v := by
  rw [toUnsigned_cast]
  exact Int.emod_eq_of_lt h1 h2

theorem read_back16 (be sw : Bool) (u : Nat) (hu : u < 2 ^ 16) :
    (if sw then bswap16 be (ofBytes be (if sw then (toBytes be 2 u).reverse else toBytes be 2 u))
     else ofBytes be (if sw then (toBytes be 2 u).reverse else toBytes be 2 u)) = u := by
  have hm := Nat.mod_eq_of_lt hu
  cases sw
  · simp only [Bool.false_eq_true, if_false, ofBytes_toBytes]
    norm_num; omega
  · simp only [if_true]
    have := bswap16_eq be u
    rw [hm] at this
    rw [← this, bswap16_bswap16, hm]

theorem read_back32 (be sw : Bool) (u : Nat) (hu : u < 2 ^ 32) :
    (if sw then bswap32 be (ofBytes be (if sw then (toBytes be 4 u).reverse else toBytes be 4 u))
     else ofBytes be (if sw then (toBytes be 4 u).reverse else toBytes be 4 u)) = u := by
  have hm := Nat.mod_eq_of_lt hu
  cases sw
  · simp only [Bool.false_eq_true, if_false, ofBytes_toBytes]
    norm_num; omega
  · simp only [if_true]
    have := bswap32_eq be u
    rw [hm] at this
    rw [← this, bswap32_bswap32, hm]

theorem read_back64 (be sw : Bool) (u : Nat) (hu : u < 2 ^ 64) :
    (if sw then bswap64 be (ofBytes be (if sw then (toBytes be 8 u).reverse else toBytes be 8 u))
     else ofBytes be (if sw then (toBytes be 8 u).reverse else toBytes be 8 u)) = u := by
  have hm := Nat.mod_eq_of_lt hu
  cases sw
  · simp only [Bool.false_eq_true, if_false, ofBytes_toBytes]
    norm_num; omega
  · simp only [if_true]
    have := bswap64_eq be u
    rw [hm] at this
    rw [← this, bswap64_bswap64, hm]

theorem read_back8 (be sw : Bool) (u : Nat) (hu : u < 2 ^ 8) :
    ofBytes be (if sw then (toBytes be 1 u).reverse else toBytes be 1 u) = u := by
  have hrev : (toBytes be 1 u).reverse = toBytes be 1 u := by
    cases be <;> simp [toBytes, leBytes]
  rw [hrev, ite_self, ofBytes_toBytes]
  norm_num; omega

theorem sprintf_ld_eq (v : Int) : sprintf_ld v = canonicalDecimal v := by
  unfold sprintf_ld canonicalDecimal digitsOf
  by_cases hv : v < 0
  · simp [hv]
  · simp only [hv, if_false]
    congr 1
    omega

theorem sprintf_lu_eq (lval v : Int) (h0 : 0 ≤ v) (h : ((toUnsigned 8 lval : Nat) : Int) = v) :
    sprintf_lu lval = canonicalDecimal v := by
  unfold sprintf_lu canonicalDecimal digitsOf
  have hv : ¬ v < 0 := not_lt.mpr h0
  simp only [hv, if_false]
  congr 1
  omega

theorem outconv_text_decimal (wide : Nat → Int) (conv : Conversion) (size : Nat) (lval : Int)
    (hs : conv.style = Style.STYLE_DEFAULT ∨ conv.style = Style.STYLE_DECIMAL) :
    outconv_text wide conv size lval
      = if conv.unsignedp then sprintf_lu lval else sprintf_ld lval := by
  unfold outconv_text
  rcases hs with h | h <;> rw [h] <;> cases conv.unsignedp <;> simp

theorem signedRead_decimal (conv : Conversion)
    (hs : conv.style = Style.STYLE_DEFAULT ∨ conv.style = Style.STYLE_DECIMAL) :
    signedRead conv = !conv.unsignedp := by
  unfold signedRead
  rcases hs with h | h <;> rw [h] <;> simp

/-- The bytes inconv_get produces for the width-w type from the long value lval. -/
theorem stored_value (w : Nat) (hw : w = 1 ∨ w = 2 ∨ w = 4 ∨ w = 8) (st : Style)
    (hs : st = Style.STYLE_DEFAULT ∨ st = Style.STYLE_DECIMAL) (v : Int)
    (h1 : -(2 : Int) ^ 63 ≤ v) (h2 : v < 2 ^ 64) :
    toUnsigned w (inconv_lval st (canonicalDecimal v)) = toUnsigned w v := by
  rw [inconv_lval_canonical st hs v]
  exact toUnsigned_congr w hw _ _ (laxOf_emod v h1 h2)

/-- The decimal text printed for the stored value u of a width-w type. -/
theorem decimal_text (wide : Nat → Int) (conv : Conversion) (w : Nat)
    (hw : w = 1 ∨ w = 2 ∨ w = 4 ∨ w = 8)
    (hs : conv.style = Style.STYLE_DEFAULT ∨ conv.style = Style.STYLE_DECIMAL) (v : Int)
    (hv : if conv.unsignedp then 0 ≤ v ∧ v < 2 ^ (8 * w)
          else -(2 : Int) ^ (8 * w - 1) ≤ v ∧ v < 2 ^ (8 * w - 1))
    (lval : Int)
    (hl : lval = if signedRead conv then toSigned w (toUnsigned w v)
                 else ((toUnsigned w v % 2 ^ (8 * w) : Nat) : Int)) :
    outconv_text wide conv w lval = canonicalDecimal v := by
  rw [outconv_text_decimal wide conv w lval hs]
  rw [signedRead_decimal conv hs] at hl
  cases hu : conv.unsignedp
  · simp only [hu, Bool.false_eq_true, if_false, Bool.not_false, if_true] at hv hl ⊢
    rw [hl, toSigned_toUnsigned w hw v hv.1 hv.2, sprintf_ld_eq]
  · simp only [hu, if_true, Bool.not_true, Bool.false_eq_true, if_false] at hv hl ⊢
    have hlt := toUnsigned_lt w v
    rw [Nat.mod_eq_of_lt hlt, toUnsigned_of_range w v hv.1 hv.2] at hl
    apply sprintf_lu_eq lval v hv.1
    rw [toUnsigned8_eq, hl]
    have h2 := hv.2
    rcases hw with rfl | rfl | rfl | rfl <;> norm_num at h2 <;> omega

theorem long_text (wide : Nat → Int) (conv : Conversion)
    (hs : conv.style = Style.STYLE_DEFAULT ∨ conv.style = Style.STYLE_DECIMAL) (v : Int)
    (hv : if conv.unsignedp then 0 ≤ v ∧ v < 2 ^ (8 * 8)
          else -(2 : Int) ^ (8 * 8 - 1) ≤ v ∧ v < 2 ^ (8 * 8 - 1)) :
    outconv_text wide conv 8 (toSigned 8 (toUnsigned 8 v)) = canonicalDecimal v := by
  rw [outconv_text_decimal wide conv 8 _ hs]
  cases hu : conv.unsignedp
  · simp only [hu, Bool.false_eq_true, if_false] at hv ⊢
    rw [toSigned_toUnsigned 8 (by simp) v hv.1 hv.2, sprintf_ld_eq]
  · simp only [hu, if_true] at hv ⊢
    apply sprintf_lu_eq _ v hv.1
    rw [toUnsigned8_toSigned8 _ (by simpa using toUnsigned_lt 8 v)]
    exact toUnsigned_of_range 8 v hv.1 hv.2

theorem range_long (w : Nat) (hw : w = 1 ∨ w = 2 ∨ w = 4 ∨ w = 8) (u : Bool) (v : Int)
    (hv : if u then 0 ≤ v ∧ v < 2 ^ (8 * w)
          else -(2 : Int) ^ (8 * w - 1) ≤ v ∧ v < 2 ^ (8 * w - 1)) :
    -(2 : Int) ^ 63 ≤ v ∧ v < 2 ^ 64 := by
  cases u <;> simp only [Bool.false_eq_true, if_false, if_true] at hv <;>
    rcases hw with rfl | rfl | rfl | rfl <;> norm_num at hv <;> constructor <;> omega

/-- C1: integer round trip. For each integer-family type, sign flag, byteswap flag and each
value v representable in the type, the canonical decimal numeral of v fed to inconv_get
(style Default or Decimal) gives w bytes which, fed to outconv_get under the same
conversion, print as the canonical decimal numeral of v. -/
theorem int_round_trip (now : Tm) (mktime : Tm → Int) (be : Bool)
    (wide : Nat → Int) (conv : Conversion) (v : Int)
    (ht : IntFamily conv.type)
    (hs : conv.style = Style.STYLE_DEFAULT ∨ conv.style = Style.STYLE_DECIMAL)
    (hv : if conv.unsignedp then 0 ≤ v ∧ v < 2 ^ (8 * intWidth conv.type)
          else -(2 : Int) ^ (8 * intWidth conv.type - 1) ≤ v ∧
            v < 2 ^ (8 * intWidth conv.type - 1)) :
    ∃ bytes : Chunk,
      inconv_get now mktime be conv (fun _ => (((canonicalDecimal v).length : Int), canonicalDecimal v))
        = Outcome.ret (intWidth conv.type) bytes ∧
      bytes.length = intWidth conv.type ∧
      outconv_get be wide conv (fun _ => ((intWidth conv.type : Int), bytes))
        = Outcome.ret (canonicalDecimal v).length (canonicalDecimal v) := by
  have hw := intWidth_cases conv.type ht
  have hr := range_long _ hw conv.unsignedp v hv
  have hst := stored_value _ hw conv.style hs v hr.1 hr.2
  have hin := inconv_get_int_eq now mktime be conv
    (fun _ => (((canonicalDecimal v).length : Int), canonicalDecimal v))
    (by simp) ht
  simp only [hst] at hin
  refine ⟨_, hin, ?_, ?_⟩
  · split_ifs <;> simp [toBytes_length]
  · have hlt := toUnsigned_lt (intWidth conv.type) v
    rcases ht with h | h | h | h
    · simp only [h, intWidth] at hv hlt ⊢
      have hb := read_back8 be conv.byteswap _ hlt
      have htake : ∀ bs : Chunk, bs.length = 1 → bs.take 1 = bs := fun bs hbs =>
        List.take_of_length_le (by omega)
      have hlen : (if conv.byteswap then (toBytes be 1 (toUnsigned 1 v)).reverse
          else toBytes be 1 (toUnsigned 1 v)).length = 1 := by
        split_ifs <;> simp [toBytes_length]
      have ht := decimal_text wide conv 1 (by simp) hs v hv _ rfl
      simp only [outconv_get, h, sizeof_char, htake _ hlen, hb]
      simp only [Nat.cast_one, show ¬ (1 : Int) < 0 by norm_num, if_false]
      simp only [Nat.mul_one] at ht
      rw [ht]
    · simp only [h, intWidth] at hv hlt ⊢
      have hb := read_back16 be conv.byteswap _ hlt
      have htake : ∀ bs : Chunk, bs.length = 2 → bs.take 2 = bs := fun bs hbs =>
        List.take_of_length_le (by omega)
      have hlen : (if conv.byteswap then (toBytes be 2 (toUnsigned 2 v)).reverse
          else toBytes be 2 (toUnsigned 2 v)).length = 2 := by
        split_ifs <;> simp [toBytes_length]
      have ht := decimal_text wide conv 2 (by simp) hs v hv _ rfl
      simp only [outconv_get, h, sizeof_short, htake _ hlen, hb]
      simp only [Nat.cast_ofNat, show ¬ (2 : Int) < 0 by norm_num, if_false]
      rw [show (8 * 2 : Nat) = 16 from rfl] at ht
      rw [ht]
    · simp only [h, intWidth] at hv hlt ⊢
      have hb := read_back32 be conv.byteswap _ hlt
      have htake : ∀ bs : Chunk, bs.length = 4 → bs.take 4 = bs := fun bs hbs =>
        List.take_of_length_le (by omega)
      have hlen : (if conv.byteswap then (toBytes be 4 (toUnsigned 4 v)).reverse
          else toBytes be 4 (toUnsigned 4 v)).length = 4 := by
        split_ifs <;> simp [toBytes_length]
      have ht := decimal_text wide conv 4 (by simp) hs v hv _ rfl
      simp only [outconv_get, h, sizeof_int, htake _ hlen, hb]
      simp only [Nat.cast_ofNat, show ¬ (4 : Int) < 0 by norm_num, if_false]
      rw [show (8 * 4 : Nat) = 32 from rfl] at ht
      rw [ht]
    · simp only [h, intWidth] at hv hlt ⊢
      have hb := read_back64 be conv.byteswap _ hlt
      have htake : ∀ bs : Chunk, bs.length = 8 → bs.take 8 = bs := fun bs hbs =>
        List.take_of_length_le (by omega)
      have hlen : (if conv.byteswap then (toBytes be 8 (toUnsigned 8 v)).reverse
          else toBytes be 8 (toUnsigned 8 v)).length = 8 := by
        split_ifs <;> simp [toBytes_length]
      have ht := long_text wide conv hs v hv
      simp only [outconv_get, h, sizeof_long, htake _ hlen, if_true]
      simp only [Nat.cast_ofNat, show ¬ (8 : Int) < 0 by norm_num, if_false]
      rw [hb, ht]

/-- Witness of C1: ULONG_MAX as an unsigned, byte-swapped Long on a little-endian target. -/
theorem int_round_trip_witness :
    ∃ bytes : Chunk,
      inconv_get tm_example mktime_utc false
          { type := CType.TYPE_LONG, style := Style.STYLE_DEFAULT,
            quoting := Quoting.QUOTING_NONE, unsignedp := true, byteswap := true }
          (fun _ => (((canonicalDecimal 18446744073709551615).length : Int),
            canonicalDecimal 18446744073709551615))
        = Outcome.ret (intWidth CType.TYPE_LONG) bytes ∧
      bytes.length = intWidth CType.TYPE_LONG ∧
      outconv_get false (fun _ => 0)
          { type := CType.TYPE_LONG, style := Style.STYLE_DEFAULT,
            quoting := Quoting.QUOTING_NONE, unsignedp := true, byteswap := true }
          (fun _ => ((intWidth CType.TYPE_LONG : Int), bytes))
        = Outcome.ret (canonicalDecimal 18446744073709551615).length
            (canonicalDecimal 18446744073709551615) :=
  int_round_trip tm_example mktime_utc false (fun _ => 0)
    { type := CType.TYPE_LONG, style := Style.STYLE_DEFAULT,
      quoting := Quoting.QUOTING_NONE, unsignedp := true, byteswap := true }
    18446744073709551615 (by decide) (by decide) (by decide)

/-- C6 at the failing input: the Long value 2^32 in style Binary. Whatever an over-wide
shift yields, the character at index 32 is 1 although bit 31 of the value is clear. -/
theorem outconv_get_binary_long (be : Bool) (wide : Nat → Int) :
    ∃ text : List Char,
      outconv_get be wide binaryLong (fun _ => (8, toBytes be 8 (2 ^ 32)))
        = Outcome.ret 64 text ∧
      text.length = 64 ∧ text[32]? = some '1' ∧ Nat.testBit (2 ^ 32) (8 * 8 - 1 - 32) = false := by
  have hval : ofBytes be (List.take 8 (toBytes be 8 4294967296)) = 4294967296 := by
    cases be <;> decide
  have hs : toSigned 8 4294967296 = 4294967296 := by decide
  have hmask : int_shl_one wide 31 = -2147483648 := by
    unfold int_shl_one
    rw [if_pos (by norm_num)]
    decide
  have hland : Nat.land (toUnsigned 8 4294967296) (toUnsigned 8 (-2147483648)) ≠ 0 := by decide
  refine ⟨binary_text wide 64 4294967296, ?_, ?_, ?_, by decide⟩
  · simp [outconv_get, binaryLong, outconv_text, hval, hs, sizeof_long, binary_text]
  · simp [binary_text]
  · simp only [binary_text, List.getElem?_map, List.getElem?_range (show 32 < 64 by norm_num),
      Option.map_some']
    simp only [show 64 - 1 - 32 = 31 from rfl, hmask]
    simp [hland]

/-- C5: for the integer family inconv_get returns the width w of the type, and the w bytes
are the native representation of the parsed value reduced modulo 2^(8w), in reverse order
iff byteswap is set (which changes nothing for Char). -/
theorem inconv_get_int_bytes (now : Tm) (mktime : Tm → Int) (be : Bool)
    (conv : Conversion) (child : Int → Int × List Char)
    (hnum : 0 ≤ (child 1024).1) (ht : IntFamily conv.type) :
    inconv_get now mktime be conv child =
      Outcome.ret (intWidth conv.type)
        (if conv.byteswap then
          (toBytes be (intWidth conv.type)
            (toUnsigned (intWidth conv.type) (inconv_lval conv.style (child 1024).2))).reverse
         else
          toBytes be (intWidth conv.type)
            (toUnsigned (intWidth conv.type) (inconv_lval conv.style (child 1024).2))) ∧
    ((if conv.byteswap then
          (toBytes be (intWidth conv.type)
            (toUnsigned (intWidth conv.type) (inconv_lval conv.style (child 1024).2))).reverse
         else
          toBytes be (intWidth conv.type)
            (toUnsigned (intWidth conv.type) (inconv_lval conv.style (child 1024).2))).length
      = intWidth conv.type) ∧
    (conv.type = CType.TYPE_CHAR →
      inconv_get now mktime be conv child =
        Outcome.ret 1 (toBytes be 1 (toUnsigned 1 (inconv_lval conv.style (child 1024).2)))) := by
  refine ⟨inconv_get_int_eq now mktime be conv child hnum ht, ?_, ?_⟩
  · split_ifs <;> simp [toBytes_length]
  · intro h
    have hn : ¬ (child 1024).1 < 0 := not_lt.mpr hnum
    simp [inconv_get, hn, h, sizeof_char]

/-- Witness of C5: the token 258 as a byte-swapped Int on a little-endian target. -/
theorem inconv_get_int_bytes_witness :
    inconv_get tm_example mktime_utc false { conversion_create with byteswap := true } (fun _ => (3, "258".toList))
      = Outcome.ret 4 [0, 0, 1, 2] := by
  have h := (inconv_get_int_bytes tm_example mktime_utc false { conversion_create with byteswap := true }
    (fun _ => (3, "258".toList)) (by decide) (by decide)).1
  rw [h]
  decide

/-- Witness of C8 (amended): the numeral -9223372036854775809, just below LONG_MIN. -/
theorem lax_strtol_decimal_witness :
    lax_strtol (numeral true "9223372036854775809".toList) 10 = 9223372036854775807 := by
  have h := lax_strtol_decimal true "9223372036854775809".toList (by decide)
  rw [h]
  decide

theorem reducer_while_spec (cl : List Chunk) : ∀ (last : Chunk) (size offset : Int) (pulls : Nat),
    Reducer.Inv ⟨cl, last, size, offset, pulls⟩ →
    Reducer.Filled ⟨cl, last, size, offset, pulls⟩ (reducer_while last size offset pulls cl) := by
  induction cl with
  | nil =>
    intro last size offset pulls hinv
    unfold reducer_while
    by_cases h1 : offset ≥ size
    · by_cases h2 : size = -1
      · rw [if_pos h1, if_pos h2]
        rcases hinv with ⟨_, ho, _⟩ | ⟨h0, _, hsz⟩
        · simp only at ho
          refine ⟨fun _ => ⟨h2, ho, rfl⟩, by simp, rfl, ?_⟩
          intro h; simp only at h; omega
        · simp only at h0 hsz; omega
      · rw [if_pos h1, if_neg h2]
        rcases hinv with ⟨hs, _, _⟩ | ⟨h0, hle, hsz⟩
        · exact absurd hs h2
        · simp only at h0 hle hsz
          refine ⟨fun _ => ⟨rfl, rfl, rfl⟩, by simp, ?_, ?_⟩
          · simp only [Reducer.rest, if_true, h2, if_false, List.flatten_nil, List.append_nil]
            rw [List.drop_of_length_le (by omega)]
          · intro h; simp only at h; omega
    · rw [if_neg h1]
      rcases hinv with ⟨hs, ho, _⟩ | ⟨h0, hle, hsz⟩
      · simp only at hs ho; omega
      · simp only at h0 hle hsz
        exact ⟨by simp, fun _ => ⟨h0, by simpa using h1, hsz⟩, rfl, fun _ => rfl⟩
  | cons c rest ih =>
    intro last size offset pulls hinv
    unfold reducer_while
    by_cases h1 : offset ≥ size
    · by_cases h2 : size = -1
      · rcases hinv with ⟨_, _, hc⟩ | ⟨h0, _, hsz⟩
        · exact absurd hc (by simp)
        · simp only at h0 hsz; omega
      · rw [if_pos h1, if_neg h2]
        rcases hinv with ⟨hs, _, _⟩ | ⟨h0, hle, hsz⟩
        · exact absurd hs h2
        · simp only at h0 hle hsz
          have hi := ih c (c.length : Int) 0 (pulls + 1)
            (Or.inr ⟨le_refl _, by simp, rfl⟩)
          refine ⟨hi.1, hi.2.1, ?_, ?_⟩
          · rw [hi.2.2.1]
            have hc : ¬ ((c.length : Int) = -1) := by omega
            simp only [Reducer.rest, h2, hc, if_false, Int.toNat_zero, List.drop_zero,
              List.flatten_cons]
            rw [List.drop_of_length_le (by omega)]
            simp
          · intro h; simp only at h; omega
    · rw [if_neg h1]
      rcases hinv with ⟨hs, ho, _⟩ | ⟨h0, hle, hsz⟩
      · simp only at hs ho; omega
      · simp only at h0 hle hsz
        exact ⟨by simp, fun _ => ⟨h0, by simpa using h1, hsz⟩, rfl, fun _ => rfl⟩

theorem reducer_fill_spec (r : Reducer) (h : r.Inv) : r.Filled (reducer_fill r) :=
  reducer_while_spec r.closure r.last r.size r.offset r.pulls h

theorem reducer_create_inv (cl : List Chunk) : (reducer_create cl).Inv :=
  Or.inr ⟨le_refl _, le_refl _, rfl⟩

theorem reducer_get_eos (r : Reducer) (s : Int) (hb : (reducer_fill r).1 = true) :
    reducer_get r s = ((-1, []), (reducer_fill r).2) := by
  simp [reducer_get, hb]

theorem reducer_get_ok (r : Reducer) (s : Int) (hb : (reducer_fill r).1 = false) :
    reducer_get r s =
      ((min ((reducer_fill r).2.size - (reducer_fill r).2.offset) s,
        ((reducer_fill r).2.last.drop (reducer_fill r).2.offset.toNat).take
          (min ((reducer_fill r).2.size - (reducer_fill r).2.offset) s).toNat),
       { (reducer_fill r).2 with
         offset := (reducer_fill r).2.offset
           + min ((reducer_fill r).2.size - (reducer_fill r).2.offset) s }) := by
  have hmin : ∀ a b : Int, (if a > b then b else a) = min a b := by
    intro a b
    by_cases h : a > b
    · rw [if_pos h, min_eq_right (le_of_lt h)]
    · rw [if_neg h, min_eq_left (not_lt.mp h)]
  simp [reducer_get, hb, hmin]

theorem reducer_get_inv (r : Reducer) (h : r.Inv) (s : Int) (hs : 0 ≤ s) :
    (reducer_get r s).2.Inv := by
  have hf := reducer_fill_spec r h
  cases hb : (reducer_fill r).1
  · obtain ⟨h0, hlt, hsz⟩ := hf.2.1 hb
    rw [reducer_get_ok r s hb]
    right
    simp only
    refine ⟨?_, ?_, hsz⟩
    · rcases min_choice ((reducer_fill r).2.size - (reducer_fill r).2.offset) s with e | e <;>
        rw [e] <;> omega
    · have := min_le_left ((reducer_fill r).2.size - (reducer_fill r).2.offset) s
      omega
  · rw [reducer_get_eos r s hb]
    exact Or.inl (hf.1 hb)

theorem reached_inv (r : Reducer) (h : Reducer.Reached r) : r.Inv := by
  induction h with
  | create cl => exact reducer_create_inv cl
  | get r s _ hs ih => exact reducer_get_inv r ih s hs

/-- One successful call: the data returned, the bytes left, and the length returned. -/
theorem reducer_get_step (r : Reducer) (h : r.Inv) (s : Int) (hs : 1 ≤ s)
    (hb : (reducer_fill r).1 = false) :
    1 ≤ (reducer_get r s).1.1 ∧ (reducer_get r s).1.1 ≤ s ∧
    ((reducer_get r s).1.2.length : Int) = (reducer_get r s).1.1 ∧
    r.rest = (reducer_get r s).1.2 ++ (reducer_get r s).2.rest := by
  have hf := reducer_fill_spec r h
  obtain ⟨h0, hlt, hsz⟩ := hf.2.1 hb
  rw [reducer_get_ok r s hb]
  simp only
  generalize hn : min ((reducer_fill r).2.size - (reducer_fill r).2.offset) s = n
  have hn1 : 1 ≤ n := by rw [← hn]; exact le_min (by omega) hs
  have hn2 : n ≤ s := by rw [← hn]; exact min_le_right _ _
  have hn3 : n ≤ (reducer_fill r).2.size - (reducer_fill r).2.offset := by
    rw [← hn]; exact min_le_left _ _
  refine ⟨hn1, hn2, ?_, ?_⟩
  · rw [List.length_take, List.length_drop]
    omega
  · rw [← hf.2.2.1]
    have hne : ¬ (reducer_fill r).2.size = -1 := by omega
    simp only [Reducer.rest, hne, if_false]
    rw [← List.append_assoc]
    congr 1
    have e : ((reducer_fill r).2.offset + n).toNat
        = (reducer_fill r).2.offset.toNat + n.toNat := by omega
    rw [e, ← List.drop_drop, List.take_append_drop]

theorem reducer_drive_spec (req : Nat → Int) (hreq : ∀ i, 1 ≤ req i) (fuel : Nat) :
    ∀ (i : Nat) (r : Reducer), r.Inv → r.rest.length < fuel →
      ∃ outs, reducer_drive req fuel i r = some outs ∧ outs.flatten = r.rest := by
  induction fuel with
  | zero => intro i r _ h; omega
  | succ fuel ih =>
    intro i r hinv hlen
    have hf := reducer_fill_spec r hinv
    unfold reducer_drive
    cases hb : (reducer_fill r).1
    · obtain ⟨h1, h2, h3, h4⟩ := reducer_get_step r hinv (req i) (hreq i) hb
      have hpos : ¬ (reducer_get r (req i)).1.1 < 0 := by omega
      have hlen2 : (reducer_get r (req i)).2.rest.length < fuel := by
        have := congrArg List.length h4
        rw [List.length_append] at this
        omega
      obtain ⟨outs, ho1, ho2⟩ := ih (i + 1) _
        (reducer_get_inv r hinv (req i) (by have := hreq i; omega)) hlen2
      refine ⟨(reducer_get r (req i)).1.2 :: outs, ?_, ?_⟩
      · simp only [hpos, if_false, ho1, Option.map_some']
      · rw [List.flatten_cons, ho2, ← h4]
    · refine ⟨[], ?_, ?_⟩
      · rw [reducer_get_eos r (req i) hb]
        simp
      · rw [← hf.2.2.1]
        simp [Reducer.rest, (hf.1 hb).1]

/-- C2: a call of reducer_get with requested size s ≥ 1 in a reachable state either signals
end of stream, or returns n = min(remaining, s) bytes with 1 ≤ n ≤ s, taken from the
buffered chunk at the current offset, and advances the offset by n. The buffered chunk
and offset are those left by the refill loop, which changes nothing when the buffered
chunk still has unread bytes. -/
theorem reducer_get_spec (r : Reducer) (hr : Reducer.Reached r) (s : Int) (hs : 1 ≤ s) :
    (((reducer_fill r).1 = true ∧ (reducer_get r s).1.1 = -1) ∨
     ((reducer_fill r).1 = false ∧
      1 ≤ (reducer_get r s).1.1 ∧ (reducer_get r s).1.1 ≤ s ∧
      (reducer_get r s).1.1 = min ((reducer_fill r).2.size - (reducer_fill r).2.offset) s ∧
      (reducer_fill r).2.size = ((reducer_fill r).2.last.length : Int) ∧
      0 ≤ (reducer_fill r).2.offset ∧
      (reducer_get r s).1.2 =
        ((reducer_fill r).2.last.drop (reducer_fill r).2.offset.toNat).take
          (reducer_get r s).1.1.toNat ∧
      ((reducer_get r s).1.2.length : Int) = (reducer_get r s).1.1 ∧
      (reducer_get r s).2.last = (reducer_fill r).2.last ∧
      (reducer_get r s).2.offset = (reducer_fill r).2.offset + (reducer_get r s).1.1)) ∧
    (r.offset < r.size → reducer_fill r = (false, r)) := by
  have hinv := reached_inv r hr
  have hf := reducer_fill_spec r hinv
  refine ⟨?_, hf.2.2.2⟩
  cases hb : (reducer_fill r).1
  · right
    obtain ⟨h0, hlt, hsz⟩ := hf.2.1 hb
    obtain ⟨h1, h2, h3, _⟩ := reducer_get_step r hinv s hs hb
    refine ⟨rfl, h1, h2, ?_, hsz, h0, ?_, h3, ?_, ?_⟩ <;> rw [reducer_get_ok r s hb]
  · left
    exact ⟨rfl, by rw [reducer_get_eos r s hb]⟩

/-- Witness of C2: the first call on the upstream [[1,2,3]] with requested size 2. -/
theorem reducer_get_spec_witness :
    (((reducer_fill (reducer_create [[1, 2, 3]])).1 = true ∧
        (reducer_get (reducer_create [[1, 2, 3]]) 2).1.1 = -1) ∨
     ((reducer_fill (reducer_create [[1, 2, 3]])).1 = false ∧
      1 ≤ (reducer_get (reducer_create [[1, 2, 3]]) 2).1.1 ∧
      (reducer_get (reducer_create [[1, 2, 3]]) 2).1.1 ≤ 2 ∧
      (reducer_get (reducer_create [[1, 2, 3]]) 2).1.1 =
        min ((reducer_fill (reducer_create [[1, 2, 3]])).2.size
          - (reducer_fill (reducer_create [[1, 2, 3]])).2.offset) 2 ∧
      (reducer_fill (reducer_create [[1, 2, 3]])).2.size =
        ((reducer_fill (reducer_create [[1, 2, 3]])).2.last.length : Int) ∧
      0 ≤ (reducer_fill (reducer_create [[1, 2, 3]])).2.offset ∧
      (reducer_get (reducer_create [[1, 2, 3]]) 2).1.2 =
        ((reducer_fill (reducer_create [[1, 2, 3]])).2.last.drop
          (reducer_fill (reducer_create [[1, 2, 3]])).2.offset.toNat).take
          (reducer_get (reducer_create [[1, 2, 3]]) 2).1.1.toNat ∧
      ((reducer_get (reducer_create [[1, 2, 3]]) 2).1.2.length : Int) =
        (reducer_get (reducer_create [[1, 2, 3]]) 2).1.1 ∧
      (reducer_get (reducer_create [[1, 2, 3]]) 2).2.last =
        (reducer_fill (reducer_create [[1, 2, 3]])).2.last ∧
      (reducer_get (reducer_create [[1, 2, 3]]) 2).2.offset =
        (reducer_fill (reducer_create [[1, 2, 3]])).2.offset
          + (reducer_get (reducer_create [[1, 2, 3]]) 2).1.1)) ∧
    ((reducer_create [[1, 2, 3]]).offset < (reducer_create [[1, 2, 3]]).size →
      reducer_fill (reducer_create [[1, 2, 3]]) = (false, reducer_create [[1, 2, 3]])) :=
  reducer_get_spec (reducer_create [[1, 2, 3]]) (Reducer.Reached.create _) 2 (by decide)

/-- C3: driving reducer_get to end of stream, with requested sizes all at least 1, returns
chunks whose concatenation is the concatenation of the upstream chunks. -/
theorem reducer_drive_concat (chunks : List Chunk) (req : Nat → Int) (hreq : ∀ i, 1 ≤ req i) :
    ∃ outs, reducer_drive req (chunks.flatten.length + 1) 0 (reducer_create chunks) = some outs ∧
      outs.flatten = chunks.flatten := by
  have hrest : (reducer_create chunks).rest = chunks.flatten := by
    simp [Reducer.rest, reducer_create]
  obtain ⟨outs, h1, h2⟩ := reducer_drive_spec req hreq (chunks.flatten.length + 1) 0
    (reducer_create chunks) (reducer_create_inv chunks) (by rw [hrest]; omega)
  exact ⟨outs, h1, by rw [h2, hrest]⟩

/-- Witness of C3: the upstream [[1,2,3],[],[4]] read two bytes at a time. -/
theorem reducer_drive_concat_witness :
    ∃ outs, reducer_drive (fun _ => 2) (([[1, 2, 3], [], [4]] : List Chunk).flatten.length + 1) 0
        (reducer_create [[1, 2, 3], [], [4]]) = some outs ∧
      outs.flatten = ([[1, 2, 3], [], [4]] : List Chunk).flatten :=
  reducer_drive_concat [[1, 2, 3], [], [4]] (fun _ => 2) (fun _ => show (1 : Int) ≤ 2 by decide)

theorem memcpy_take (dst : Chunk) (off : Nat) (src : Chunk) (n : Nat)
    (h1 : off ≤ dst.length) (h2 : src.length = n) :
    (memcpy dst off src n).take (off + n) = dst.take off ++ src := by
  unfold memcpy
  have e1 : src.take n = src := List.take_of_length_le (by omega)
  rw [e1]
  have hl : (dst.take off ++ src).length = off + n := by
    rw [List.length_append, List.length_take]; omega
  rw [← hl, List.take_left]

theorem memcpy_length (dst : Chunk) (off : Nat) (src : Chunk) (n : Nat)
    (h1 : off + n ≤ dst.length) (h2 : src.length = n) :
    (memcpy dst off src n).length = dst.length := by
  unfold memcpy
  simp only [List.length_append, List.length_take, List.length_drop]
  omega

theorem memset_take (dst : Chunk) (off : Nat) (v : Nat) (n : Nat) (h1 : off ≤ dst.length) :
    (memset dst off v n).take (off + n) = dst.take off ++ List.replicate n v := by
  unfold memset
  have hl : (dst.take off ++ List.replicate n v).length = off + n := by
    rw [List.length_append, List.length_take, List.length_replicate]; omega
  rw [← hl, List.take_left]

theorem memset_length (dst : Chunk) (off : Nat) (v : Nat) (n : Nat)
    (h1 : off + n ≤ dst.length) : (memset dst off v n).length = dst.length := by
  unfold memset
  simp only [List.length_append, List.length_take, List.length_drop, List.length_replicate]
  omega

theorem expander_while_spec {σ : Type} (I : σ → Prop) (child : Producer σ)
    (hchild : AtMostOn I child) (size : Int) (fuel : Nat) :
    ∀ st : ExpanderLoop σ, I st.closure → st.Inv size → (size - st.done).toNat ≤ fuel →
      ∃ fin, expander_while child size fuel st = some fin ∧ I fin.closure ∧ fin.Inv size ∧
        fin.done = size ∧ fin.buffer.length = st.buffer.length ∧
        ∃ more, fin.pulled = st.pulled ++ more := by
  induction fuel with
  | zero =>
    intro st hI hinv hf
    have hd : ¬ st.done < size := by
      obtain ⟨h0, h1, _⟩ := hinv
      omega
    have h1 := hinv.2.1
    exact ⟨st, by simp [expander_while, hd], hI, hinv, by omega, rfl, [], by simp⟩
  | succ fuel ih =>
    intro st hI hinv hf
    obtain ⟨h0, h1, h2, h3, h4⟩ := hinv
    by_cases hd : st.done < size
    · have hend : st.ended = false := by
        cases he : st.ended
        · rfl
        · have := (h4 he).1; omega
      obtain ⟨hb, hlen⟩ := h3 hend
      obtain ⟨hI2, hc⟩ := hchild st.closure (size - st.done) hI (by omega)
      unfold expander_while
      rw [if_pos hd]
      simp only
      rcases hc with hc | ⟨hc1, hc2, hc3⟩
      · have hneg : (child st.closure (size - st.done)).1.1 < 0 := by omega
        rw [if_pos hneg]
        have hsum : size.toNat = st.done.toNat + (size - st.done).toNat := by omega
        obtain ⟨fin, hfin, hIf, hinvf, hdone, hlenf, more, hmore⟩ := ih
          { buffer := memset st.buffer st.done.toNat 0 (size - st.done).toNat,
            done := size, closure := (child st.closure (size - st.done)).2,
            pulled := st.pulled, ended := true }
          hI2
          ⟨by show (0 : Int) ≤ size; omega, le_refl _, by
              simp only
              rw [memset_length _ _ _ _ (by omega)]; exact h2,
            by simp,
            fun _ => ⟨rfl, by
              simp only
              rw [hsum, memset_take _ _ _ _ (by omega), hb]
              congr 2
              omega, by simp only; omega⟩⟩
          (by simp)
        refine ⟨fin, hfin, hIf, hinvf, hdone, ?_, more, hmore⟩
        rw [hlenf]
        exact memset_length _ _ _ _ (by omega)
      · have hneg : ¬ (child st.closure (size - st.done)).1.1 < 0 := by omega
        rw [if_neg hneg]
        have hsum : (st.done + (child st.closure (size - st.done)).1.1).toNat
            = st.done.toNat + (child st.closure (size - st.done)).1.1.toNat := by omega
        have hsrc : (child st.closure (size - st.done)).1.2.length
            = (child st.closure (size - st.done)).1.1.toNat := by omega
        obtain ⟨fin, hfin, hIf, hinvf, hdone, hlenf, more, hmore⟩ := ih
          { buffer := memcpy st.buffer st.done.toNat (child st.closure (size - st.done)).1.2
              (child st.closure (size - st.done)).1.1.toNat,
            done := st.done + (child st.closure (size - st.done)).1.1,
            closure := (child st.closure (size - st.done)).2,
            pulled := st.pulled ++ [(child st.closure (size - st.done)).1.2],
            ended := st.ended }
          hI2
          ⟨by simp only; omega, by simp only; omega, by
              simp only
              rw [memcpy_length _ _ _ _ (by omega) hsrc]; exact h2,
            fun _ => ⟨by
              simp only
              rw [hsum, memcpy_take _ _ _ _ (by omega) hsrc, hb]
              simp, by
              simp only [List.flatten_append, List.length_append, List.flatten_cons,
                List.flatten_nil, List.append_nil]
              push_cast
              omega⟩,
            fun he => by simp only at he; rw [hend] at he; exact absurd he (by simp)⟩
          (by simp only; omega)
        refine ⟨fin, hfin, hIf, hinvf, hdone, ?_, ?_⟩
        · rw [hlenf]
          exact memcpy_length _ _ _ _ (by omega) hsrc
        · simp only at hmore
          exact ⟨[(child st.closure (size - st.done)).1.2] ++ more, by
            rw [hmore, List.append_assoc]⟩
    · have : st.done = size := by omega
      exact ⟨st, by unfold expander_while; rw [if_neg hd], hI, ⟨h0, h1, h2, h3, h4⟩, this,
        rfl, [], by simp⟩

theorem expander_get_on {σ : Type} (I : σ → Prop) (child : Producer σ)
    (hchild : AtMostOn I child) (junk fuel : Nat) (e : Expander) (cl : σ) (s : Int)
    (hI : I cl) (hs : 1 ≤ s) (hfuel : s.toNat ≤ fuel) (he : (e.buffer.length : Int) = e.size) :
    ∃ res, expander_get child junk fuel e cl s = some res ∧ I res.closure ∧
      res.Good s (child cl s).1 := by
  obtain ⟨hI2, hc⟩ := hchild cl s hI hs
  unfold expander_get
  simp only
  rcases hc with hc | ⟨hc1, hc2, hc3⟩
  · have hneg : (child cl s).1.1 < 0 := by omega
    rw [if_pos hneg]
    exact ⟨_, rfl, hI2, ⟨by simp [hc], by simp, he⟩⟩
  · have hneg : ¬ (child cl s).1.1 < 0 := by omega
    rw [if_neg hneg]
    by_cases hlt : (child cl s).1.1 < s
    · rw [if_pos hlt]
      have hsrc : (child cl s).1.2.length = (child cl s).1.1.toNat := by omega
      -- the buffer after the optional reallocation
      generalize he1 : (if s > e.size then
          ({ buffer := new_buffer junk s, size := s } : Expander) else e) = e1
      have hb1 : (e1.buffer.length : Int) = e1.size ∧ s ≤ e1.size := by
        rw [← he1]
        by_cases hg : s > e.size
        · rw [if_pos hg]
          simp only [new_buffer, List.length_replicate]
          omega
        · rw [if_neg hg]
          exact ⟨he, by omega⟩
      have hstart : ExpanderLoop.Inv s
          ({ buffer := memcpy e1.buffer 0 (child cl s).1.2 (child cl s).1.1.toNat,
             done := (child cl s).1.1, closure := (child cl s).2,
             pulled := [(child cl s).1.2], ended := false } : ExpanderLoop σ) := by
        refine ⟨?_, ?_, ?_, fun _ => ⟨?_, ?_⟩, fun h => ?_⟩
        · simp only; omega
        · simp only; omega
        · simp only
          rw [memcpy_length _ _ _ _ (by omega) hsrc]; omega
        · simp only
          have := memcpy_take e1.buffer 0 (child cl s).1.2 (child cl s).1.1.toNat
            (by omega) hsrc
          simpa using this
        · simp only [List.flatten_cons, List.flatten_nil, List.append_nil]
          omega
        · simp at h
      obtain ⟨fin, hfin, hIf, hinvf, hdone, hlenf, more, hmore⟩ :=
        expander_while_spec I child hchild s fuel _ hI2 hstart (by simp only; omega)
      rw [hfin]
      simp only
      refine ⟨_, rfl, hIf, ?_, ?_, ?_⟩
      · simp only; constructor <;> intro h <;> omega
      · intro _
        obtain ⟨f0, f1, f2, f3, f4⟩ := hinvf
        simp only at hmore hlenf ⊢
        have hfinal : fin.buffer.take s.toNat
            = fin.pulled.flatten ++ List.replicate (s.toNat - fin.pulled.flatten.length) 0 ∧
            (fin.ended = false → fin.pulled.flatten.length = s.toNat) := by
          cases hen : fin.ended
          · obtain ⟨g1, g2⟩ := f3 hen
            rw [hdone] at g1 g2
            have : fin.pulled.flatten.length = s.toNat := by omega
            exact ⟨by rw [g1, this]; simp, fun _ => this⟩
          · exact ⟨(f4 hen).2.1, fun h => by simp at h⟩
        refine ⟨hdone, ?_, ?_, ?_, hfinal.2, ?_⟩
        · rw [hdone, List.length_take]
          omega
        · rw [hmore]; rfl
        · rw [hdone]; exact hfinal.1
        · intro h; omega
      · simp only
        rw [hlenf, memcpy_length _ _ _ _ (by omega) hsrc]
        exact hb1.1
    · rw [if_neg hlt]
      have heq : (child cl s).1.1 = s := by omega
      refine ⟨_, rfl, hI2, ?_, ?_, he⟩
      · exact Iff.rfl
      · intro _
        simp only [List.head?_cons, List.flatten_cons, List.flatten_nil, List.append_nil]
        have : s.toNat - (child cl s).1.2.length = 0 := by omega
        refine ⟨heq, by omega, trivial, by rw [this]; simp, fun _ => by omega, fun _ => trivial⟩

theorem atMostOn_of_atMost {σ : Type} (child : Producer σ) (h : AtMost child) :
    AtMostOn (fun _ => True) child :=
  fun cl k _ hk => ⟨trivial, h cl k hk⟩

theorem bytes_get_atMost : AtMost bytes_get := by
  intro cl k hk
  cases cl with
  | nil => left; rfl
  | cons b rest => right; exact ⟨le_refl _, hk, rfl⟩

/-- The fill loop does nothing once `done` has reached the requested size. -/
theorem expander_while_done {σ : Type} (child : Producer σ) (size : Int) (fuel : Nat)
    (st : ExpanderLoop σ) (h : ¬ st.done < size) :
    expander_while child size fuel st = some st := by
  cases fuel <;> simp [expander_while, h]

theorem gather_done {σ : Type} (child : Producer σ) (n : Nat) (need : Int) (cl : σ)
    (h : need ≤ 0) : gather child n need cl = ([], false, cl) := by
  cases n <;> simp [gather, h]

/-- The fill loop of expander_get makes the pulls of `gather`. -/
theorem expander_while_gather {σ : Type} (child : Producer σ) (hchild : AtMost child)
    (size : Int) (fuel : Nat) : ∀ (st fin : ExpanderLoop σ),
      expander_while child size fuel st = some fin → st.ended = false →
      ∀ n : Nat, (size - st.done).toNat ≤ n →
        fin.pulled = st.pulled ++ (gather child n (size - st.done) st.closure).1 ∧
        fin.ended = (gather child n (size - st.done) st.closure).2.1 ∧
        fin.closure = (gather child n (size - st.done) st.closure).2.2 := by
  induction fuel with
  | zero =>
    intro st fin h he n _
    unfold expander_while at h
    split_ifs at h with hd
    simp only [Option.some.injEq] at h
    rw [gather_done child n _ _ (by omega), ← h]
    simp [he]
  | succ fuel ih =>
    intro st fin h he n hn
    unfold expander_while at h
    by_cases hd : st.done < size
    · rw [if_pos hd] at h
      simp only at h
      cases n with
      | zero => omega
      | succ n =>
        have hneed : ¬ (size - st.done ≤ 0) := by omega
        unfold gather
        rw [if_neg hneed]
        simp only
        by_cases hneg : (child st.closure (size - st.done)).1.1 < 0
        · rw [if_pos hneg, expander_while_done child size fuel _ (by simp)] at h
          simp only [Option.some.injEq] at h
          rw [if_pos hneg, ← h]
          simp
        · rw [if_neg hneg] at h
          rw [if_neg hneg]
          have hc := hchild st.closure (size - st.done) (by omega)
          have := ih _ fin h he n (by simp only; omega)
          simp only at this
          have e : size - (st.done + (child st.closure (size - st.done)).1.1)
              = size - st.done - (child st.closure (size - st.done)).1.1 := by omega
          rw [e] at this
          obtain ⟨h1, h2, h3⟩ := this
          refine ⟨?_, h2, h3⟩
          rw [h1, List.append_assoc]
          rfl
    · rw [if_neg hd] at h
      simp only [Option.some.injEq] at h
      rw [gather_done child n _ _ (by omega), ← h]
      simp [he]

/-- A call of expander_get makes the pulls of `gather` for the requested size. -/
theorem expander_get_gather {σ : Type} (child : Producer σ) (hchild : AtMost child)
    (junk fuel : Nat) (e : Expander) (cl : σ) (s : Int) (hs : 1 ≤ s)
    (res : ExpanderResult σ) (h : expander_get child junk fuel e cl s = some res) :
    res.pulled = (gather child s.toNat s cl).1 ∧
    res.ended = (gather child s.toNat s cl).2.1 ∧
    res.closure = (gather child s.toNat s cl).2.2 := by
  obtain ⟨n, hn⟩ : ∃ n, s.toNat = n + 1 := ⟨s.toNat - 1, by omega⟩
  rw [hn]
  have hneed : ¬ (s ≤ 0) := by omega
  unfold gather
  rw [if_neg hneed]
  simp only
  unfold expander_get at h
  simp only at h
  by_cases hneg : (child cl s).1.1 < 0
  · rw [if_pos hneg] at h
    simp only [Option.some.injEq] at h
    rw [if_pos hneg, ← h]
    exact ⟨rfl, rfl, rfl⟩
  · rw [if_neg hneg] at h
    rw [if_neg hneg]
    have hc := hchild cl s hs
    by_cases hlt : (child cl s).1.1 < s
    · rw [if_pos hlt] at h
      split at h
      · exact absurd h (by simp)
      · rename_i fin hfin
        simp only [Option.some.injEq] at h
        have := expander_while_gather child hchild s fuel _ fin hfin rfl n
          (by simp only; omega)
        simp only at this
        rw [← h]
        exact ⟨by rw [this.1]; rfl, this.2.1, this.2.2⟩
    · rw [if_neg hlt] at h
      simp only [Option.some.injEq] at h
      rw [gather_done child n _ _ (by omega), ← h]
      exact ⟨rfl, rfl, rfl⟩

/-- C4: for a requested size s ≥ 1 over an upstream obeying the at-most discipline,
expander_get returns (enough fuel given); it signals end of stream iff the first pull
does; otherwise it returns exactly s bytes: the chunks that the pulls of `gather` (request
the shortfall until nothing is missing or upstream signals end of stream) deliver, in
order, followed by zero bytes up to length s, the padding occurring only when upstream
signalled end of stream, and the upstream chunk itself when the first pull gave s bytes.
The upstream is left as those pulls leave it, and the ghost record of the call is the
record of those pulls. -/
theorem expander_get_spec {σ : Type} (child : Producer σ) (hchild : AtMost child)
    (junk fuel : Nat) (e : Expander) (cl : σ) (s : Int) (hs : 1 ≤ s)
    (hfuel : s.toNat ≤ fuel) (he : (e.buffer.length : Int) = e.size) :
    ∃ res, expander_get child junk fuel e cl s = some res ∧
      (res.num = -1 ↔ (child cl s).1.1 = -1) ∧
      (res.num ≠ -1 →
        res.num = s ∧ (res.data.length : Int) = s ∧
        (gather child s.toNat s cl).1.head? = some (child cl s).1.2 ∧
        res.data
          = (gather child s.toNat s cl).1.flatten
            ++ List.replicate (s.toNat - (gather child s.toNat s cl).1.flatten.length) 0 ∧
        ((gather child s.toNat s cl).2.1 = false →
          (gather child s.toNat s cl).1.flatten.length = s.toNat) ∧
        ((child cl s).1.1 = s → res.data = (child cl s).1.2)) ∧
      res.closure = (gather child s.toNat s cl).2.2 ∧
      res.pulled = (gather child s.toNat s cl).1 ∧
      res.ended = (gather child s.toNat s cl).2.1 ∧
      (res.self.buffer.length : Int) = res.self.size := by
  obtain ⟨res, h1, _, h2⟩ := expander_get_on (fun _ => True) child
    (atMostOn_of_atMost child hchild) junk fuel e cl s trivial hs hfuel he
  obtain ⟨g1, g2, g3⟩ := expander_get_gather child hchild junk fuel e cl s hs res h1
  obtain ⟨a, b, c⟩ := h2
  refine ⟨res, h1, a, ?_, g3, g1, g2, c⟩
  intro hne
  have hb := b hne
  rw [g1, g2] at hb
  exact hb

/-- Witness of C4: four bytes requested from an upstream that holds the three bytes
7, 8, 9 and delivers one byte per pull: the frame is 7, 8, 9, 0. -/
theorem expander_get_spec_witness :
    (∃ res, expander_get bytes_get 0 4 (expander_create 0) [7, 8, 9] 4 = some res ∧
      res.num = 4 ∧ res.data = [7, 8, 9, 0] ∧ res.closure = []) ∧
    gather bytes_get 4 4 [7, 8, 9] = ([[7], [8], [9]], true, []) := by
  obtain ⟨res, h1, h2, h3, h4, _⟩ :=
    expander_get_spec bytes_get bytes_get_atMost 0 4 (expander_create 0) [7, 8, 9] 4
      (by decide) (by decide) (by decide)
  have hg : gather bytes_get (4 : Int).toNat 4 [7, 8, 9] = ([[7], [8], [9]], true, []) := by
    decide
  rw [hg] at h3 h4
  have hfirst : (bytes_get [7, 8, 9] 4).1.1 = 1 := by decide
  have hne : res.num ≠ -1 := by
    intro h
    rw [h2.mp h] at hfirst
    exact absurd hfirst (by decide)
  obtain ⟨a, _, _, d, _⟩ := h3 hne
  exact ⟨⟨res, h1, a, by rw [d]; decide, h4⟩, by decide⟩

theorem binary_text_narrow (wide : Nat → Int) (size : Nat) (hs : size ≤ 32) (lval : Int) :
    binary_text wide size lval = binary_text (fun _ => 0) size lval := by
  unfold binary_text
  apply List.map_congr_left
  intro i _
  have hk : size - 1 - i < 32 := by omega
  simp only [int_shl_one, hk, if_true]

/-- The example of the specification: the Int value 10 in style Binary, for either byte
order and whatever an over-wide shift would yield (no such shift occurs for Int). -/
theorem outconv_get_binary_int_ten (be : Bool) (wide : Nat → Int) :
    outconv_get be wide { conversion_create with style := Style.STYLE_BINARY }
        (fun _ => (4, toBytes be 4 10))
      = Outcome.ret 32 "00000000000000000000000000001010".toList := by
  have h : outconv_get be wide { conversion_create with style := Style.STYLE_BINARY }
        (fun _ => (4, toBytes be 4 10))
      = outconv_get be (fun _ => 0) { conversion_create with style := Style.STYLE_BINARY }
        (fun _ => (4, toBytes be 4 10)) := by
    simp only [outconv_get, conversion_create, outconv_text, sizeof_int,
      binary_text_narrow wide (4 * 8) (by norm_num)]
  rw [h]
  cases be <;> decide

/-- C20: for type String, a token delivered by upstream is returned unchanged with its
length when quoting is None, and the call fails with the not-implemented message when
quoting is ShellStyle or TclStyle. -/
theorem inconv_get_string (now : Tm) (mktime : Tm → Int) (be : Bool) (conv : Conversion)
    (child : Int → Int × List Char) (hnum : 0 ≤ (child 1024).1)
    (ht : conv.type = CType.TYPE_STRING) :
    (conv.quoting = Quoting.QUOTING_NONE →
      inconv_get now mktime be conv child
        = Outcome.ret (child 1024).2.length ((child 1024).2.map Char.toNat)) ∧
    (conv.quoting = Quoting.QUOTING_SHELL →
      inconv_get now mktime be conv child
        = Outcome.exit "Shell quoting not implemented yet") ∧
    (conv.quoting = Quoting.QUOTING_TCL →
      inconv_get now mktime be conv child
        = Outcome.exit "Tcl quoting not implemented yet") := by
  have hn : ¬ (child 1024).1 < 0 := not_lt.mpr hnum
  refine ⟨fun hq => ?_, fun hq => ?_, fun hq => ?_⟩ <;> simp [inconv_get, hn, ht, hq]

/-- Witness of C20: the token `abc` with quoting None. -/
theorem inconv_get_string_witness :
    inconv_get tm_example mktime_utc false
        { conversion_create with type := CType.TYPE_STRING } (fun _ => (3, "abc".toList))
      = Outcome.ret 3 [97, 98, 99] :=
  (inconv_get_string tm_example mktime_utc false
    { conversion_create with type := CType.TYPE_STRING } (fun _ => (3, "abc".toList))
    (by decide) rfl).1 rfl

theorem int_and_low (x : Int) (k : Nat) (hk : k ≤ 31) :
    int_and x ((2 : Int) ^ k - 1) = x % 2 ^ k := by
  have hx := toUnsigned_cast 4 x
  have hxlt := toUnsigned_lt 4 x
  have hpk : (2 : Int) ^ k ≤ 2 ^ 31 := pow_le_pow_right₀ (by norm_num) hk
  have hpk0 : (0 : Int) < 2 ^ k := by positivity
  have hpkn : 2 ^ k ≤ 2 ^ 31 := Nat.pow_le_pow_right (by norm_num) hk
  have hm : toUnsigned 4 ((2 : Int) ^ k - 1) = 2 ^ k - 1 := by
    have h1 := toUnsigned_cast 4 ((2 : Int) ^ k - 1)
    have h2 : ((2 : Int) ^ k - 1) % 2 ^ (8 * 4) = 2 ^ k - 1 :=
      Int.emod_eq_of_lt (by omega) (by norm_num; omega)
    rw [h2] at h1
    have h3 : 1 ≤ 2 ^ k := Nat.one_le_two_pow
    zify [h3]
    exact h1
  unfold int_and
  rw [hm]
  have hland : Nat.land (toUnsigned 4 x) (2 ^ k - 1) = toUnsigned 4 x % 2 ^ k :=
    Nat.and_pow_two_sub_one_eq_mod _ _
  rw [hland]
  have hlt : toUnsigned 4 x % 2 ^ k < 2 ^ k := Nat.mod_lt _ (by positivity)
  unfold toSigned
  have e1 : toUnsigned 4 x % 2 ^ k % 2 ^ (8 * 4) = toUnsigned 4 x % 2 ^ k :=
    Nat.mod_eq_of_lt (by norm_num; omega)
  rw [e1]
  have e2 : toUnsigned 4 x % 2 ^ k < 2 ^ (8 * 4 - 1) := by norm_num; omega
  rw [if_pos e2]
  push_cast
  rw [hx]
  have hd : (2 : Int) ^ k ∣ 2 ^ (8 * 4) := pow_dvd_pow 2 (by omega)
  exact Int.emod_emod_of_dvd x hd

theorem toSigned4_small (x : Nat) (h : x < 2 ^ 31) : toSigned 4 x = (x : Int) := by
  unfold toSigned
  have e1 : x % 2 ^ (8 * 4) = x := Nat.mod_eq_of_lt (by norm_num; omega)
  rw [e1, if_pos (by norm_num; omega)]

theorem toUnsigned4_small (x : Int) (h0 : 0 ≤ x) (h : x < 2 ^ 32) :
    toUnsigned 4 x = x.toNat := by
  unfold toUnsigned
  rw [Int.emod_eq_of_lt h0 (by norm_num; omega)]

theorem int_shl_small (x : Int) (k : Nat) (h0 : 0 ≤ x) (h : x * 2 ^ k < 2 ^ 31) :
    int_shl x k = x * 2 ^ k := by
  have hp : (1 : Int) ≤ 2 ^ k := one_le_pow₀ (by norm_num)
  have hx : x < 2 ^ 32 := by nlinarith
  unfold int_shl
  rw [toUnsigned4_small x h0 hx, toSigned4_small]
  · push_cast
    rw [Int.toNat_of_nonneg h0]
  · zify
    rw [Int.toNat_of_nonneg h0]
    exact h

theorem int_or_disjoint (a b : Int) (i : Nat) (ha : 0 ≤ a) (hb0 : 0 ≤ b)
    (hb : b < 2 ^ i) (hsum : 2 ^ i * a + b < 2 ^ 31) :
    int_or (2 ^ i * a) b = 2 ^ i * a + b := by
  have hp : (0 : Int) < 2 ^ i := by positivity
  have h1 : (0 : Int) ≤ 2 ^ i * a := by positivity
  unfold int_or
  rw [toUnsigned4_small _ h1 (by omega), toUnsigned4_small b hb0 (by omega)]
  have e1 : (2 ^ i * a).toNat = 2 ^ i * a.toNat := by
    zify
    rw [Int.toNat_of_nonneg h1, Int.toNat_of_nonneg ha]
  have hbn : b.toNat < 2 ^ i := by
    zify
    rw [Int.toNat_of_nonneg hb0]
    exact hb
  rw [e1]
  have hor : Nat.lor (2 ^ i * a.toNat) b.toNat = 2 ^ i * a.toNat + b.toNat :=
    (Nat.mul_add_lt_is_or hbn a.toNat).symm
  rw [hor, toSigned4_small]
  · push_cast
    rw [Int.toNat_of_nonneg ha, Int.toNat_of_nonneg hb0]
  · zify
    rw [Int.toNat_of_nonneg ha, Int.toNat_of_nonneg hb0]
    exact hsum

/-- The value cmdbcn packs, for all int arguments. -/
theorem cmdbcn_eq (b c n : Int) :
    cmdbcn b c n = b % 16 * 2 ^ 11 + c % 64 * 2 ^ 5 + n % 32 := by
  have hb := int_and_low b 4 (by norm_num)
  have hc := int_and_low c 6 (by norm_num)
  have hn := int_and_low n 5 (by norm_num)
  norm_num at hb hc hn
  have hb0 := Int.emod_nonneg b (show (16 : Int) ≠ 0 by norm_num)
  have hb1 := Int.emod_lt_of_pos b (show (0 : Int) < 16 by norm_num)
  have hc0 := Int.emod_nonneg c (show (64 : Int) ≠ 0 by norm_num)
  have hc1 := Int.emod_lt_of_pos c (show (0 : Int) < 64 by norm_num)
  have hn0 := Int.emod_nonneg n (show (32 : Int) ≠ 0 by norm_num)
  have hn1 := Int.emod_lt_of_pos n (show (0 : Int) < 32 by norm_num)
  unfold cmdbcn
  rw [hb, hc, hn, int_shl_small _ 11 hb0 (by norm_num; omega),
    int_shl_small _ 5 hc0 (by norm_num; omega)]
  have e1 : b % 16 * 2 ^ 11 = 2 ^ 11 * (b % 16) := by ring
  rw [e1, int_or_disjoint (b % 16) (c % 64 * 2 ^ 5) 11 hb0 (by positivity)
    (by norm_num; omega) (by norm_num; omega)]
  have e2 : (2 : Int) ^ 11 * (b % 16) + c % 64 * 2 ^ 5 = 2 ^ 5 * (b % 16 * 64 + c % 64) := by
    ring
  rw [e2, int_or_disjoint _ (n % 32) 5 (by positivity) hn0 (by norm_num; omega)
    (by norm_num; omega)]

/-- The triplet cmgbcn unpacks, by arithmetic. -/
theorem cmgbcn_eq (v : Int) :
    cmgbcn v = (v / 2 ^ 11, v / 2 ^ 5 % 64, v % 32) := by
  have hc := int_and_low (v / 2 ^ 5) 6 (by norm_num)
  have hn := int_and_low v 5 (by norm_num)
  norm_num at hc hn
  unfold cmgbcn int_shr
  norm_num
  exact ⟨hc, hn⟩

/-- C11: unpacking with cmgbcn the 16-bit value that cmdbcn packs from (b, c, n), with b
in [0,15], c in [0,63] and n in [0,31], yields (b, c, n). -/
theorem bcn_round_trip (b c n : Int) (hb : 0 ≤ b ∧ b ≤ 15) (hc : 0 ≤ c ∧ c ≤ 63)
    (hn : 0 ≤ n ∧ n ≤ 31) :
    cmgbcn (toSigned 2 (toUnsigned 2 (cmdbcn b c n))) = (b, c, n) := by
  have hv := cmdbcn_eq b c n
  rw [Int.emod_eq_of_lt hb.1 (by omega), Int.emod_eq_of_lt hc.1 (by omega),
    Int.emod_eq_of_lt hn.1 (by omega)] at hv
  have h0 : 0 ≤ cmdbcn b c n := by rw [hv]; norm_num; omega
  have h1 : cmdbcn b c n < 2 ^ 15 := by rw [hv]; norm_num; omega
  rw [toSigned_toUnsigned 2 (by simp) _ (by norm_num; omega) (by norm_num; omega),
    cmgbcn_eq, hv]
  norm_num
  refine ⟨?_, ?_, ?_⟩ <;> omega

/-- Witness of C11: the triplet (15, 63, 31). -/
theorem bcn_round_trip_witness :
    cmgbcn (toSigned 2 (toUnsigned 2 (cmdbcn 15 63 31))) = (15, 63, 31) :=
  bcn_round_trip 15 63 31 (by decide) (by decide) (by decide)

/-- The 16-bit value stored for the triplet (b, c, n), c and n within their ranges. -/
theorem cmdbcn_stored (b c n : Int) (hc : 0 ≤ c ∧ c ≤ 63) (hn : 0 ≤ n ∧ n ≤ 31) :
    ((toUnsigned 2 (cmdbcn b c n) : Nat) : Int) = b % 16 * 2 ^ 11 + c * 2 ^ 5 + n := by
  have hv := cmdbcn_eq b c n
  rw [Int.emod_eq_of_lt hc.1 (by omega), Int.emod_eq_of_lt hn.1 (by omega)] at hv
  have hb0 := Int.emod_nonneg b (show (16 : Int) ≠ 0 by norm_num)
  have hb1 := Int.emod_lt_of_pos b (show (0 : Int) < 16 by norm_num)
  rw [toUnsigned_cast, hv]
  exact Int.emod_eq_of_lt (by norm_num; omega) (by norm_num; omega)

/-- Counterexample to C12: b = 16 lies in [0,31], yet the value packed from (16, 0, 0) is
0 and not 16 * 2^11; the Encoder returns the bytes 0, 0 for the text 16 0 0. -/
theorem cmdbcn_sixteen :
    toUnsigned 2 (cmdbcn 16 0 0) = 0 ∧
    toUnsigned 2 (cmdbcn 16 0 0) ≠ 16 * 2 ^ 11 + 0 * 2 ^ 5 + 0 ∧
    inconv_get tm_example mktime_utc false
        { conversion_create with type := CType.TYPE_BCN } (fun _ => (6, "16 0 0".toList))
      = Outcome.ret 2 [0, 0] := by
  decide

theorem takeWhile_isdigit_append (ds rest : List Char) (hd : ∀ c ∈ ds, isdigit c)
    (hr : rest.head?.all (fun c => !decide (isdigit c)) = true) :
    (ds ++ rest).takeWhile (fun c => decide (isdigit c)) = ds := by
  induction ds with
  | nil =>
    cases rest with
    | nil => rfl
    | cons c t =>
      simp only [List.head?_cons, Option.all_some, Bool.not_eq_true', decide_eq_false_iff_not]
        at hr
      simp [List.takeWhile, hr]
  | cons d ds ih =>
    have hd1 : isdigit d := hd d (List.mem_cons_self _ _)
    simp only [List.cons_append, List.takeWhile_cons, hd1, decide_True, if_true]
    rw [ih (fun c hc => hd c (List.mem_cons_of_mem _ hc))]

theorem wrap32_small (m : Nat) (h : m < 2 ^ 31) : wrap32 (m : Int) = m := by
  unfold wrap32
  rw [toUnsigned4_small _ (by positivity) (by omega), toSigned4_small]
  · simp
  · simpa using h

/-- The `%d` conversion on the decimal digits of m followed by something that is not a
digit. -/
theorem scanf_d_digits (m : Nat) (hm : m < 2 ^ 31) (rest : List Char)
    (hr : rest.head?.all (fun c => !decide (isdigit c)) = true) :
    scanf_d none (Nat.toDigits 10 m ++ rest) = Converted.ok (m : Int) rest := by
  have hdig := toDigits_isdigit m
  have hval := decimalValue_toDigits m
  have hne := toDigits_ne_nil m
  generalize Nat.toDigits 10 m = ds at hdig hval hne
  cases ds with
  | nil => exact absurd rfl hne
  | cons c cs =>
    have hc : isdigit c := hdig c (List.mem_cons_self _ _)
    have htw := takeWhile_isdigit_append (c :: cs) rest hdig hr
    unfold scanf_d
    simp only [List.cons_append, dropWhile_isspace_of_isdigit c (cs ++ rest) hc]
    simp only [scanSign_of_isdigit c (cs ++ rest) hc]
    rw [← List.cons_append, htw]
    simp only [List.cons_ne_nil, if_false, Bool.false_eq_true, hval, Nat.sub_self, Nat.zero_add,
      List.drop_left, wrap32_small m hm, reduceCtorEq]

theorem head_comma (t : List Char) :
    (',' :: t).head?.all (fun c => !decide (isdigit c)) = true := by
  simp only [List.head?_cons, Option.all_some, Bool.not_eq_true', decide_eq_false_iff_not]
  decide

theorem head_nil : ([] : List Char).head?.all (fun c => !decide (isdigit c)) = true := rfl

theorem scanSign_of_ne (c : Char) (cs : List Char) (h1 : c ≠ '-') (h2 : c ≠ '+') :
    scanSign (c :: cs) = (false, c :: cs) := by
  unfold scanSign
  split
  · rename_i t heq
    simp only [List.cons.injEq] at heq
    exact absurd heq.1 h1
  · rename_i t heq
    simp only [List.cons.injEq] at heq
    exact absurd heq.1 h2
  · rfl

/-- The `%d` conversion fails to match at a comma. -/
theorem scanf_d_comma (t : List Char) : scanf_d none (',' :: t) = Converted.matching := by
  have hsp : isspace ',' = false := by decide
  have hdw : (',' :: t).dropWhile isspace = ',' :: t := by simp [List.dropWhile, hsp]
  have hnd : ¬ isdigit ',' := by decide
  unfold scanf_d
  simp only [hdw, scanSign_of_ne ',' t (by decide) (by decide), List.takeWhile_cons, hnd,
    decide_False, Bool.false_eq_true, if_false, if_true]

/-- The two sscanf calls of the BCN case on a text `b,c,n` of three small numbers. -/
theorem sscanf_bcn (b c n : Nat) (hb : b < 2 ^ 31) (hc : c < 2 ^ 31) (hn : n < 2 ^ 31) :
    (sscanf (Nat.toDigits 10 b ++ [','] ++ Nat.toDigits 10 c ++ [','] ++ Nat.toDigits 10 n)
        "%d %d %d").1 = 1 ∧
    sscanf (Nat.toDigits 10 b ++ [','] ++ Nat.toDigits 10 c ++ [','] ++ Nat.toDigits 10 n)
        "%d,%d,%d" = (3, [(b : Int), (c : Int), (n : Int)]) := by
  have hf1 : parse_format "%d %d %d".toList
      = [Directive.int none, Directive.ws, Directive.int none, Directive.ws,
         Directive.int none] := by decide
  have hf2 : parse_format "%d,%d,%d".toList
      = [Directive.int none, Directive.lit ',', Directive.int none, Directive.lit ',',
         Directive.int none] := by decide
  have hsp : isspace ',' = false := by decide
  have e : Nat.toDigits 10 b ++ [','] ++ Nat.toDigits 10 c ++ [','] ++ Nat.toDigits 10 n
      = Nat.toDigits 10 b ++ (',' :: (Nat.toDigits 10 c ++ (',' :: (Nat.toDigits 10 n ++ [])))) := by
    simp
  have s1 := scanf_d_digits b hb (',' :: (Nat.toDigits 10 c ++ (',' :: (Nat.toDigits 10 n ++ []))))
    (head_comma _)
  have s2 := scanf_d_digits c hc (',' :: (Nat.toDigits 10 n ++ [])) (head_comma _)
  have s3 := scanf_d_digits n hn [] head_nil
  rw [e]
  constructor
  · simp only [sscanf, hf1, sscanf_from, s1, List.dropWhile, hsp, scanf_d_comma]
    norm_num
  · simp only [sscanf, hf2, sscanf_from, s1, s2, s3, if_true]
    simp

theorem sprintf_d_nat (m : Nat) : sprintf_d (m : Int) = Nat.toDigits 10 m := by
  unfold sprintf_d digitsOf
  have h : ¬ ((m : Int) < 0) := by omega
  rw [if_neg h]
  simp

/-- The text outconv_get prints for the BCN code x with bit 15 clear. -/
theorem outconv_get_bcn_eq (be : Bool) (wide : Nat → Int) (conv : Conversion) (x : Nat)
    (hx : x < 2 ^ 15) (ht : conv.type = CType.TYPE_BCN) (hsw : conv.byteswap = false) :
    outconv_get be wide conv (fun _ => (2, toBytes be 2 x))
      = Outcome.ret (bcn_text x).length (bcn_text x) := by
  have htake : (toBytes be 2 x).take 2 = toBytes be 2 x :=
    List.take_of_length_le (by rw [toBytes_length])
  have hof : ofBytes be (toBytes be 2 x) = x := by
    rw [ofBytes_toBytes]
    exact Nat.mod_eq_of_lt (by norm_num; omega)
  have hs : toSigned 2 x = (x : Int) := by
    unfold toSigned
    have e1 : x % 2 ^ (8 * 2) = x := Nat.mod_eq_of_lt (by norm_num; omega)
    rw [e1, if_pos (by norm_num; omega)]
  have hg : cmgbcn (x : Int)
      = (((x / 2 ^ 11 : Nat) : Int), ((x / 2 ^ 5 % 64 : Nat) : Int), ((x % 32 : Nat) : Int)) := by
    rw [cmgbcn_eq]
    push_cast
    rfl
  simp only [outconv_get, ht, sizeof_short, htake, hof, hsw, hs, hg, sprintf_d_nat,
    Bool.false_eq_true, if_false]
  simp [bcn_text]

/-- The bytes inconv_get returns for the text of the BCN code x with bit 15 clear. -/
theorem inconv_get_bcn_text (now : Tm) (mktime : Tm → Int) (be : Bool) (conv : Conversion)
    (x : Nat) (hx : x < 2 ^ 15) (ht : conv.type = CType.TYPE_BCN)
    (hsw : conv.byteswap = false) :
    inconv_get now mktime be conv (fun _ => (((bcn_text x).length : Int), bcn_text x))
      = Outcome.ret 2 (toBytes be 2 x) := by
  have hsc := sscanf_bcn (x / 2 ^ 11) (x / 2 ^ 5 % 64) (x % 32) (by omega) (by omega)
    (by omega)
  have hn : ¬ (((bcn_text x).length : Int) < 0) := by omega
  have hv := cmdbcn_eq ((x / 2 ^ 11 : Nat) : Int) ((x / 2 ^ 5 % 64 : Nat) : Int)
    ((x % 32 : Nat) : Int)
  have hval : cmdbcn ((x / 2 ^ 11 : Nat) : Int) ((x / 2 ^ 5 % 64 : Nat) : Int)
      ((x % 32 : Nat) : Int) = (x : Int) := by
    rw [hv]
    norm_num
    omega
  have hu : toUnsigned 2 (x : Int) = x := by
    have := toUnsigned_cast 2 (x : Int)
    have h2 : (x : Int) % 2 ^ (8 * 2) = x := Int.emod_eq_of_lt (by omega) (by norm_num; omega)
    rw [h2] at this
    exact_mod_cast this
  have hval2 : cmdbcn ((x : Int) / 2048) ((x : Int) / 32 % 64) ((x : Int) % 32) = (x : Int) := by
    have := hval
    push_cast at this
    exact this
  unfold bcn_text at hn ⊢
  simp only [inconv_get, hn, ht, if_false, hsc.1, hsc.2, assigned, List.getD_cons_zero,
    List.getD_cons_succ, hval, hu, hsw, Bool.false_eq_true, sizeof_short]
  simp [hval2, hu]

/-- C13 (amended): for every stored BCN code x with bit 15 clear and byteswap clear, the
Decoder prints `b,c,n` with b the number in 0..15 held in bits 14..11, c the number in
0..63 held in bits 10..5 and n the number in 0..31 held in bits 4..0, and the Encoder
applied to that text gives back the two bytes of x. -/
theorem outconv_get_bcn (now : Tm) (mktime : Tm → Int) (be : Bool) (wide : Nat → Int)
    (conv : Conversion) (x : Nat) (hx : x < 2 ^ 15) (ht : conv.type = CType.TYPE_BCN)
    (hsw : conv.byteswap = false) :
    outconv_get be wide conv (fun _ => (2, toBytes be 2 x))
      = Outcome.ret (bcn_text x).length (bcn_text x) ∧
    x / 2 ^ 11 ≤ 15 ∧ x / 2 ^ 5 % 64 ≤ 63 ∧ x % 32 ≤ 31 ∧
    x = x / 2 ^ 11 * 2 ^ 11 + x / 2 ^ 5 % 64 * 2 ^ 5 + x % 32 ∧
    inconv_get now mktime be conv (fun _ => (((bcn_text x).length : Int), bcn_text x))
      = Outcome.ret 2 (toBytes be 2 x) := by
  refine ⟨outconv_get_bcn_eq be wide conv x hx ht hsw, by omega, by omega, by omega, by omega,
    inconv_get_bcn_text now mktime be conv x hx ht hsw⟩

/-- Witness of C13 (amended): the code 0x7fff prints as 15,63,31. -/
theorem outconv_get_bcn_witness :
    outconv_get false (fun _ => 0) { conversion_create with type := CType.TYPE_BCN }
        (fun _ => (2, toBytes false 2 32767))
      = Outcome.ret 8 "15,63,31".toList := by
  have h := (outconv_get_bcn tm_example mktime_utc false (fun _ => 0)
    { conversion_create with type := CType.TYPE_BCN } 32767 (by decide) rfl rfl).1
  rw [h]
  decide

/-- Counterexample to C13: the stored code 0x8000 (bit 15 set) prints as -16,0,0, not as
16,0,0, and the Encoder applied to that text gives the bytes of 0, not those of 0x8000. -/
theorem outconv_get_bcn_high_bit :
    outconv_get false (fun _ => 0) { conversion_create with type := CType.TYPE_BCN }
        (fun _ => (2, toBytes false 2 32768))
      = Outcome.ret 7 "-16,0,0".toList ∧
    inconv_get tm_example mktime_utc false { conversion_create with type := CType.TYPE_BCN }
        (fun _ => (7, "-16,0,0".toList))
      = Outcome.ret 2 (toBytes false 2 0) ∧
    toBytes false 2 0 ≠ toBytes false 2 32768 := by
  decide

/-- The Encoder on the text `b,c,n`: the two bytes of the value cmdbcn packs, reversed
when byteswap is set. -/
theorem inconv_get_bcn_commas (now : Tm) (mktime : Tm → Int) (be : Bool) (conv : Conversion)
    (b c n : Nat) (hb : b < 2 ^ 31) (hc : c < 2 ^ 31) (hn : n < 2 ^ 31)
    (ht : conv.type = CType.TYPE_BCN) :
    inconv_get now mktime be conv
        (fun _ => (((triplet_text b c n).length : Int), triplet_text b c n))
      = Outcome.ret 2
          (toBytes be 2
            (if conv.byteswap then bswap16 be (toUnsigned 2 (cmdbcn b c n))
             else toUnsigned 2 (cmdbcn b c n))) := by
  have hsc := sscanf_bcn b c n hb hc hn
  have hlen : ¬ (((triplet_text b c n).length : Int) < 0) := by omega
  unfold triplet_text at hlen ⊢
  simp only [inconv_get, hlen, ht, if_false, hsc.1, hsc.2, assigned, List.getD_cons_zero,
    List.getD_cons_succ, sizeof_short]
  simp

/-- C12 (amended): for b in [0,31], c in [0,63] and n in [0,31] the 16-bit value that
cmdbcn packs is (b mod 16)*2^11 + c*2^5 + n: bits 10..5 hold c, bits 4..0 hold n, bits
14..11 hold the low four bits of b and bit 15 is clear, so that it is b*2^11 + c*2^5 + n
exactly when b is in [0,15]; the Encoder returns the two bytes of that value for the
text `b,c,n`. -/
theorem cmdbcn_value (now : Tm) (mktime : Tm → Int) (be : Bool) (conv : Conversion)
    (b c n : Nat) (hb : b ≤ 31) (hc : c ≤ 63) (hn : n ≤ 31)
    (ht : conv.type = CType.TYPE_BCN) (hsw : conv.byteswap = false) :
    toUnsigned 2 (cmdbcn b c n) = b % 16 * 2 ^ 11 + c * 2 ^ 5 + n ∧
    toUnsigned 2 (cmdbcn b c n) < 2 ^ 15 ∧
    (b ≤ 15 → toUnsigned 2 (cmdbcn b c n) = b * 2 ^ 11 + c * 2 ^ 5 + n) ∧
    inconv_get now mktime be conv
        (fun _ => (((triplet_text b c n).length : Int), triplet_text b c n))
      = Outcome.ret 2 (toBytes be 2 (b % 16 * 2 ^ 11 + c * 2 ^ 5 + n)) := by
  have hv := cmdbcn_stored (b : Int) (c : Int) (n : Int) ⟨by omega, by omega⟩
    ⟨by omega, by omega⟩
  have hval : toUnsigned 2 (cmdbcn b c n) = b % 16 * 2 ^ 11 + c * 2 ^ 5 + n := by
    zify
    rw [hv]
  refine ⟨hval, ?_, fun hle => ?_, ?_⟩
  · rw [hval]; omega
  · rw [hval, Nat.mod_eq_of_lt (by omega)]
  · rw [inconv_get_bcn_commas now mktime be conv b c n (by omega) (by omega) (by omega) ht,
      hsw, hval]
    simp

/-- Witness of C12 (amended): the triplet (20, 3, 7) is packed as (4, 3, 7). -/
theorem cmdbcn_value_witness :
    toUnsigned 2 (cmdbcn 20 3 7) = 4 * 2 ^ 11 + 3 * 2 ^ 5 + 7 ∧
    inconv_get tm_example mktime_utc false { conversion_create with type := CType.TYPE_BCN }
        (fun _ => (6, "20,3,7".toList))
      = Outcome.ret 2 (toBytes false 2 (4 * 2 ^ 11 + 3 * 2 ^ 5 + 7)) := by
  have h := cmdbcn_value tm_example mktime_utc false
    { conversion_create with type := CType.TYPE_BCN } 20 3 7 (by decide) (by decide)
    (by decide) rfl rfl
  exact ⟨h.1, h.2.2.2⟩

theorem text2date_loop_none (toks : List (List Char))
    (h : ∃ tok ∈ toks, text2date_match tok = none) :
    ∀ s : DateScan, text2date_loop toks s = none := by
  induction toks with
  | nil => obtain ⟨tok, hm, _⟩ := h; simp at hm
  | cons t rest ih =>
    intro s
    unfold text2date_loop
    cases hmt : text2date_match t with
    | none => rfl
    | some k =>
      obtain ⟨tok, hm, hn⟩ := h
      rcases List.mem_cons.mp hm with rfl | hm
      · rw [hmt] at hn; exact absurd hn (by simp)
      · exact ih ⟨tok, hm, hn⟩ _

theorem text2date_of_none (now : Tm) (mktime : Tm → Int) (str : List Char) (p : Int)
    (utc : Bool) (h : ∃ tok ∈ strtok str " ,", text2date_match tok = none) :
    text2date now mktime str p utc = (false, p) := by
  unfold text2date
  rw [text2date_loop_none _ h]

/-- C14: when some token of the input (split on spaces and commas) matches none of the
recognised forms, text2date returns FALSE and leaves `*p_time` as it was, and the Encoder
for type Date fails with the message Unrecognised date. -/
theorem text2date_unrecognised (now : Tm) (mktime : Tm → Int) (str : List Char) (p : Int)
    (utc be : Bool) (conv : Conversion) (child : Int → Int × List Char)
    (h : ∃ tok ∈ strtok str " ,", text2date_match tok = none) :
    text2date now mktime str p utc = (false, p) ∧
    (conv.type = CType.TYPE_DATE → 0 ≤ (child 1024).1 → (child 1024).2 = str →
      inconv_get now mktime be conv child = Outcome.exit "Unrecognised date") := by
  refine ⟨text2date_of_none now mktime str p utc h, fun ht hnum hstr => ?_⟩
  have hn : ¬ (child 1024).1 < 0 := not_lt.mpr hnum
  simp [inconv_get, hn, ht, hstr, text2date_of_none now mktime str 0 conv.unsignedp h]

/-- Witness of C14: the input `Jan 15 banana`, whose third token is not recognised. -/
theorem text2date_unrecognised_witness :
    text2date tm_example mktime_utc "Jan 15 banana".toList 7 false = (false, 7) ∧
    inconv_get tm_example mktime_utc false { conversion_create with type := CType.TYPE_DATE }
        (fun _ => (13, "Jan 15 banana".toList))
      = Outcome.exit "Unrecognised date" := by
  have h := text2date_unrecognised tm_example mktime_utc "Jan 15 banana".toList 7 false false
    { conversion_create with type := CType.TYPE_DATE } (fun _ => (13, "Jan 15 banana".toList))
    ⟨"banana".toList, by decide, by decide⟩
  exact ⟨h.1, h.2 rfl (by decide) rfl⟩

/-- A single token that reaches the final else makes text2date fail. -/
theorem text2date_single_none (now : Tm) (mktime : Tm → Int) (tok : List Char) (p : Int)
    (utc : Bool) (h1 : strtok tok " ," = [tok]) (h2 : text2date_match tok = none) :
    text2date now mktime tok p utc = (false, p) :=
  text2date_of_none now mktime tok p utc ⟨tok, by rw [h1]; simp, h2⟩

/-- A single token that takes a branch of the cascade. -/
theorem text2date_single_some (now : Tm) (mktime : Tm → Int) (tok : List Char) (p : Int)
    (utc : Bool) (k : DateToken) (h1 : strtok tok " ," = [tok])
    (h2 : text2date_match tok = some k) :
    text2date now mktime tok p utc
      = (true, mktime (text2date_final (text2date_set (text2date_init now) k) utc)) := by
  unfold text2date
  rw [h1]
  simp [text2date_loop, h2]

/-- The `%nd` conversion on a field of exactly n decimal digits. -/
theorem scanf_d_field (n : Nat) (ds rest : List Char) (hlen : ds.length = n) (hn : 0 < n)
    (hd : ∀ c ∈ ds, isdigit c) (hv : decimalValue ds < 2 ^ 31) :
    scanf_d (some n) (ds ++ rest) = Converted.ok (decimalValue ds : Int) rest := by
  cases ds with
  | nil => simp at hlen; omega
  | cons c cs =>
    have hc : isdigit c := hd c (List.mem_cons_self _ _)
    have htw : (c :: cs).takeWhile (fun c => decide (isdigit c)) = c :: cs := by
      have := takeWhile_isdigit_append (c :: cs) [] hd rfl
      simpa using this
    have htake : (c :: (cs ++ rest)).take n = c :: cs := by
      rw [← List.cons_append]; exact List.take_left' hlen
    have hdrop : (c :: (cs ++ rest)).drop n = rest := by
      rw [← List.cons_append]; exact List.drop_left' hlen
    unfold scanf_d
    simp only [List.cons_append, dropWhile_isspace_of_isdigit c (cs ++ rest) hc, htake,
      scanSign_of_isdigit c cs hc, htw]
    rw [if_neg (by simp)]
    simp only [Bool.false_eq_true, if_false, wrap32_small _ hv, hlen]
    congr 1
    rw [show n - n + n = n by omega, hdrop]

/-- What the sscanf call of the combined branch returns on such a token: six conversions,
the values the digits spell. -/
theorem sscanf_combined (yr mo dy hr mi sc : List Char)
    (h1 : yr.length = 4) (h2 : mo.length = 2) (h3 : dy.length = 2) (h4 : hr.length = 2)
    (h5 : mi.length = 2) (h6 : sc.length = 2)
    (d1 : ∀ c ∈ yr, isdigit c) (d2 : ∀ c ∈ mo, isdigit c) (d3 : ∀ c ∈ dy, isdigit c)
    (d4 : ∀ c ∈ hr, isdigit c) (d5 : ∀ c ∈ mi, isdigit c) (d6 : ∀ c ∈ sc, isdigit c)
    (v1 : decimalValue yr < 2 ^ 31) (v2 : decimalValue mo < 2 ^ 31)
    (v3 : decimalValue dy < 2 ^ 31) (v4 : decimalValue hr < 2 ^ 31)
    (v5 : decimalValue mi < 2 ^ 31) (v6 : decimalValue sc < 2 ^ 31) :
    sscanf (combined_token yr mo dy hr mi sc) "%4d-%2d-%2dT%2d:%2d:%2dZ%c"
      = (6, [(decimalValue yr : Int), (decimalValue mo : Int), (decimalValue dy : Int),
             (decimalValue hr : Int), (decimalValue mi : Int), (decimalValue sc : Int)]) := by
  have hf : parse_format "%4d-%2d-%2dT%2d:%2d:%2dZ%c".toList
      = [Directive.int (some 4), Directive.lit '-', Directive.int (some 2), Directive.lit '-',
         Directive.int (some 2), Directive.lit 'T', Directive.int (some 2), Directive.lit ':',
         Directive.int (some 2), Directive.lit ':', Directive.int (some 2), Directive.lit 'Z',
         Directive.chr] := by decide
  unfold sscanf combined_token
  rw [hf]
  simp only [sscanf_from, scanf_d_field 4 yr _ h1 (by norm_num) d1 v1,
    scanf_d_field 2 mo _ h2 (by norm_num) d2 v2, scanf_d_field 2 dy _ h3 (by norm_num) d3 v3,
    scanf_d_field 2 hr _ h4 (by norm_num) d4 v4, scanf_d_field 2 mi _ h5 (by norm_num) d5 v5,
    scanf_d_field 2 sc _ h6 (by norm_num) d6 v6, if_true, List.nil_append, List.cons_append,
    scanf_eof]
  norm_num

theorem amatch_from_none (str : List Char) (vs : List (List Char)) (h : ∀ v ∈ vs, str ≠ v) :
    ∀ i : Int, amatch_from str vs i = -1 := by
  induction vs with
  | nil => intro i; rfl
  | cons v vs ih =>
    intro i
    unfold amatch_from
    rw [if_neg (h v (List.mem_cons_self _ _))]
    exact ih (fun w hw => h w (List.mem_cons_of_mem _ hw)) _

/-- A token that starts with a digit is in none of the three tables of names. -/
theorem amatch_of_digit (c : Char) (cs : List Char) (hc : isdigit c) :
    amatch (c :: cs) wday 7 = -1 ∧ amatch (c :: cs) mon 12 = -1 ∧
    amatch (c :: cs) month 12 = -1 := by
  have key : ∀ (tbl : List (List Char)) (n : Nat),
      (∀ v ∈ tbl, v.head?.all (fun d => !decide (isdigit d)) = true) →
      amatch (c :: cs) tbl n = -1 := by
    intro tbl n ht
    unfold amatch
    apply amatch_from_none
    intro v hv heq
    have := ht v (List.mem_of_mem_take hv)
    rw [← heq] at this
    simp only [List.head?_cons, Option.all_some, Bool.not_eq_true', decide_eq_false_iff_not]
      at this
    exact this hc
  exact ⟨key wday 7 (by decide), key mon 12 (by decide), key month 12 (by decide)⟩

theorem strtok_from_plain (delims : List Char) (str : List Char)
    (h : ∀ c ∈ str, c ∉ delims) : ∀ cur : List Char,
    strtok_from delims str cur = if cur ++ str = [] then [] else [cur ++ str] := by
  induction str with
  | nil =>
    intro cur
    simp [strtok_from]
  | cons c cs ih =>
    intro cur
    unfold strtok_from
    rw [if_neg (h c (List.mem_cons_self _ _)), ih (fun d hd => h d (List.mem_cons_of_mem _ hd))]
    simp

theorem isdigit_not_delim (c : Char) (h : isdigit c) : c ∉ " ,".toList := by
  unfold isdigit at h
  intro hm
  have : c = ' ' ∨ c = ',' := by simpa using hm
  rcases this with rfl | rfl
  · exact absurd h (by decide)
  · exact absurd h (by decide)

/-- A token of the combined form is delivered by strtok as one token. -/
theorem strtok_combined (yr mo dy hr mi sc : List Char)
    (d1 : ∀ c ∈ yr, isdigit c) (d2 : ∀ c ∈ mo, isdigit c) (d3 : ∀ c ∈ dy, isdigit c)
    (d4 : ∀ c ∈ hr, isdigit c) (d5 : ∀ c ∈ mi, isdigit c) (d6 : ∀ c ∈ sc, isdigit c) :
    strtok (combined_token yr mo dy hr mi sc) " ," = [combined_token yr mo dy hr mi sc] := by
  unfold strtok
  rw [strtok_from_plain]
  · simp [combined_token]
  · intro c hc
    simp only [combined_token, List.mem_append, List.mem_cons, List.mem_singleton,
      List.not_mem_nil, or_false] at hc
    rcases hc with h | rfl | h | rfl | h | rfl | h | rfl | h | rfl | h | rfl
    · exact isdigit_not_delim c (d1 c h)
    · decide
    · exact isdigit_not_delim c (d2 c h)
    · decide
    · exact isdigit_not_delim c (d3 c h)
    · decide
    · exact isdigit_not_delim c (d4 c h)
    · decide
    · exact isdigit_not_delim c (d5 c h)
    · decide
    · exact isdigit_not_delim c (d6 c h)
    · decide

/-- A token of the combined form whose fields pass the range tests of the source takes
the combined branch, with the values its digits spell. -/
theorem text2date_match_combined (yr mo dy hr mi sc : List Char)
    (h1 : yr.length = 4) (h2 : mo.length = 2) (h3 : dy.length = 2) (h4 : hr.length = 2)
    (h5 : mi.length = 2) (h6 : sc.length = 2)
    (d1 : ∀ c ∈ yr, isdigit c) (d2 : ∀ c ∈ mo, isdigit c) (d3 : ∀ c ∈ dy, isdigit c)
    (d4 : ∀ c ∈ hr, isdigit c) (d5 : ∀ c ∈ mi, isdigit c) (d6 : ∀ c ∈ sc, isdigit c)
    (r1 : 1970 ≤ decimalValue yr ∧ decimalValue yr < 2038)
    (r2 : 1 ≤ decimalValue mo ∧ decimalValue mo < 12)
    (r3 : 1 ≤ decimalValue dy ∧ decimalValue dy < 31)
    (r4 : decimalValue hr < 24) (r5 : decimalValue mi < 60) (r6 : decimalValue sc < 60) :
    text2date_match (combined_token yr mo dy hr mi sc)
      = some (DateToken.combined (decimalValue yr) (decimalValue mo) (decimalValue dy)
          (decimalValue hr) (decimalValue mi) (decimalValue sc)) := by
  have hsc := sscanf_combined yr mo dy hr mi sc h1 h2 h3 h4 h5 h6 d1 d2 d3 d4 d5 d6
    (by omega) (by omega) (by omega) (by omega) (by omega) (by omega)
  have hlen : ((combined_token yr mo dy hr mi sc).length : Int) = 20 := by
    simp only [combined_token, List.length_append, List.length_cons, List.length_nil,
      h1, h2, h3, h4, h5, h6]
    rfl
  obtain ⟨c, cs, hyr⟩ : ∃ c cs, yr = c :: cs := by
    cases yr with
    | nil => simp at h1
    | cons c cs => exact ⟨c, cs, rfl⟩
  have hc : isdigit c := d1 c (by rw [hyr]; exact List.mem_cons_self _ _)
  have htok : combined_token yr mo dy hr mi sc
      = c :: (cs ++ ('-' :: (mo ++ ('-' :: (dy ++ ('T' :: (hr ++ (':' :: (mi ++ (':' ::
          (sc ++ ['Z']))))))))))) := by
    rw [hyr]; rfl
  obtain ⟨a1, a2, a3⟩ := amatch_of_digit c
    (cs ++ ('-' :: (mo ++ ('-' :: (dy ++ ('T' :: (hr ++ (':' :: (mi ++ (':' ::
      (sc ++ ['Z'])))))))))))  hc
  rw [← htok] at a1 a2 a3
  unfold text2date_match
  simp only [hlen, hsc, a1, a2, a3, assigned, if_true]
  rw [if_neg (by decide), if_neg (by decide), if_neg (by decide), if_pos]
  · simp
  · simp only [List.getD_cons_zero, List.getD_cons_succ]
    refine ⟨Or.inl ⟨trivial, trivial⟩, ?_⟩
    omega

/-- The day count of mktime_utc up to the first day of a month agrees with the count year
by year and month by month, for each month of the years 1970 to 2037. -/
theorem mktime_utc_table : ∀ a : Nat, a < 68 → ∀ b : Nat, b < 12 →
    days_before_month (b : Int)
      + (if is_leap_year (((1970 + a : Nat) : Int) - 1900 + 1900) && decide (2 ≤ (b : Int))
          then 1 else 0)
      + ((((1970 + a : Nat) : Int) - 1900 - 70) * 365
        + ((((1970 + a : Nat) : Int) - 1900 - 69) / 4)
        - ((((1970 + a : Nat) : Int) - 1900 - 1) / 100)
        + ((((1970 + a : Nat) : Int) - 1900 + 299) / 400))
      = (epoch_days (1970 + a) (1 + b) : Int) := by
  decide

/-- For the years 1970 to 2037, mktime_utc on a struct tm that holds a date and a time of
day is the number of seconds from 1970-01-01 00:00:00 UTC, the days being counted year by
year and month by month. -/
theorem mktime_utc_epoch (tm : Tm) (y mo : Nat) (hy : 1970 ≤ y ∧ y < 2038)
    (hm : 1 ≤ mo ∧ mo ≤ 12) (h1 : tm.tm_year = (y : Int) - 1900)
    (h2 : tm.tm_mon = (mo : Int) - 1) :
    mktime_utc tm = epoch_seconds y mo tm.tm_mday tm.tm_hour tm.tm_min tm.tm_sec := by
  obtain ⟨a, rfl⟩ : ∃ a, y = 1970 + a := ⟨y - 1970, by omega⟩
  obtain ⟨b, rfl⟩ : ∃ b, mo = 1 + b := ⟨mo - 1, by omega⟩
  have T := mktime_utc_table a (by omega) b (by omega)
  have hb : (((1 + b : Nat) : Int) - 1) = (b : Int) := by push_cast; ring
  unfold mktime_utc epoch_seconds
  simp only [h1, h2, hb]
  linear_combination 86400 * T

/-- The example of the specification: 2024-01-15 10:30:00 UTC is 1705314600 seconds after
the epoch. -/
theorem epoch_seconds_example : epoch_seconds 2024 1 15 10 30 0 = 1705314600 := by
  decide

/-- C15: the token 2024-01-15T10:30:00Z yields 1705314600 whatever the current time and
the utc flag, mktime being the calendar-to-epoch function for UTC; and every token
YYYY-MM-DDThh:mm:ssZ spelt by digits whose values pass the range tests of the combined
branch is accepted, whatever the current time and the utc flag, and yields mktime of the
struct tm whose six calendar fields are the values the digits spell (the year less 1900,
the month less 1) with tm_isdst = 0; with mktime the calendar-to-epoch function for UTC
that is the number of seconds from 1970-01-01 00:00:00 UTC to the instant the token
names, the days counted year by year and month by month. -/
theorem text2date_combined :
    (∀ (now : Tm) (p : Int) (utc : Bool),
      text2date now mktime_utc "2024-01-15T10:30:00Z".toList p utc = (true, 1705314600)) ∧
    (∀ (now : Tm) (mktime : Tm → Int) (p : Int) (utc : Bool)
        (yr mo dy hr mi sc : List Char),
      yr.length = 4 → mo.length = 2 → dy.length = 2 → hr.length = 2 → mi.length = 2 →
      sc.length = 2 →
      (∀ c ∈ yr ++ mo ++ dy ++ hr ++ mi ++ sc, isdigit c) →
      1970 ≤ decimalValue yr ∧ decimalValue yr < 2038 →
      1 ≤ decimalValue mo ∧ decimalValue mo < 12 →
      1 ≤ decimalValue dy ∧ decimalValue dy < 31 →
      decimalValue hr < 24 → decimalValue mi < 60 → decimalValue sc < 60 →
      text2date now mktime (combined_token yr mo dy hr mi sc) p utc
        = (true, mktime { now with tm_year := (decimalValue yr : Int) - 1900,
                                   tm_mon := (decimalValue mo : Int) - 1,
                                   tm_mday := (decimalValue dy : Int),
                                   tm_hour := (decimalValue hr : Int),
                                   tm_min := (decimalValue mi : Int),
                                   tm_sec := (decimalValue sc : Int),
                                   tm_isdst := 0 })) ∧
    (∀ (now : Tm) (p : Int) (utc : Bool) (yr mo dy hr mi sc : List Char),
      yr.length = 4 → mo.length = 2 → dy.length = 2 → hr.length = 2 → mi.length = 2 →
      sc.length = 2 →
      (∀ c ∈ yr ++ mo ++ dy ++ hr ++ mi ++ sc, isdigit c) →
      1970 ≤ decimalValue yr ∧ decimalValue yr < 2038 →
      1 ≤ decimalValue mo ∧ decimalValue mo < 12 →
      1 ≤ decimalValue dy ∧ decimalValue dy < 31 →
      decimalValue hr < 24 → decimalValue mi < 60 → decimalValue sc < 60 →
      text2date now mktime_utc (combined_token yr mo dy hr mi sc) p utc
        = (true, epoch_seconds (decimalValue yr) (decimalValue mo) (decimalValue dy)
            (decimalValue hr) (decimalValue mi) (decimalValue sc))) := by
  have hgen : ∀ (now : Tm) (mktime : Tm → Int) (p : Int) (utc : Bool)
        (yr mo dy hr mi sc : List Char),
      yr.length = 4 → mo.length = 2 → dy.length = 2 → hr.length = 2 → mi.length = 2 →
      sc.length = 2 →
      (∀ c ∈ yr ++ mo ++ dy ++ hr ++ mi ++ sc, isdigit c) →
      1970 ≤ decimalValue yr ∧ decimalValue yr < 2038 →
      1 ≤ decimalValue mo ∧ decimalValue mo < 12 →
      1 ≤ decimalValue dy ∧ decimalValue dy < 31 →
      decimalValue hr < 24 → decimalValue mi < 60 → decimalValue sc < 60 →
      text2date now mktime (combined_token yr mo dy hr mi sc) p utc
        = (true, mktime { now with tm_year := (decimalValue yr : Int) - 1900,
                                   tm_mon := (decimalValue mo : Int) - 1,
                                   tm_mday := (decimalValue dy : Int),
                                   tm_hour := (decimalValue hr : Int),
                                   tm_min := (decimalValue mi : Int),
                                   tm_sec := (decimalValue sc : Int),
                                   tm_isdst := 0 }) := by
    intro now mktime p utc yr mo dy hr mi sc h1 h2 h3 h4 h5 h6 hd r1 r2 r3 r4 r5 r6
    have d1 : ∀ c ∈ yr, isdigit c := fun c hc => hd c (by simp [hc])
    have d2 : ∀ c ∈ mo, isdigit c := fun c hc => hd c (by simp [hc])
    have d3 : ∀ c ∈ dy, isdigit c := fun c hc => hd c (by simp [hc])
    have d4 : ∀ c ∈ hr, isdigit c := fun c hc => hd c (by simp [hc])
    have d5 : ∀ c ∈ mi, isdigit c := fun c hc => hd c (by simp [hc])
    have d6 : ∀ c ∈ sc, isdigit c := fun c hc => hd c (by simp [hc])
    rw [text2date_single_some now mktime _ p utc _
      (strtok_combined yr mo dy hr mi sc d1 d2 d3 d4 d5 d6)
      (text2date_match_combined yr mo dy hr mi sc h1 h2 h3 h4 h5 h6 d1 d2 d3 d4 d5 d6
        r1 r2 r3 r4 r5 r6)]
    simp [text2date_final, text2date_set, text2date_init]
  refine ⟨fun now p utc => ?_, hgen, ?_⟩
  swap
  · intro now p utc yr mo dy hr mi sc h1 h2 h3 h4 h5 h6 hd r1 r2 r3 r4 r5 r6
    rw [hgen now mktime_utc p utc yr mo dy hr mi sc h1 h2 h3 h4 h5 h6 hd r1 r2 r3 r4 r5 r6]
    rw [mktime_utc_epoch _ (decimalValue yr) (decimalValue mo) r1 ⟨r2.1, by omega⟩ rfl rfl]
  have htok : "2024-01-15T10:30:00Z".toList
      = combined_token "2024".toList "01".toList "15".toList "10".toList "30".toList
          "00".toList := by decide
  rw [htok, hgen now mktime_utc p utc "2024".toList "01".toList "15".toList "10".toList
    "30".toList "00".toList rfl rfl rfl rfl rfl rfl (by decide)
    (by decide) (by decide) (by decide) (by decide) (by decide) (by decide)]
  have hv : decimalValue "2024".toList = 2024 ∧ decimalValue "01".toList = 1 ∧
      decimalValue "15".toList = 15 ∧ decimalValue "10".toList = 10 ∧
      decimalValue "30".toList = 30 ∧ decimalValue "00".toList = 0 := by decide
  obtain ⟨e1, e2, e3, e4, e5, e6⟩ := hv
  rw [e1, e2, e3, e4, e5, e6]
  have hd : days_before_month (((1 : Nat) : Int) - 1) = 0 := by decide
  have hl : is_leap_year (((2024 : Nat) : Int) - 1900 + 1900) = true := by decide
  simp only [mktime_utc, hd, hl]
  norm_num

/-- Witness of C15: the token 2024-11-05T23:59:58Z. -/
theorem text2date_combined_witness :
    text2date tm_example mktime_utc "2024-11-05T23:59:58Z".toList 7 true
      = (true, mktime_utc { tm_example with tm_year := 2024 - 1900, tm_mon := 11 - 1,
                                            tm_mday := 5, tm_hour := 23, tm_min := 59,
                                            tm_sec := 58, tm_isdst := 0 }) :=
  text2date_combined.2.1 tm_example mktime_utc 7 true "2024".toList "11".toList "05".toList
    "23".toList "59".toList "58".toList rfl rfl rfl rfl rfl rfl (by decide) (by decide)
    (by decide) (by decide) (by decide) (by decide) (by decide)

/-- Examples of the defaulting rule at the current time 2026-03-04 12:34:56: `10:30` gives
today at 10:30:00, `Jan 15` gives 15 January of the current year at midnight, and the
empty input gives the current time. -/
theorem text2date_default_examples :
    text2date tm_example mktime_utc "10:30".toList 0 true
      = (true, mktime_utc { tm_example with tm_hour := 10, tm_min := 30, tm_sec := 0 }) ∧
    text2date tm_example mktime_utc "Jan 15".toList 0 true
      = (true, mktime_utc { tm_example with tm_mon := 0, tm_mday := 15, tm_hour := 0,
                                            tm_min := 0, tm_sec := 0 }) ∧
    text2date tm_example mktime_utc [] 0 true = (true, mktime_utc tm_example) := by
  decide

/-- C16 at failing inputs: a date in December, in each of the three forms, and a date on
the 31st are rejected, whatever the current time, although `Dec` and a bare `31` are
accepted; November the 30th is accepted. -/
theorem text2date_december (now : Tm) (mktime : Tm → Int) (p : Int) (utc : Bool) :
    text2date now mktime "2024-12-15".toList p utc = (false, p) ∧
    text2date now mktime "2024/12/15".toList p utc = (false, p) ∧
    text2date now mktime "2024-12-15T10:30:00Z".toList p utc = (false, p) ∧
    text2date now mktime "2024-01-31".toList p utc = (false, p) ∧
    text2date_match "Dec".toList = some (DateToken.monthname 11) ∧
    text2date_match "31".toList = some (DateToken.mday 31) ∧
    text2date_match "2024-11-30".toList = some (DateToken.ymd 2024 11 30) := by
  refine ⟨?_, ?_, ?_, ?_, by decide, by decide, by decide⟩ <;>
    exact text2date_single_none now mktime _ p utc (by decide) (by decide)

/-- C17 at the failing input: the token 01/15 is rejected, whatever the current time; the
MM/DD branch is taken only when a further character follows the day. -/
theorem text2date_month_day (now : Tm) (mktime : Tm → Int) (p : Int) (utc : Bool) :
    text2date now mktime "01/15".toList p utc = (false, p) ∧
    sscanf "01/15".toList "%d/%d%c" = (2, [1, 15]) ∧
    text2date_match "01/15x".toList = some (DateToken.md 1 15) := by
  exact ⟨text2date_single_none now mktime _ p utc (by decide) (by decide), by decide,
    by decide⟩

/-- C18 at the failing input: the token September is rejected, whatever the current time,
while the spelling of the source table is accepted as the ninth month; the short month
names, the other full names and the weekday names are accepted as the claim says. -/
theorem text2date_september (now : Tm) (mktime : Tm → Int) (p : Int) (utc : Bool) :
    text2date now mktime "September".toList p utc = (false, p) ∧
    text2date_match "Sepember".toList = some (DateToken.monthname 8) ∧
    (∀ k : Fin 12, text2date_match (mon.getD k []) = some (DateToken.monthname k)) ∧
    (∀ k : Fin 12, k.val = 8 ∨
      text2date_match (month.getD k []) = some (DateToken.monthname k)) ∧
    (∀ k : Fin 7, text2date_match (wday.getD k []) = some DateToken.weekday) := by
  exact ⟨text2date_single_none now mktime _ p utc (by decide) (by decide), by decide,
    by decide, by decide, by decide⟩

theorem argv_after_eq (req : Nat → Int) (args : List (List Char)) (i : Nat) :
    argv_after req i (argv_create args.length args)
      = { argc := ((args.length - i : Nat) : Int), argv := args.drop i } := by
  induction i with
  | zero => simp [argv_after, argv_create]
  | succ i ih =>
    simp only [argv_after, ih, argv_get]
    by_cases h : i < args.length
    · have h1 : ¬ (((args.length - i : Nat) : Int) ≤ 0) := by omega
      rw [if_neg h1]
      simp only [List.tail_drop, ArgvStream.mk.injEq]
      constructor
      · omega
      · trivial
    · have h1 : (((args.length - i : Nat) : Int) ≤ 0) := by omega
      rw [if_pos h1]
      simp only [ArgvStream.mk.injEq]
      constructor
      · omega
      · rw [List.drop_of_length_le (by omega), List.drop_of_length_le (by omega)]

/-- C23: for every argument list and every sequence of requested sizes, the call of
argv_get number i (counted from 0) returns the whole argument number i with its strlen
while i is below the number of arguments, whatever size is requested, and signals end of
stream afterwards; four bytes requested from an argument of eight characters give all
eight characters. -/
theorem argv_get_whole (args : List (List Char)) (req : Nat → Int) (i : Nat) :
    (argv_get (argv_after req i (argv_create args.length args)) (req i)).1
      = (if i < args.length then (((args.getD i []).length : Int), args.getD i [])
         else (-1, [])) ∧
    (argv_get (argv_create 1 ["abcdefgh".toList]) 4).1 = (8, "abcdefgh".toList) := by
  refine ⟨?_, by decide⟩
  rw [argv_after_eq]
  unfold argv_get
  by_cases h : i < args.length
  · have h1 : ¬ (((args.length - i : Nat) : Int) ≤ 0) := by omega
    rw [if_neg h1, if_pos h]
    have hd : (args.drop i).headD [] = args.getD i [] := by
      rw [List.headD_eq_head?_getD, List.head?_drop, List.getD_eq_getElem?_getD]
    simp only [hd]
  · have h1 : (((args.length - i : Nat) : Int) ≤ 0) := by omega
    rw [if_pos h1, if_neg h]

/-- C21 (amended): a Decoder of type String returns the text delivered by upstream
unchanged with its length, whatever the quoting mode: the quoting mode is not read in the
output direction. -/
theorem outconv_get_string (be : Bool) (wide : Nat → Int) (conv : Conversion)
    (child : Int → Int × Chunk) (ht : conv.type = CType.TYPE_STRING)
    (hnum : 0 ≤ (child 1024).1) :
    outconv_get be wide conv child
      = Outcome.ret (child 1024).1 ((child 1024).2.map Char.ofNat) ∧
    outconv_get be wide conv child
      = outconv_get be wide { conv with quoting := Quoting.QUOTING_NONE } child := by
  have hn : ¬ (child 1024).1 < 0 := not_lt.mpr hnum
  simp [outconv_get, ht, hn]

/-- Witness of C21 (amended): the text abc under shell quoting. -/
theorem outconv_get_string_witness :
    outconv_get false (fun _ => 0)
        { conversion_create with type := CType.TYPE_STRING, quoting := Quoting.QUOTING_SHELL }
        (fun _ => (3, [97, 98, 99]))
      = Outcome.ret 3 "abc".toList :=
  (outconv_get_string false (fun _ => 0)
    { conversion_create with type := CType.TYPE_STRING, quoting := Quoting.QUOTING_SHELL }
    (fun _ => (3, [97, 98, 99])) rfl (by decide)).1

/-- Counterexample to C21: Decoders of type String with quoting ShellStyle and TclStyle
return the text delivered by upstream; they do not fail. -/
theorem outconv_get_string_quoted :
    outconv_get false (fun _ => 0)
        { conversion_create with type := CType.TYPE_STRING, quoting := Quoting.QUOTING_SHELL }
        (fun _ => (3, [97, 98, 99]))
      = Outcome.ret 3 "abc".toList ∧
    outconv_get false (fun _ => 0)
        { conversion_create with type := CType.TYPE_STRING, quoting := Quoting.QUOTING_TCL }
        (fun _ => (3, [97, 98, 99]))
      = Outcome.ret 3 "abc".toList := by
  decide

/-- The digit accumulation of strtol in base 10 stops at a character that is not a
decimal digit. -/
theorem scanDigits_stop (acc : Nat) (rest : List Char)
    (hr : rest.head?.all (fun c => !decide (isdigit c)) = true) :
    scanDigits 10 acc rest = acc := by
  cases rest with
  | nil => rfl
  | cons c cs =>
    simp only [List.head?_cons, Option.all_some, Bool.not_eq_true', decide_eq_false_iff_not]
      at hr
    unfold isdigit at hr
    unfold scanDigits digitVal
    split_ifs with h1 h2
    · have : ¬ (c.toNat - 87 < 10) := by omega
      simp only [this, if_false]
    · have : ¬ (c.toNat - 55 < 10) := by omega
      simp only [this, if_false]
    · rfl

theorem scanDigits_append (ds rest : List Char) (hd : ∀ c ∈ ds, isdigit c)
    (hr : rest.head?.all (fun c => !decide (isdigit c)) = true) (acc : Nat) :
    scanDigits 10 acc (ds ++ rest) = scanDigits 10 acc ds := by
  induction ds generalizing acc with
  | nil => simp only [List.nil_append, scanDigits_stop acc rest hr]; rfl
  | cons c cs ih =>
    have hc : isdigit c := hd c (List.mem_cons_self _ _)
    have hlt : c.toNat - 48 < 10 := by unfold isdigit at hc; omega
    simp only [List.cons_append, scanDigits, digitVal_of_isdigit c hc, hlt, if_true]
    exact ih (fun d hd2 => hd d (List.mem_cons_of_mem _ hd2)) _

/-- In base 10 the characters after the leading digits of a token are not read. -/
theorem lax_strtol_prefix (ds rest : List Char) (hne : ds ≠ []) (hd : ∀ c ∈ ds, isdigit c)
    (hr : rest.head?.all (fun c => !decide (isdigit c)) = true) :
    lax_strtol (ds ++ rest) 10 = lax_strtol ds 10 := by
  rw [lax_strtol_eq_laxOf, lax_strtol_eq_laxOf]
  cases ds with
  | nil => exact absurd rfl hne
  | cons c cs =>
    have hc : isdigit c := hd c (List.mem_cons_self _ _)
    have e : scanInteger (c :: cs ++ rest) 10 = scanInteger (c :: cs) 10 := by
      simp only [scanInteger, List.cons_append, dropWhile_isspace_of_isdigit c _ hc,
        scanSign_of_isdigit c _ hc, scanBase]
      simp only [show ¬ (10 = 0) by decide, show ¬ (10 = 16) by decide, if_false]
      rw [← List.cons_append, scanDigits_append (c :: cs) rest hd hr]
    rw [e]

/-- In base 10 a token that starts with neither white space, a sign nor a digit converts
to 0, as the empty token does. -/
theorem lax_strtol_no_digits (c : Char) (cs : List Char) (hsp : isspace c = false)
    (hm : c ≠ '-') (hp : c ≠ '+') (hdg : ¬ isdigit c) :
    lax_strtol (c :: cs) 10 = 0 := by
  rw [lax_strtol_eq_laxOf]
  have hdw : (c :: cs).dropWhile isspace = c :: cs := by
    simp [List.dropWhile, hsp]
  have hsg : scanSign (c :: cs) = (false, c :: cs) := by
    unfold scanSign
    split
    · rename_i t heq
      simp only [List.cons.injEq] at heq
      exact absurd heq.1 hm
    · rename_i t heq
      simp only [List.cons.injEq] at heq
      exact absurd heq.1 hp
    · rfl
  have e : scanInteger (c :: cs) 10 = (false, 0) := by
    simp only [scanInteger, hdw, hsg, scanBase]
    simp only [show ¬ (10 = 0) by decide, show ¬ (10 = 16) by decide, if_false]
    rw [scanDigits_stop 0 (c :: cs) (by simpa using hdg)]
  rw [e]
  decide

/-- For the integer family the bytes returned depend on the token only through the parsed
long value. -/
theorem inconv_get_int_congr (now : Tm) (mktime : Tm → Int) (be : Bool) (conv : Conversion)
    (child child2 : Int → Int × List Char) (hnum : 0 ≤ (child 1024).1)
    (hnum2 : 0 ≤ (child2 1024).1) (ht : IntFamily conv.type)
    (h : inconv_lval conv.style (child 1024).2 = inconv_lval conv.style (child2 1024).2) :
    inconv_get now mktime be conv child = inconv_get now mktime be conv child2 := by
  rw [inconv_get_int_eq now mktime be conv child hnum ht,
    inconv_get_int_eq now mktime be conv child2 hnum2 ht, h]

/-- C22 (amended): for every integer-family type of width w and every style, inconv_get
does not fail on a token delivered by upstream, whatever the token: it returns w bytes.
Under style Decimal the characters after the leading digits of a token are not read (the
token encodes as its leading digits do), and a token that is empty or starts with
neither white space, a sign nor a digit encodes as 0 does. -/
theorem inconv_get_lenient (now : Tm) (mktime : Tm → Int) (be : Bool) (conv : Conversion)
    (child : Int → Int × List Char) (hnum : 0 ≤ (child 1024).1) (ht : IntFamily conv.type) :
    (∃ bytes, inconv_get now mktime be conv child = Outcome.ret (intWidth conv.type) bytes ∧
      bytes.length = intWidth conv.type) ∧
    (∀ msg, inconv_get now mktime be conv child ≠ Outcome.exit msg) ∧
    (conv.style = Style.STYLE_DECIMAL →
      (∀ ds rest : List Char, ds ≠ [] → (∀ c ∈ ds, isdigit c) →
        rest.head?.all (fun c => !decide (isdigit c)) = true → (child 1024).2 = ds ++ rest →
        inconv_get now mktime be conv child
          = inconv_get now mktime be conv (fun _ => ((ds.length : Int), ds))) ∧
      ((child 1024).2.head?.all
          (fun c => !isspace c && c != '-' && c != '+' && !decide (isdigit c)) = true →
        inconv_get now mktime be conv child
          = inconv_get now mktime be conv (fun _ => (1, ['0'])))) := by
  have heq := inconv_get_int_eq now mktime be conv child hnum ht
  refine ⟨⟨_, heq, ?_⟩, ?_, ?_⟩
  · split_ifs <;> simp [toBytes_length]
  · intro msg
    rw [heq]
    exact fun h => Outcome.noConfusion h
  · intro hs
    constructor
    · intro ds rest hne hd hr htok
      apply inconv_get_int_congr now mktime be conv child _ hnum (by simp) ht
      simp only [hs, inconv_lval, htok]
      exact lax_strtol_prefix ds rest hne hd hr
    · intro hh
      apply inconv_get_int_congr now mktime be conv child _ hnum (by simp) ht
      simp only [hs, inconv_lval]
      have h0 : lax_strtol ['0'] 10 = 0 := by decide
      rw [h0]
      cases htok : (child 1024).2 with
      | nil => decide
      | cons c cs =>
        rw [htok] at hh
        simp only [List.head?_cons, Option.all_some, Bool.and_eq_true, Bool.not_eq_true',
          bne_iff_ne, ne_eq, decide_eq_false_iff_not] at hh
        exact lax_strtol_no_digits c cs hh.1.1.1 hh.1.1.2 hh.1.2 hh.2

/-- Witness of C22 (amended): the token 12x under Int and Decimal gives the four bytes
that the token 12 gives. -/
theorem inconv_get_lenient_witness :
    inconv_get tm_example mktime_utc false
        { conversion_create with style := Style.STYLE_DECIMAL } (fun _ => (3, "12x".toList))
      = inconv_get tm_example mktime_utc false
        { conversion_create with style := Style.STYLE_DECIMAL } (fun _ => (2, "12".toList)) :=
  ((inconv_get_lenient tm_example mktime_utc false
      { conversion_create with style := Style.STYLE_DECIMAL } (fun _ => (3, "12x".toList))
      (by decide) (by decide)).2.2 rfl).1 "12".toList "x".toList (by decide) (by decide)
    (by decide) (by decide)

/-- Counterexample to C22: under Int and Decimal the tokens abc, 12x and the empty token
do not make inconv_get fail; they encode 0, 12 and 0. The token 9 under Octal and the
token xyz under Hex encode 0. -/
theorem inconv_get_not_numeral :
    inconv_get tm_example mktime_utc false
        { conversion_create with style := Style.STYLE_DECIMAL } (fun _ => (3, "abc".toList))
      = Outcome.ret 4 [0, 0, 0, 0] ∧
    inconv_get tm_example mktime_utc false
        { conversion_create with style := Style.STYLE_DECIMAL } (fun _ => (3, "12x".toList))
      = Outcome.ret 4 [12, 0, 0, 0] ∧
    inconv_get tm_example mktime_utc false
        { conversion_create with style := Style.STYLE_DECIMAL } (fun _ => (0, []))
      = Outcome.ret 4 [0, 0, 0, 0] ∧
    inconv_get tm_example mktime_utc false
        { conversion_create with style := Style.STYLE_OCTAL } (fun _ => (1, "9".toList))
      = Outcome.ret 4 [0, 0, 0, 0] ∧
    inconv_get tm_example mktime_utc false
        { conversion_create with style := Style.STYLE_HEX } (fun _ => (3, "xyz".toList))
      = Outcome.ret 4 [0, 0, 0, 0] := by
  decide

/-- Number of calls the refill loop makes to the child. -/
theorem reducer_while_pulls (cl : List Chunk) :
    ∀ (last : Chunk) (size offset : Int) (pulls : Nat),
    (reducer_while last size offset pulls cl).2.pulls
      = pulls + (if offset ≥ size ∧ size ≠ -1 then leading_empty cl + 1 else 0) := by
  induction cl with
  | nil =>
    intro last size offset pulls
    unfold reducer_while
    by_cases h1 : offset ≥ size
    · by_cases h2 : size = -1
      · rw [if_pos h1, if_pos h2, if_neg (fun h => h.2 h2)]
        rfl
      · rw [if_pos h1, if_neg h2, if_pos ⟨h1, h2⟩]
        rfl
    · rw [if_neg h1, if_neg (fun h => h1 h.1)]
      rfl
  | cons c rest ih =>
    intro last size offset pulls
    unfold reducer_while
    by_cases h1 : offset ≥ size
    · by_cases h2 : size = -1
      · rw [if_pos h1, if_pos h2, if_neg (fun h => h.2 h2)]
        rfl
      · have hi := ih c (c.length : Int) 0 (pulls + 1)
        rw [if_pos h1, if_neg h2, if_pos ⟨h1, h2⟩, hi]
        have hc : ¬ ((c.length : Int) = -1) := by omega
        by_cases h0 : c.length = 0
        · have hz : (0 : Int) ≥ (c.length : Int) := by omega
          rw [if_pos ⟨hz, hc⟩]
          simp only [leading_empty, h0, if_true]
          omega
        · have hz : ¬ ((0 : Int) ≥ (c.length : Int)) := by omega
          rw [if_neg (fun h => hz h.1)]
          simp only [leading_empty, h0, if_false]
    · rw [if_neg h1, if_neg (fun h => h1 h.1)]
      rfl

theorem reducer_fill_pulls (r : Reducer) (size : Int) :
    (reducer_get r size).2.pulls = (reducer_fill r).2.pulls := by
  unfold reducer_get
  simp only
  split_ifs <;> rfl

theorem leading_empty_of_nonempty (cl : List Chunk) (h : ∀ c ∈ cl, c ≠ []) :
    leading_empty cl = 0 := by
  cases cl with
  | nil => rfl
  | cons c rest =>
    have hc : c ≠ [] := h c (List.mem_cons_self _ _)
    have : ¬ (c.length = 0) := fun h0 => hc (List.length_eq_zero.mp h0)
    simp [leading_empty, this]

/-- C26 (amended): a call of reducer_get makes no upstream pull when unread buffered bytes
remain or end of stream has been stored; otherwise it pulls once for each zero-length
chunk the upstream delivers next and once more, for the first non-empty chunk or the end
of stream. It makes at most one pull when the upstream has no zero-length chunk. -/
theorem reducer_get_pulls (r : Reducer) (size : Int) :
    (reducer_get r size).2.pulls
      = r.pulls + (if r.refills then leading_empty r.closure + 1 else 0) ∧
    ((∀ c ∈ r.closure, c ≠ []) → (reducer_get r size).2.pulls ≤ r.pulls + 1) := by
  have h : (reducer_get r size).2.pulls
      = r.pulls + (if r.refills then leading_empty r.closure + 1 else 0) := by
    rw [reducer_fill_pulls, reducer_fill, reducer_while_pulls]
    congr 1
    by_cases h1 : r.offset ≥ r.size <;> by_cases h2 : r.size = -1 <;>
      simp [Reducer.refills, h1, h2]
  refine ⟨h, fun hne => ?_⟩
  rw [h, leading_empty_of_nonempty r.closure hne]
  split_ifs <;> omega

/-- Witness of C26 (amended): the first call over the upstream [[1,2,3]] pulls once, the
second call not at all. -/
theorem reducer_get_pulls_witness :
    (reducer_get (reducer_create [[1, 2, 3]]) 2).2.pulls ≤ 0 + 1 ∧
    (reducer_get (reducer_get (reducer_create [[1, 2, 3]]) 2).2 2).2.pulls = 1 :=
  ⟨(reducer_get_pulls (reducer_create [[1, 2, 3]]) 2).2 (by decide), by decide⟩

/-- Counterexample to C26: over an upstream that delivers two zero-length chunks and then
the chunk [4], the first call of reducer_get pulls three times. -/
theorem reducer_get_three_pulls :
    (reducer_create [[], [], [4]]).pulls = 0 ∧
    (reducer_get (reducer_create [[], [], [4]]) 2).2.pulls = 3 ∧
    (reducer_get (reducer_create [[], [], [4]]) 2).1 = (1, [4]) := by
  decide

/-- When the refill loop leaves through `return -1`, end of stream is stored. -/
theorem reducer_while_true (cl : List Chunk) :
    ∀ (last : Chunk) (size offset : Int) (pulls : Nat),
    (reducer_while last size offset pulls cl).1 = true →
      (reducer_while last size offset pulls cl).2.size = -1 ∧
      -1 ≤ (reducer_while last size offset pulls cl).2.offset := by
  induction cl with
  | nil =>
    intro last size offset pulls
    unfold reducer_while
    by_cases h1 : offset ≥ size
    · by_cases h2 : size = -1
      · rw [if_pos h1, if_pos h2]
        intro _
        exact ⟨h2, by simp only; omega⟩
      · rw [if_pos h1, if_neg h2]
        intro _
        exact ⟨rfl, by simp⟩
    · rw [if_neg h1]
      intro h; simp at h
  | cons c rest ih =>
    intro last size offset pulls
    unfold reducer_while
    by_cases h1 : offset ≥ size
    · by_cases h2 : size = -1
      · rw [if_pos h1, if_pos h2]
        intro _
        exact ⟨h2, by simp only; omega⟩
      · rw [if_pos h1, if_neg h2]
        exact ih c _ 0 (pulls + 1)
    · rw [if_neg h1]
      intro h; simp at h

/-- When the refill loop leaves through its test, unread bytes are buffered. -/
theorem reducer_while_false (cl : List Chunk) :
    ∀ (last : Chunk) (size offset : Int) (pulls : Nat),
    (reducer_while last size offset pulls cl).1 = false →
      (reducer_while last size offset pulls cl).2.offset
        < (reducer_while last size offset pulls cl).2.size := by
  induction cl with
  | nil =>
    intro last size offset pulls
    unfold reducer_while
    by_cases h1 : offset ≥ size
    · by_cases h2 : size = -1
      · rw [if_pos h1, if_pos h2]; intro h; simp at h
      · rw [if_pos h1, if_neg h2]; intro h; simp at h
    · rw [if_neg h1]
      intro _
      simp only; omega
  | cons c rest ih =>
    intro last size offset pulls
    unfold reducer_while
    by_cases h1 : offset ≥ size
    · by_cases h2 : size = -1
      · rw [if_pos h1, if_pos h2]; intro h; simp at h
      · rw [if_pos h1, if_neg h2]
        exact ih c _ 0 (pulls + 1)
    · rw [if_neg h1]
      intro _
      simp only; omega

/-- In a state where end of stream is stored the refill loop returns -1 at once and
leaves the state as it is. -/
theorem reducer_fill_stored (r : Reducer) (h1 : r.size = -1) (h2 : -1 ≤ r.offset) :
    reducer_fill r = (true, r) := by
  obtain ⟨cl, last, size, offset, pulls⟩ := r
  simp only at h1 h2
  have hge : offset ≥ size := by omega
  unfold reducer_fill
  cases cl with
  | nil => simp only [reducer_while]; rw [if_pos hge, if_pos h1]
  | cons c rest => simp only [reducer_while]; rw [if_pos hge, if_pos h1]

/-- A negative answer of reducer_get to a non-negative request comes from the refill loop. -/
theorem reducer_get_neg (r : Reducer) (s : Int) (hs : 0 ≤ s) (h : (reducer_get r s).1.1 < 0) :
    (reducer_fill r).1 = true := by
  cases hb : (reducer_fill r).1
  · exfalso
    have hlt := reducer_while_false r.closure r.last r.size r.offset r.pulls hb
    rw [reducer_get_ok r s hb] at h
    simp only at h
    change (reducer_fill r).2.offset < (reducer_fill r).2.size at hlt
    rcases min_choice ((reducer_fill r).2.size - (reducer_fill r).2.offset) s with e | e <;>
      rw [e] at h <;> omega
  · rfl

/-- After a negative answer to a non-negative request, reducer_get answers -1 to every
request and leaves its state, the count of upstream pulls included, as it is. -/
theorem reducer_get_stuck (r : Reducer) (s : Int) (hs : 0 ≤ s) (h : (reducer_get r s).1.1 < 0)
    (s2 : Int) :
    reducer_get (reducer_get r s).2 s2 = ((-1, []), (reducer_get r s).2) := by
  have hb := reducer_get_neg r s hs h
  have ht := reducer_while_true r.closure r.last r.size r.offset r.pulls hb
  change (reducer_fill r).2.size = -1 ∧ -1 ≤ (reducer_fill r).2.offset at ht
  rw [reducer_get_eos r s hb]
  simp only
  have hf := reducer_fill_stored (reducer_fill r).2 ht.1 ht.2
  rw [reducer_get_eos _ s2 (by rw [hf]), hf]

/-- When the fill loop records an end of stream, the closure it leaves is the one left by
the call of the child that answered with a negative number. -/
theorem expander_while_ended {σ : Type} (child : Producer σ) (Q : σ → Prop) (size : Int)
    (hQ : ∀ (cl : σ) (k : Int), 1 ≤ k → (child cl k).1.1 < 0 → Q (child cl k).2)
    (fuel : Nat) : ∀ st fin : ExpanderLoop σ, expander_while child size fuel st = some fin →
      st.ended = false → fin.ended = true → Q fin.closure := by
  induction fuel with
  | zero =>
    intro st fin h he hf
    unfold expander_while at h
    split_ifs at h
    simp only [Option.some.injEq] at h
    rw [← h, he] at hf
    exact absurd hf (by simp)
  | succ fuel ih =>
    intro st fin h he hf
    unfold expander_while at h
    by_cases hd : st.done < size
    · rw [if_pos hd] at h
      simp only at h
      by_cases hneg : (child st.closure (size - st.done)).1.1 < 0
      · rw [if_pos hneg, expander_while_done child size fuel _ (by simp)] at h
        simp only [Option.some.injEq] at h
        rw [← h]
        exact hQ st.closure (size - st.done) (by omega) hneg
      · rw [if_neg hneg] at h
        exact ih _ fin h he hf
    · rw [if_neg hd] at h
      simp only [Option.some.injEq] at h
      rw [← h, he] at hf
      exact absurd hf (by simp)

/-- The closure left by a call of expander_get that returned a frame after the child
signalled end of stream. -/
theorem expander_get_ended {σ : Type} (child : Producer σ) (Q : σ → Prop)
    (hQ : ∀ (cl : σ) (k : Int), 1 ≤ k → (child cl k).1.1 < 0 → Q (child cl k).2)
    (junk fuel : Nat) (e : Expander) (cl : σ) (size : Int) (res : ExpanderResult σ)
    (h : expander_get child junk fuel e cl size = some res) (hnum : 0 ≤ res.num)
    (hend : res.ended = true) : Q res.closure := by
  unfold expander_get at h
  simp only at h
  by_cases h1 : (child cl size).1.1 < 0
  · rw [if_pos h1] at h
    simp only [Option.some.injEq] at h
    rw [← h] at hnum
    simp at hnum
  · rw [if_neg h1] at h
    by_cases h2 : (child cl size).1.1 < size
    · rw [if_pos h2] at h
      split at h
      · exact absurd h (by simp)
      · rename_i fin hfin
        simp only [Option.some.injEq] at h
        rw [← h] at hend ⊢
        exact expander_while_ended child Q size hQ fuel _ fin hfin rfl hend
    · rw [if_neg h2] at h
      simp only [Option.some.injEq] at h
      rw [← h] at hend
      simp at hend

/-- C28: after a call of reducer_get has signalled end of stream (for a non-negative
requested size), every later call, whatever size it requests, signals end of stream and
leaves the state, the count of upstream pulls included, as it is; hence, over reducer_get,
the call of expander_get that follows one that returned a frame padded after end of
stream signals end of stream, having pulled nothing. -/
theorem reducer_eos_sticky (r : Reducer) (s : Int) (hs : 0 ≤ s)
    (h : (reducer_get r s).1.1 = -1) :
    (∀ s2 : Int, reducer_get (reducer_get r s).2 s2 = ((-1, []), (reducer_get r s).2)) ∧
    (∀ sizes : List Int,
      sizes.foldl (fun st k => (reducer_get st k).2) (reducer_get r s).2 = (reducer_get r s).2 ∧
      (sizes.foldl (fun st k => (reducer_get st k).2) (reducer_get r s).2).pulls
        = (reducer_get r s).2.pulls) ∧
    (∀ (junk fuel : Nat) (e : Expander) (cl : Reducer) (size : Int)
      (res : ExpanderResult Reducer), 1 ≤ size →
      expander_get reducer_get junk fuel e cl size = some res → 0 ≤ res.num →
      res.ended = true →
      ∀ (fuel2 : Nat) (size2 : Int), ∃ res2,
        expander_get reducer_get junk fuel2 res.self res.closure size2 = some res2 ∧
        res2.num = -1 ∧ res2.pulled = [] ∧ res2.closure = res.closure) := by
  have hstuck := reducer_get_stuck r s hs (by omega)
  have hfold : ∀ sizes : List Int,
      sizes.foldl (fun st k => (reducer_get st k).2) (reducer_get r s).2
        = (reducer_get r s).2 := by
    intro sizes
    induction sizes with
    | nil => rfl
    | cons k ks ih => rw [List.foldl_cons, hstuck k]; exact ih
  refine ⟨hstuck, fun sizes => ⟨hfold sizes, by rw [hfold sizes]⟩, ?_⟩
  intro junk fuel e cl size res _ hres hnum hend fuel2 size2
  have hq := expander_get_ended reducer_get
    (fun c => ∀ s2 : Int, reducer_get c s2 = ((-1, []), c))
    (fun c k hk hneg => reducer_get_stuck c k (by omega) hneg)
    junk fuel e cl size res hres hnum hend
  simp only at hq
  have hx : expander_get reducer_get junk fuel2 res.self res.closure size2
      = some { num := -1, data := [], self := res.self, closure := res.closure,
               pulled := [], ended := true } := by
    unfold expander_get
    simp only [hq size2]
    rw [if_pos (by decide)]
  exact ⟨_, hx, rfl, rfl, rfl⟩

/-- Witness of C28: the upstream [[7,8,9]] read through a Reducer, three bytes at a time;
the second call signals end of stream, and so does a later call that requests 5 bytes,
without a further pull. -/
theorem reducer_eos_sticky_witness :
    (reducer_get (reducer_get (reducer_create [[7, 8, 9]]) 3).2 3).1.1 = -1 ∧
    reducer_get (reducer_get (reducer_get (reducer_create [[7, 8, 9]]) 3).2 3).2 5
      = ((-1, []), (reducer_get (reducer_get (reducer_create [[7, 8, 9]]) 3).2 3).2) ∧
    (reducer_get (reducer_get (reducer_get (reducer_create [[7, 8, 9]]) 3).2 3).2 5).2.pulls
      = 2 :=
  ⟨by decide,
   (reducer_eos_sticky (reducer_get (reducer_create [[7, 8, 9]]) 3).2 3 (by decide)
      (by decide)).1 5,
   by decide⟩

/-- The Expander over a Reducer over the upstream [[7,8,9]], four bytes at a time: the
first call returns the frame 7, 8, 9, 0 and the second call signals end of stream. -/
theorem expander_after_padding :
    (expander_get reducer_get 0 4 (expander_create 0) (reducer_create [[7, 8, 9]]) 4).map
        (fun res => (res.num, res.data, res.ended)) = some (4, [7, 8, 9, 0], true) ∧
    ((expander_get reducer_get 0 4 (expander_create 0) (reducer_create [[7, 8, 9]]) 4).bind
        (fun res => expander_get reducer_get 0 4 res.self res.closure 4)).map
        (fun res => (res.num, res.pulled)) = some (-1, []) := by
  decide

/-- The long value that outconv_get reads from the stored bytes of x, for the integer
family: x itself, or x read as a signed number of the type's width when the sign flag is
clear under Default or Decimal; type Long is always read as signed. -/
theorem outconv_get_int_stored (be : Bool) (wide : Nat → Int) (conv : Conversion) (x : Nat)
    (ht : IntFamily conv.type) (hx : x < 2 ^ (8 * intWidth conv.type)) :
    outconv_get be wide conv (fun _ => ((intWidth conv.type : Int),
        if conv.byteswap then (toBytes be (intWidth conv.type) x).reverse
        else toBytes be (intWidth conv.type) x))
      = Outcome.ret
          (outconv_text wide conv (intWidth conv.type)
            (if conv.type = CType.TYPE_LONG ∨ signedRead conv = true
             then toSigned (intWidth conv.type) x else (x : Int))).length
          (outconv_text wide conv (intWidth conv.type)
            (if conv.type = CType.TYPE_LONG ∨ signedRead conv = true
             then toSigned (intWidth conv.type) x else (x : Int))) := by
  have htake : ∀ (w : Nat) (sw : Bool),
      (if sw then (toBytes be w x).reverse else toBytes be w x).take w
        = if sw then (toBytes be w x).reverse else toBytes be w x := by
    intro w sw
    apply List.take_of_length_le
    split_ifs <;> simp [toBytes_length]
  rcases ht with h | h | h | h
  · rw [h] at hx
    simp only [intWidth] at hx
    have hm : x % 2 ^ 8 = x := Nat.mod_eq_of_lt (by simpa using hx)
    have hr := read_back8 be conv.byteswap x (by simpa using hx)
    simp only [outconv_get, h, intWidth, sizeof_char, htake 1 conv.byteswap, hr, hm]
    have hn : ¬ ((1 : Int) < 0) := by decide
    simp only [Nat.cast_one, hn, if_false, reduceCtorEq, false_or]
  · rw [h] at hx
    simp only [intWidth] at hx
    have hm : x % 2 ^ 16 = x := Nat.mod_eq_of_lt (by simpa using hx)
    have hr := read_back16 be conv.byteswap x (by simpa using hx)
    simp only [outconv_get, h, intWidth, sizeof_short, htake 2 conv.byteswap, hr, hm]
    have hn : ¬ ((2 : Int) < 0) := by decide
    simp only [Nat.cast_ofNat, hn, if_false, reduceCtorEq, false_or]
  · rw [h] at hx
    simp only [intWidth] at hx
    have hm : x % 2 ^ 32 = x := Nat.mod_eq_of_lt (by simpa using hx)
    have hr := read_back32 be conv.byteswap x (by simpa using hx)
    simp only [outconv_get, h, intWidth, sizeof_int, htake 4 conv.byteswap, hr, hm]
    have hn : ¬ ((4 : Int) < 0) := by decide
    simp only [Nat.cast_ofNat, hn, if_false, reduceCtorEq, false_or]
  · rw [h] at hx
    simp only [intWidth] at hx
    have hr := read_back64 be conv.byteswap x (by simpa using hx)
    simp only [outconv_get, h, intWidth, sizeof_long, htake 8 conv.byteswap, if_true]
    have hn : ¬ ((8 : Int) < 0) := by decide
    simp only [Nat.cast_ofNat, hn, if_false, true_or, if_true]
    rw [hr]

theorem digitsOf_stored (base x : Nat) (hx : x < 2 ^ 64) (lval : Int)
    (hl : lval = toSigned 8 x ∨ lval = (x : Int)) :
    digitsOf base (toUnsigned 8 lval) = Nat.toDigits base x := by
  unfold digitsOf
  congr 1
  rcases hl with hl | hl
  · rw [hl, toUnsigned8_toSigned8 x hx]
  · rw [hl]
    have := toUnsigned8_eq (x : Int)
    omega

theorem signedRead_flip (conv : Conversion)
    (hs : conv.style = Style.STYLE_HEX ∨ conv.style = Style.STYLE_OCTAL ∨
      conv.style = Style.STYLE_BINARY) (u : Bool) :
    signedRead { conv with unsignedp := u } = false := by
  unfold signedRead
  rcases hs with h | h | h <;> simp [h]

/-- C25: for every integer-family type of width w, either sign flag, either byteswap
flag and every stored w-byte value x, outconv_get with style Hex prints the digits of x
in base 16 and with style Octal the digits of x in base 8, x being read as an unsigned
number of 8w bits (printf digits: lowercase, no prefix, no leading zero); with style Hex,
Octal or Binary the output does not depend on the sign flag, whatever the upstream
delivers. Int 10 prints as a and Int -1 as ffffffff under either sign flag, while under
Decimal Int -1 prints as -1 with the sign flag clear and as 4294967295 with it set. -/
theorem outconv_get_hex_octal (be : Bool) (wide : Nat → Int) (conv : Conversion) (x : Nat)
    (ht : IntFamily conv.type) (hx : x < 2 ^ (8 * intWidth conv.type)) :
    (conv.style = Style.STYLE_HEX →
      outconv_get be wide conv (fun _ => ((intWidth conv.type : Int),
          if conv.byteswap then (toBytes be (intWidth conv.type) x).reverse
          else toBytes be (intWidth conv.type) x))
        = Outcome.ret (Nat.toDigits 16 x).length (Nat.toDigits 16 x)) ∧
    (conv.style = Style.STYLE_OCTAL →
      outconv_get be wide conv (fun _ => ((intWidth conv.type : Int),
          if conv.byteswap then (toBytes be (intWidth conv.type) x).reverse
          else toBytes be (intWidth conv.type) x))
        = Outcome.ret (Nat.toDigits 8 x).length (Nat.toDigits 8 x)) ∧
    (conv.style = Style.STYLE_HEX ∨ conv.style = Style.STYLE_OCTAL ∨
        conv.style = Style.STYLE_BINARY →
      ∀ (u : Bool) (child : Int → Int × Chunk),
        outconv_get be wide { conv with unsignedp := u } child
          = outconv_get be wide conv child) ∧
    (∀ u : Bool,
      outconv_get be wide
          { conversion_create with style := Style.STYLE_HEX, unsignedp := u }
          (fun _ => (4, toBytes be 4 10)) = Outcome.ret 1 "a".toList ∧
      outconv_get be wide
          { conversion_create with style := Style.STYLE_HEX, unsignedp := u }
          (fun _ => (4, toBytes be 4 (toUnsigned 4 (-1)))) = Outcome.ret 8 "ffffffff".toList) ∧
    (outconv_get be wide
          { conversion_create with style := Style.STYLE_DECIMAL, unsignedp := false }
          (fun _ => (4, toBytes be 4 (toUnsigned 4 (-1)))) = Outcome.ret 2 "-1".toList ∧
      outconv_get be wide
          { conversion_create with style := Style.STYLE_DECIMAL, unsignedp := true }
          (fun _ => (4, toBytes be 4 (toUnsigned 4 (-1))))
        = Outcome.ret 10 "4294967295".toList) := by
  have hx64 : x < 2 ^ 64 := by
    rcases ht with h | h | h | h <;> rw [h] at hx <;> simp only [intWidth] at hx <;>
      norm_num at hx ⊢ <;> omega
  have hst := outconv_get_int_stored be wide conv x ht hx
  refine ⟨fun hs => ?_, fun hs => ?_, fun hs u child => ?_, fun u => ?_, ?_⟩
  · rw [hst]
    have e : outconv_text wide conv (intWidth conv.type)
        (if conv.type = CType.TYPE_LONG ∨ signedRead conv = true
          then toSigned (intWidth conv.type) x else (x : Int)) = Nat.toDigits 16 x := by
      simp only [outconv_text, hs, sprintf_lx]
      apply digitsOf_stored 16 x hx64
      have hsr : signedRead conv = false := by simp [signedRead, hs]
      by_cases hl : conv.type = CType.TYPE_LONG
      · left; simp [hl, intWidth]
      · right; simp [hl, hsr]
    rw [e]
  · rw [hst]
    have e : outconv_text wide conv (intWidth conv.type)
        (if conv.type = CType.TYPE_LONG ∨ signedRead conv = true
          then toSigned (intWidth conv.type) x else (x : Int)) = Nat.toDigits 8 x := by
      simp only [outconv_text, hs, sprintf_lo]
      apply digitsOf_stored 8 x hx64
      have hsr : signedRead conv = false := by simp [signedRead, hs]
      by_cases hl : conv.type = CType.TYPE_LONG
      · left; simp [hl, intWidth]
      · right; simp [hl, hsr]
    rw [e]
  · have h1 := signedRead_flip conv hs u
    have h2 := signedRead_flip conv hs conv.unsignedp
    have h3 : ({ conv with unsignedp := conv.unsignedp } : Conversion) = conv := rfl
    rw [h3] at h2
    have ht2 : ∀ size lval, outconv_text wide { conv with unsignedp := u } size lval
        = outconv_text wide conv size lval := by
      intro size lval
      unfold outconv_text
      rcases hs with h | h | h <;> simp [h]
    unfold outconv_get
    simp only [h1, h2, ht2]
  · have hw : ∀ v : Nat, outconv_get be wide
          { conversion_create with style := Style.STYLE_HEX, unsignedp := u }
          (fun _ => (4, toBytes be 4 v))
        = outconv_get be (fun _ => 0)
          { conversion_create with style := Style.STYLE_HEX, unsignedp := u }
          (fun _ => (4, toBytes be 4 v)) := by
      intro v
      simp only [outconv_get, conversion_create, outconv_text]
    rw [hw, hw]
    cases be <;> cases u <;> decide
  · have hw : ∀ u : Bool, outconv_get be wide
          { conversion_create with style := Style.STYLE_DECIMAL, unsignedp := u }
          (fun _ => (4, toBytes be 4 (toUnsigned 4 (-1))))
        = outconv_get be (fun _ => 0)
          { conversion_create with style := Style.STYLE_DECIMAL, unsignedp := u }
          (fun _ => (4, toBytes be 4 (toUnsigned 4 (-1)))) := by
      intro u
      simp only [outconv_get, conversion_create, outconv_text]
    rw [hw, hw]
    cases be <;> decide

/-- Witness of C25: the Int value 255 under Hex prints as ff, and the Short value 8
stored with its bytes swapped prints as 10 under Octal. -/
theorem outconv_get_hex_octal_witness :
    outconv_get false (fun _ => 0) { conversion_create with style := Style.STYLE_HEX }
        (fun _ => (4, [255, 0, 0, 0]))
      = Outcome.ret 2 "ff".toList ∧
    outconv_get false (fun _ => 0)
        { conversion_create with
          type := CType.TYPE_SHORT, style := Style.STYLE_OCTAL, byteswap := true }
        (fun _ => (2, [0, 8]))
      = Outcome.ret 2 "10".toList :=
  ⟨(outconv_get_hex_octal false (fun _ => 0)
      { conversion_create with style := Style.STYLE_HEX } 255 (by decide) (by decide)).1 rfl,
   (outconv_get_hex_octal false (fun _ => 0)
      { conversion_create with
        type := CType.TYPE_SHORT, style := Style.STYLE_OCTAL, byteswap := true }
      8 (by decide) (by decide)).2.1 rfl⟩

theorem toDigits_length_le (b n e : Nat) (hb : 2 ≤ b) (hlt : n < b ^ e) (he : 0 < e) :
    (Nat.toDigits b n).length ≤ e :=
  Nat.toDigitsCore_length b hb (n + 1) n e hlt he

theorem toSigned_range (w : Nat) (hw : w = 1 ∨ w = 2 ∨ w = 4 ∨ w = 8) (x : Nat) :
    -(2 : Int) ^ 63 ≤ toSigned w x ∧ toSigned w x < 2 ^ 63 := by
  unfold toSigned
  rcases hw with rfl | rfl | rfl | rfl <;> norm_num <;> split_ifs <;> omega

/-- Length of the text that the style switch of outconv_get writes, for a long value and
a size of at most 4 bytes under style Binary: with its terminating NUL the text fits the
buffer of struct Outconv. -/
theorem outconv_text_fits (wide : Nat → Int) (conv : Conversion) (size : Nat) (lval : Int)
    (hl : -(2 : Int) ^ 63 ≤ lval) (hu : lval < 2 ^ 63)
    (hb : conv.style = Style.STYLE_BINARY → size ≤ 4) :
    (outconv_text wide conv size lval).length + 1 ≤ sizeof_buffer := by
  have h64 := toUnsigned_lt 8 lval
  have hlu : (sprintf_lu lval).length ≤ 20 :=
    toDigits_length_le 10 _ 20 (by norm_num) (by norm_num at h64 ⊢; omega) (by norm_num)
  have hld : (sprintf_ld lval).length ≤ 20 := by
    unfold sprintf_ld digitsOf
    split_ifs
    · have := toDigits_length_le 10 lval.natAbs 19 (by norm_num) (by norm_num; omega)
        (by norm_num)
      simp only [List.length_cons]
      omega
    · have := toDigits_length_le 10 lval.toNat 19 (by norm_num) (by norm_num; omega)
        (by norm_num)
      omega
  unfold outconv_text sizeof_buffer
  cases hs : conv.style
  · simp only
    split_ifs <;> omega
  · have := hb hs
    simp only [binary_text, List.length_map, List.length_range]
    omega
  · have := toDigits_length_le 8 (toUnsigned 8 lval) 22 (by norm_num)
      (by norm_num at h64 ⊢; omega) (by norm_num)
    simp only [sprintf_lo, digitsOf]
    omega
  · simp only
    split_ifs <;> omega
  · have := toDigits_length_le 16 (toUnsigned 8 lval) 16 (by norm_num)
      (by norm_num at h64 ⊢; omega) (by norm_num)
    simp only [sprintf_lx, digitsOf]
    omega

/-- Apart from type Long in style Binary, the text outconv_get writes for an
integer-family type fits the buffer of struct Outconv with its terminating NUL. -/
theorem outconv_get_fits (be : Bool) (wide : Nat → Int) (conv : Conversion)
    (child : Int → Int × Chunk) (ht : IntFamily conv.type)
    (hnb : ¬ (conv.type = CType.TYPE_LONG ∧ conv.style = Style.STYLE_BINARY)) :
    outconv_get be wide conv child = Outcome.ret (-1) [] ∨
    ∃ text, outconv_get be wide conv child = Outcome.ret text.length text ∧
      text.length + 1 ≤ sizeof_buffer := by
  rcases ht with h | h | h | h
  · by_cases hn : (child sizeof_char).1 < 0
    · left; simp [outconv_get, h, hn]
    · right
      simp only [outconv_get, h, hn, if_false]
      refine ⟨_, rfl, outconv_text_fits wide conv _ _ ?_ ?_ (fun _ => by decide)⟩
      · split_ifs
        · exact (toSigned_range 1 (by simp) _).1
        · omega
      · split_ifs
        · exact (toSigned_range 1 (by simp) _).2
        · omega
  · by_cases hn : (child sizeof_short).1 < 0
    · left; simp [outconv_get, h, hn]
    · right
      simp only [outconv_get, h, hn, if_false]
      refine ⟨_, rfl, outconv_text_fits wide conv _ _ ?_ ?_ (fun _ => by decide)⟩
      · split_ifs
        · exact (toSigned_range 2 (by simp) _).1
        · exact (toSigned_range 2 (by simp) _).1
        · omega
        · omega
      · split_ifs
        · exact (toSigned_range 2 (by simp) _).2
        · exact (toSigned_range 2 (by simp) _).2
        · omega
        · omega
  · by_cases hn : (child sizeof_int).1 < 0
    · left; simp [outconv_get, h, hn]
    · right
      simp only [outconv_get, h, hn, if_false]
      refine ⟨_, rfl, outconv_text_fits wide conv _ _ ?_ ?_ (fun _ => by decide)⟩
      · split_ifs
        · exact (toSigned_range 4 (by simp) _).1
        · exact (toSigned_range 4 (by simp) _).1
        · omega
        · omega
      · split_ifs
        · exact (toSigned_range 4 (by simp) _).2
        · exact (toSigned_range 4 (by simp) _).2
        · omega
        · omega
  · by_cases hn : (child sizeof_long).1 < 0
    · left; simp [outconv_get, h, hn]
    · right
      simp only [outconv_get, h, hn, if_false]
      refine ⟨_, rfl, outconv_text_fits wide conv _ _ (toSigned_range 8 (by simp) _).1
        (toSigned_range 8 (by simp) _).2 (fun hs => absurd ⟨h, hs⟩ hnb)⟩

/-- C27 at the failing input: for type Long in style Binary, whatever the sign flag, the
byteswap flag and the stored value, outconv_get writes 64 digits and a terminating NUL,
65 bytes, into the buffer of 40 bytes. -/
theorem outconv_get_long_binary_overflow (be : Bool) (wide : Nat → Int) (u sw : Bool)
    (x : Nat) :
    ∃ text : List Char,
      outconv_get be wide
          { type := CType.TYPE_LONG, style := Style.STYLE_BINARY,
            quoting := Quoting.QUOTING_NONE, unsignedp := u, byteswap := sw }
          (fun _ => (8, toBytes be 8 x))
        = Outcome.ret 64 text ∧
      text.length = 64 ∧ sizeof_buffer = 40 ∧ sizeof_buffer < text.length + 1 := by
  have key : ∀ lval : Int, ∃ text : List Char,
      (Outcome.ret ((binary_text wide (8 * 8) lval).length : Int)
          (binary_text wide (8 * 8) lval) : Outcome Char) = Outcome.ret 64 text ∧
      text.length = 64 ∧ sizeof_buffer = 40 ∧ sizeof_buffer < text.length + 1 := by
    intro lval
    have hlen : (binary_text wide (8 * 8) lval).length = 64 := by simp [binary_text]
    exact ⟨binary_text wide (8 * 8) lval, by rw [hlen]; rfl, hlen, rfl, by
      rw [hlen]; decide⟩
  simp only [outconv_get, outconv_text, sizeof_long]
  rw [if_neg (by decide)]
  exact key _

/-- What one call of reducer_get in a state satisfying the invariant does to the bytes
still to deliver: a negative answer leaves none, another answer delivers a non-empty
prefix of at most k of them. -/
theorem reducer_get_delivers (r : Reducer) (k : Int) (hI : r.Inv) (hk : 1 ≤ k) :
    (reducer_get r k).2.Inv ∧
    ((reducer_get r k).1.1 < 0 → r.rest = [] ∧ (reducer_get r k).2.rest = []) ∧
    (¬ (reducer_get r k).1.1 < 0 →
      1 ≤ (reducer_get r k).1.1 ∧ (reducer_get r k).1.1 ≤ k ∧
      ((reducer_get r k).1.2.length : Int) = (reducer_get r k).1.1 ∧
      r.rest = (reducer_get r k).1.2 ++ (reducer_get r k).2.rest) := by
  have hf := reducer_fill_spec r hI
  refine ⟨reducer_get_inv r hI k (by omega), ?_, ?_⟩
  · intro hneg
    have hb := reducer_get_neg r k (by omega) hneg
    have hsz := (hf.1 hb).1
    have hr : (reducer_fill r).2.rest = [] := by simp [Reducer.rest, hsz]
    rw [reducer_get_eos r k hb]
    exact ⟨by rw [← hf.2.2.1]; exact hr, hr⟩
  · intro hpos
    cases hb : (reducer_fill r).1
    · exact reducer_get_step r hI k hk hb
    · rw [reducer_get_eos r k hb] at hpos
      exact absurd (show ((-1 : Int)) < 0 by decide) hpos

theorem reducer_get_atMostOn : AtMostOn Reducer.Inv reducer_get := by
  intro r k hI hk
  obtain ⟨h1, h2, h3⟩ := reducer_get_delivers r k hI hk
  refine ⟨h1, ?_⟩
  by_cases hneg : (reducer_get r k).1.1 < 0
  · left
    have hb := reducer_get_neg r k (by omega) hneg
    rw [reducer_get_eos r k hb]
  · right
    obtain ⟨a, b, c, _⟩ := h3 hneg
    exact ⟨a, b, c⟩

/-- The fill loop of expander_get over reducer_get moves bytes from the Reducer to the
record of the chunks pulled, keeping their order. -/
theorem expander_while_rest (size : Int) (fuel : Nat) :
    ∀ st fin : ExpanderLoop Reducer, st.closure.Inv →
      expander_while reducer_get size fuel st = some fin →
      st.pulled.flatten ++ st.closure.rest = fin.pulled.flatten ++ fin.closure.rest := by
  induction fuel with
  | zero =>
    intro st fin _ h
    unfold expander_while at h
    split_ifs at h
    simp only [Option.some.injEq] at h
    rw [h]
  | succ fuel ih =>
    intro st fin hI h
    unfold expander_while at h
    by_cases hd : st.done < size
    · rw [if_pos hd] at h
      simp only at h
      obtain ⟨h1, h2, h3⟩ := reducer_get_delivers st.closure (size - st.done) hI (by omega)
      by_cases hneg : (reducer_get st.closure (size - st.done)).1.1 < 0
      · rw [if_pos hneg] at h
        have := ih _ fin h1 h
        simp only at this
        rw [← this, (h2 hneg).1, (h2 hneg).2]
      · rw [if_neg hneg] at h
        have := ih _ fin h1 h
        simp only at this
        rw [← this, (h3 hneg).2.2.2]
        simp
    · rw [if_neg hd] at h
      simp only [Option.some.injEq] at h
      rw [h]

/-- A call of expander_get over reducer_get moves the chunks it pulled out of the bytes
that the Reducer has still to deliver. -/
theorem expander_get_rest (junk fuel : Nat) (e : Expander) (r : Reducer) (size : Int)
    (hs : 1 ≤ size) (hI : r.Inv) (res : ExpanderResult Reducer)
    (h : expander_get reducer_get junk fuel e r size = some res) :
    r.rest = res.pulled.flatten ++ res.closure.rest := by
  obtain ⟨h1, h2, h3⟩ := reducer_get_delivers r size hI hs
  unfold expander_get at h
  simp only at h
  by_cases hneg : (reducer_get r size).1.1 < 0
  · rw [if_pos hneg] at h
    simp only [Option.some.injEq] at h
    rw [← h]
    simp only [List.flatten_nil, List.nil_append]
    rw [(h2 hneg).1, (h2 hneg).2]
  · rw [if_neg hneg] at h
    by_cases hlt : (reducer_get r size).1.1 < size
    · rw [if_pos hlt] at h
      split at h
      · exact absurd h (by simp)
      · rename_i fin hfin
        simp only [Option.some.injEq] at h
        rw [← h]
        simp only
        have := expander_while_rest size fuel _ fin h1 hfin
        simp only [List.flatten_cons, List.flatten_nil, List.append_nil] at this
        rw [← this]
        exact (h3 hneg).2.2.2
    · rw [if_neg hlt] at h
      simp only [Option.some.injEq] at h
      rw [← h]
      simp only [List.flatten_cons, List.flatten_nil, List.append_nil]
      exact (h3 hneg).2.2.2

/-- One call of expander_get over reducer_get with requested size s ≥ 1, in terms of the
bytes R that the Reducer has still to deliver: end of stream when R is empty, otherwise
the frame made of the first s bytes of R followed by zeros, R losing its first s bytes. -/
theorem expander_get_reducer (junk fuel : Nat) (e : Expander) (r : Reducer) (s : Nat)
    (hs : 1 ≤ s) (hfuel : s ≤ fuel) (hI : r.Inv) (he : (e.buffer.length : Int) = e.size) :
    ∃ res, expander_get reducer_get junk fuel e r (s : Int) = some res ∧
      res.closure.Inv ∧ (res.self.buffer.length : Int) = res.self.size ∧
      (r.rest = [] → res.num = -1) ∧
      (r.rest ≠ [] → res.num = (s : Int) ∧
        res.data = (r.rest ++ List.replicate (s - r.rest.length) 0).take s ∧
        res.closure.rest = r.rest.drop s) := by
  obtain ⟨res, hres, hinv, hgood⟩ := expander_get_on Reducer.Inv reducer_get
    reducer_get_atMostOn junk fuel e r (s : Int) hI (by omega) (by simpa using hfuel) he
  obtain ⟨g1, g2, g3⟩ := hgood
  have hrest := expander_get_rest junk fuel e r (s : Int) (by omega) hI res hres
  obtain ⟨d1, d2, d3⟩ := reducer_get_delivers r (s : Int) hI (by omega)
  refine ⟨res, hres, hinv, g3, ?_, ?_⟩
  · intro hnil
    rw [g1]
    by_cases hneg : (reducer_get r (s : Int)).1.1 < 0
    · have hb := reducer_get_neg r s (by omega) hneg
      rw [reducer_get_eos r s hb]
    · exfalso
      obtain ⟨a, _, c, d⟩ := d3 hneg
      rw [hnil] at d
      have hl := congrArg List.length d
      simp only [List.length_nil, List.length_append] at hl
      omega
  · intro hne
    have hnum : res.num ≠ -1 := by
      intro hn
      have h1 := g1.mp hn
      exact hne (d2 (by omega)).1
    obtain ⟨a1, a2, _, a4, a5, _⟩ := g2 hnum
    have hlen : res.pulled.flatten.length ≤ s := by
      have hl := congrArg List.length a4
      simp only [List.length_append, List.length_replicate, Int.toNat_ofNat] at hl
      omega
    simp only [Int.toNat_ofNat] at a4 a5
    refine ⟨a1, ?_, ?_⟩
    · cases hen : res.ended
      · have hp := a5 hen
        rw [a4, hrest, hp, Nat.sub_self, List.replicate_zero, List.append_nil,
          List.append_assoc, List.take_left' hp]
      · have hq := expander_get_ended reducer_get (fun c => c.rest = [])
          (fun c k hk hneg => by
            have hb := reducer_get_neg c k (by omega) hneg
            have ht := reducer_while_true c.closure c.last c.size c.offset c.pulls hb
            rw [reducer_get_eos c k hb]
            change (reducer_fill c).2.size = -1 ∧ _ at ht
            simp [Reducer.rest, ht.1])
          junk fuel e r (s : Int) res hres (by omega) hen
        simp only at hq
        rw [hq, List.append_nil] at hrest
        rw [a4, hrest]
        symm
        apply List.take_of_length_le
        simp only [List.length_append, List.length_replicate]
        omega
    · cases hen : res.ended
      · have hp := a5 hen
        rw [hrest, List.drop_left' hp]
      · have hq := expander_get_ended reducer_get (fun c => c.rest = [])
          (fun c k hk hneg => by
            have hb := reducer_get_neg c k (by omega) hneg
            have ht := reducer_while_true c.closure c.last c.size c.offset c.pulls hb
            rw [reducer_get_eos c k hb]
            change (reducer_fill c).2.size = -1 ∧ _ at ht
            simp [Reducer.rest, ht.1])
          junk fuel e r (s : Int) res hres (by omega) hen
        simp only at hq
        rw [hq]
        rw [hq, List.append_nil] at hrest
        symm
        apply List.drop_of_length_le
        rw [hrest]
        exact hlen

/-- Number of frames of s bytes needed for n bytes, one frame fewer bytes to go. -/
theorem frames_count (n s : Nat) (hs : 1 ≤ s) (hn : 1 ≤ n) :
    (n - s + s - 1) / s + 1 = (n + s - 1) / s := by
  by_cases h : s ≤ n
  · have e1 : n - s + s - 1 = n - 1 := by omega
    have e2 : n + s - 1 = n - 1 + s := by omega
    rw [e1, e2, Nat.add_div_right _ (by omega)]
  · have e1 : n - s + s - 1 = s - 1 := by omega
    have e2 : n + s - 1 = n - 1 + s := by omega
    rw [e1, e2, Nat.add_div_right _ (by omega), Nat.div_eq_of_lt (by omega),
      Nat.div_eq_of_lt (by omega)]

/-- Padding after n bytes, one frame fewer bytes to go. -/
theorem frames_padding (n s : Nat) (hn : 1 ≤ n) :
    (s - n) + (s - (n - s) % s) % s = (s - n % s) % s := by
  by_cases h : s ≤ n
  · have e1 : (n - s) % s = n % s := by
      conv_rhs => rw [show n = n - s + s by omega, Nat.add_mod_right]
    rw [e1]
    omega
  · have e1 : (n - s) % s = 0 := by
      rw [show n - s = 0 by omega, Nat.zero_mod]
    have e2 : n % s = n := Nat.mod_eq_of_lt (by omega)
    rw [e1, e2, Nat.sub_zero, Nat.mod_self, Nat.mod_eq_of_lt (by omega)]
    omega

/-- The sink loop over expander_get over reducer_get, in terms of the bytes R that the
Reducer has still to deliver. -/
theorem expander_drive_spec (junk inner s : Nat) (hs : 1 ≤ s) (hinner : s ≤ inner)
    (fuel : Nat) : ∀ (e : Expander) (r : Reducer), r.Inv →
      (e.buffer.length : Int) = e.size → r.rest.length < fuel →
      ∃ frames, expander_drive reducer_get junk inner (s : Int) fuel e r = some frames ∧
        frames.length = (r.rest.length + s - 1) / s ∧
        (∀ f ∈ frames, f.length = s) ∧
        frames.flatten = r.rest ++ List.replicate ((s - r.rest.length % s) % s) 0 := by
  induction fuel with
  | zero => intro e r _ _ h; omega
  | succ fuel ih =>
    intro e r hI he hlen
    obtain ⟨res, hres, hinv, hbuf, hnil, hcons⟩ :=
      expander_get_reducer junk inner e r s hs hinner hI he
    unfold expander_drive
    rw [hres]
    simp only
    by_cases hr : r.rest = []
    · have hnum := hnil hr
      rw [if_pos (by rw [hnum]; decide)]
      refine ⟨[], rfl, ?_, by simp, ?_⟩
      · rw [hr]
        simp only [List.length_nil, Nat.zero_add]
        exact (Nat.div_eq_of_lt (by omega)).symm
      · rw [hr]
        simp
    · obtain ⟨hnum, hdata, hrest⟩ := hcons hr
      have hpos : 1 ≤ r.rest.length := by
        cases hrr : r.rest with
        | nil => exact absurd hrr hr
        | cons a as => simp
      rw [if_neg (by rw [hnum]; omega)]
      have hl2 : res.closure.rest.length = r.rest.length - s := by
        rw [hrest, List.length_drop]
      obtain ⟨frames, hf1, hf2, hf3, hf4⟩ := ih res.self res.closure hinv hbuf (by omega)
      rw [hf1]
      have hdl : res.data.length = s := by
        rw [hdata, List.length_take, List.length_append, List.length_replicate]
        omega
      refine ⟨res.data :: frames, rfl, ?_, ?_, ?_⟩
      · rw [List.length_cons, hf2, hl2]
        exact frames_count r.rest.length s hs hpos
      · intro f hf
        rcases List.mem_cons.mp hf with h | h
        · rw [h]; exact hdl
        · exact hf3 f h
      · rw [List.flatten_cons, hf4, hl2, hdata, hrest]
        by_cases hle : s ≤ r.rest.length
        · have e0 : s - r.rest.length = 0 := by omega
          have e1 : (r.rest.length - s) % s = r.rest.length % s := by
            conv_rhs => rw [show r.rest.length = r.rest.length - s + s by omega,
              Nat.add_mod_right]
          rw [e0, List.replicate_zero, List.append_nil, e1, ← List.append_assoc,
            List.take_append_drop]
        · have e1 : List.drop s r.rest = [] := List.drop_of_length_le (by omega)
          have e2 : (r.rest ++ List.replicate (s - r.rest.length) 0).take s
              = r.rest ++ List.replicate (s - r.rest.length) 0 := by
            apply List.take_of_length_le
            simp only [List.length_append, List.length_replicate]
            omega
          have e3 := frames_padding r.rest.length s hpos
          rw [e1, e2, List.nil_append, List.append_assoc, ← List.replicate_add, e3]

/-- C24: the Reducer-then-Expander chain of main re-frames its input. For every frame
size s ≥ 1 and every finite sequence of upstream chunks with concatenation B, pulling
expander_get with size s over reducer_get until end of stream (given enough fuel)
yields ceil(|B| / s) frames of s bytes each, whose concatenation is B followed by
(-|B| mod s) zero bytes; no frame when B is empty, and no padding when s divides |B|. -/
theorem reducer_expander_frames (chunks : List Chunk) (s : Nat) (hs : 1 ≤ s)
    (junk inner fuel : Nat) (hinner : s ≤ inner) (hfuel : chunks.flatten.length < fuel) :
    ∃ frames,
      expander_drive reducer_get junk inner (s : Int) fuel (expander_create junk)
        (reducer_create chunks) = some frames ∧
      frames.length = (chunks.flatten.length + s - 1) / s ∧
      (∀ f ∈ frames, f.length = s) ∧
      frames.flatten
        = chunks.flatten ++ List.replicate ((s - chunks.flatten.length % s) % s) 0 ∧
      (chunks.flatten = [] → frames = []) ∧
      (s ∣ chunks.flatten.length → frames.flatten = chunks.flatten) := by
  have hrest : (reducer_create chunks).rest = chunks.flatten := by
    simp [Reducer.rest, reducer_create]
  obtain ⟨frames, h1, h2, h3, h4⟩ := expander_drive_spec junk inner s hs hinner fuel
    (expander_create junk) (reducer_create chunks) (reducer_create_inv chunks)
    (by simp [expander_create, new_buffer]) (by rw [hrest]; exact hfuel)
  rw [hrest] at h2 h4
  refine ⟨frames, h1, h2, h3, h4, ?_, ?_⟩
  · intro hB
    apply List.eq_nil_of_length_eq_zero
    rw [h2, hB, List.length_nil, Nat.zero_add]
    exact Nat.div_eq_of_lt (by omega)
  · intro hdvd
    rw [h4, Nat.mod_eq_zero_of_dvd hdvd, Nat.sub_zero, Nat.mod_self, List.replicate_zero,
      List.append_nil]

/-- Witness of C24: the upstream chunks [1,2,3], [], [4,5] re-framed by 4: two frames,
the second padded with three zero bytes. -/
theorem reducer_expander_frames_witness :
    ∃ frames,
      expander_drive reducer_get 0 4 (4 : Nat) 6 (expander_create 0)
        (reducer_create [[1, 2, 3], [], [4, 5]]) = some frames ∧
      frames.length = (([[1, 2, 3], [], [4, 5]] : List Chunk).flatten.length + 4 - 1) / 4 ∧
      (∀ f ∈ frames, f.length = 4) ∧
      frames.flatten
        = ([[1, 2, 3], [], [4, 5]] : List Chunk).flatten
          ++ List.replicate
              ((4 - ([[1, 2, 3], [], [4, 5]] : List Chunk).flatten.length % 4) % 4) 0 ∧
      (([[1, 2, 3], [], [4, 5]] : List Chunk).flatten = [] → frames = []) ∧
      (4 ∣ ([[1, 2, 3], [], [4, 5]] : List Chunk).flatten.length →
        frames.flatten = ([[1, 2, 3], [], [4, 5]] : List Chunk).flatten) :=
  reducer_expander_frames [[1, 2, 3], [], [4, 5]] 4 (by decide) 0 4 6 (by decide) (by decide)

/-- The frames of the example: 1, 2, 3, 4 and 5, 0, 0, 0. -/
theorem reducer_expander_frames_example :
    expander_drive reducer_get 0 4 4 6 (expander_create 0)
        (reducer_create [[1, 2, 3], [], [4, 5]]) = some [[1, 2, 3, 4], [5, 0, 0, 0]] ∧
    expander_drive reducer_get 0 2 2 5 (expander_create 0)
        (reducer_create [[1, 2, 3], [4]]) = some [[1, 2], [3, 4]] ∧
    expander_drive reducer_get 0 2 2 1 (expander_create 0) (reducer_create [[], []])
      = some [] := by
  decide

end Cconv
